import Mathlib

/-! The polyhedral bridge of `gcc/graphite-ppl.c`.

A shallow embedding of the conversion between CLooG matrices and PPL
constraints, of the dimension shifter, the strip-mining transformer and the
lexicographic comparator of `gcc/graphite-ppl.c` (namespace `GraphitePPL`),
and of the option check of `gcc/common/config/nds32/nds32-common.c`
(namespace `NDS32`).

Conventions of the embedding.

* Exact-precision values (`Value`, `mpz_t`, `ppl_Coefficient_t`) are `Int`.
* Counts and indices of objects held in memory (`ppl_dimension_type`,
  `NbRows`, `NbColumns`, the `int` loop counters) are `Nat`: the embedding
  covers matrices and expressions with fewer than `2^31` rows, columns and
  dimensions, on which the C arithmetic on those counts is exact.  Differences
  of two counts are taken in `Int`.
* The Parma Polyhedra Library and CLooG are outside the repository.  A PPL
  object is represented by the data the C interface lets the program observe:
  a linear expression by its coefficient list and inhomogeneous term, a
  constraint by an expression and a kind, a constraint system and a
  polyhedron by a space dimension and the list of their constraints.
* A C `for` loop is `forLoop lo hi body`, the fold of `body` over
  `lo, lo+1, .., hi-1`.
* An entry of a matrix is an `mpz_t` object.  Where the program compares an
  entry itself with 0, the comparison is that of an address with the null
  pointer (`CloogMatrix.entry_equals_null`), not that of the value.
-/

namespace GraphitePPL

/-! ## Loops -/

/-- The C loop `for (i = lo; i < hi; i++) s = body (i, s);`. -/
def forLoop {σ : Type} (lo hi : Nat) (body : Nat → σ → σ) (s : σ) : σ :=
  (List.range' lo (hi - lo)).foldl (fun acc i => body i acc) s

/-! ## CLooG matrices -/

/-- Modelled from the spec: the CLooG type `CloogMatrix` (declared outside the
repository), with its fields `NbRows`, `NbColumns` and the rows `p`.  Column 0
of a row is the kind flag (0 equality, 1 inequality), the last column the
constant.  The entries (`Value`) are exact integers, held as GMP `mpz_t`
objects: the program hands them to `ppl_assign_Coefficient_from_mpz_t` and
`ppl_Coefficient_to_mpz_t`. -/
structure CloogMatrix where
  NbRows : Nat
  NbColumns : Nat
  p : List (List Int)
deriving DecidableEq

/-- Row `row` of the matrix (`m->p[row]`). -/
def CloogMatrix.row (m : CloogMatrix) (row : Nat) : List Int :=
  m.p.getD row []

/-- The value `m->p[row][k]`. -/
def CloogMatrix.cell (m : CloogMatrix) (row k : Nat) : Int :=
  (m.row row).getD k 0

/-- The assignment `m->p[row][k] = v`. -/
def CloogMatrix.setCell (m : CloogMatrix) (row k : Nat) (v : Int) : CloogMatrix :=
  { m with p := m.p.set row ((m.row row).set k v) }

/-- The C expression `m->p[row][k] == 0`.  The entry is an `mpz_t`, an array
type: in the comparison it decays to the address of its first element, and
that address is compared with the null pointer.  The address of an object is
never null, so the expression is false whatever value the entry holds. -/
def CloogMatrix.entry_equals_null (_m : CloogMatrix) (_row _k : Nat) : Bool :=
  false

/-- Modelled from the spec: `cloog_matrix_alloc (rows, cols)` of CLooG, a
matrix of `rows` rows and `cols` columns (here filled with zeros). -/
def cloog_matrix_alloc (rows cols : Nat) : CloogMatrix :=
  { NbRows := rows, NbColumns := cols, p := List.replicate rows (List.replicate cols 0) }

/-! ## PPL linear expressions and constraints -/

/-- Modelled from the spec: a PPL linear expression, one exact integer
coefficient per dimension `0 .. dim-1` and one inhomogeneous term. -/
structure Linear_Expression where
  coefficients : List Int
  inhomogeneous : Int
deriving DecidableEq

/-- Modelled from the spec: the kinds of a PPL constraint
(`enum ppl_enum_Constraint_Type`).  `ppl_Constraint_type` returns an `int`;
`OTHER` stands for every value outside the five enumerated kinds, the
`default:` arm of a `switch` over the kind. -/
inductive Constraint_Type where
  | LESS_THAN
  | LESS_OR_EQUAL
  | EQUAL
  | GREATER_OR_EQUAL
  | GREATER_THAN
  | OTHER
deriving DecidableEq

/-- Modelled from the spec: a PPL constraint, a linear expression tagged with
a kind. -/
structure Constraint where
  expr : Linear_Expression
  type : Constraint_Type
deriving DecidableEq

/-- The PPL call `ppl_new_Linear_Expression_with_dimension`: the zero expression over
`dim` dimensions. -/
def ppl_new_Linear_Expression_with_dimension (dim : Nat) : Linear_Expression :=
  { coefficients := List.replicate dim 0, inhomogeneous := 0 }

/-- The PPL call `ppl_Linear_Expression_space_dimension`. -/
def ppl_Linear_Expression_space_dimension (e : Linear_Expression) : Nat :=
  e.coefficients.length

/-- The PPL call `ppl_Linear_Expression_coefficient`: the coefficient of dimension `i`
(zero for a dimension the expression does not have). -/
def ppl_Linear_Expression_coefficient (e : Linear_Expression) (i : Nat) : Int :=
  e.coefficients.getD i 0

/-- The PPL call `ppl_Linear_Expression_inhomogeneous_term`. -/
def ppl_Linear_Expression_inhomogeneous_term (e : Linear_Expression) : Int :=
  e.inhomogeneous

/-- The PPL call `ppl_Linear_Expression_add_to_coefficient`: adds `n` to the coefficient of
dimension `i`, widening the expression when it has no such dimension. -/
def ppl_Linear_Expression_add_to_coefficient (e : Linear_Expression) (i : Nat) (n : Int) :
    Linear_Expression :=
  let cs := e.coefficients ++ List.replicate (i + 1 - e.coefficients.length) 0
  { e with coefficients := cs.set i (cs.getD i 0 + n) }

/-- The PPL call `ppl_Linear_Expression_add_to_inhomogeneous`. -/
def ppl_Linear_Expression_add_to_inhomogeneous (e : Linear_Expression) (n : Int) :
    Linear_Expression :=
  { e with inhomogeneous := e.inhomogeneous + n }

/-- The PPL call `ppl_new_Constraint`: the constraint `expr REL 0` of the given kind. -/
def ppl_new_Constraint (expr : Linear_Expression) (kind : Constraint_Type) : Constraint :=
  { expr := expr, type := kind }

/-- The PPL call `ppl_new_Linear_Expression_from_Constraint`. -/
def ppl_new_Linear_Expression_from_Constraint (c : Constraint) : Linear_Expression :=
  c.expr

/-- The PPL call `ppl_Constraint_space_dimension`. -/
def ppl_Constraint_space_dimension (c : Constraint) : Nat :=
  c.expr.coefficients.length

/-- The PPL call `ppl_Constraint_coefficient`. -/
def ppl_Constraint_coefficient (c : Constraint) (i : Nat) : Int :=
  c.expr.coefficients.getD i 0

/-- The PPL call `ppl_Constraint_inhomogeneous_term`. -/
def ppl_Constraint_inhomogeneous_term (c : Constraint) : Int :=
  c.expr.inhomogeneous

/-- The PPL call `ppl_Constraint_type`. -/
def ppl_Constraint_type (c : Constraint) : Constraint_Type :=
  c.type

/-! ## Row ↔ constraint conversion (graphite-ppl.c, lines 29-173) -/

/-- The function `cloog_matrix_to_ppl_constraint (matrix, row)`.  The test
`matrix->p[row][0] == 0` that chooses the kind is a comparison of an `mpz_t`
entry with 0, see `CloogMatrix.entry_equals_null`. -/
def cloog_matrix_to_ppl_constraint (matrix : CloogMatrix) (row : Nat) : Constraint :=
  let dim := matrix.NbColumns - 2
  let expr := ppl_new_Linear_Expression_with_dimension dim
  let expr := forLoop 1 (matrix.NbColumns - 1)
    (fun j e => ppl_Linear_Expression_add_to_coefficient e (j - 1) (matrix.cell row j)) expr
  let expr := ppl_Linear_Expression_add_to_inhomogeneous expr
    (matrix.cell row (matrix.NbColumns - 1))
  if matrix.entry_equals_null row 0 then
    ppl_new_Constraint expr Constraint_Type.EQUAL
  else
    ppl_new_Constraint expr Constraint_Type.GREATER_OR_EQUAL

/-- The function `oppose_constraint (m, row)`: negates every column of the row but the
first. -/
def oppose_constraint (m : CloogMatrix) (row : Nat) : CloogMatrix :=
  forLoop 1 m.NbColumns (fun k m => m.setCell row k (- m.cell row k)) m

/-- The function `insert_constraint_into_matrix (m, row, cstr)`.  `none` is the
`gcc_unreachable ()` of the `default:` arm. -/
def insert_constraint_into_matrix (m : CloogMatrix) (row : Nat) (cstr : Constraint) :
    Option CloogMatrix :=
  let nb_cols := m.NbColumns
  let dim := ppl_Constraint_space_dimension cstr
  let m := forLoop 0 dim (fun i m => m.setCell row (i + 1) (ppl_Constraint_coefficient cstr i)) m
  let m := forLoop dim (nb_cols - 1) (fun i m => m.setCell row (i + 1) 0) m
  let m := m.setCell row (nb_cols - 1) (ppl_Constraint_inhomogeneous_term cstr)
  let m := m.setCell row 0 1
  match ppl_Constraint_type cstr with
  | Constraint_Type.LESS_THAN =>
      let m := oppose_constraint m row
      some (m.setCell row (nb_cols - 1) (m.cell row (nb_cols - 1) - 1))
  | Constraint_Type.GREATER_THAN =>
      some (m.setCell row (nb_cols - 1) (m.cell row (nb_cols - 1) - 1))
  | Constraint_Type.LESS_OR_EQUAL =>
      some (oppose_constraint m row)
  | Constraint_Type.GREATER_OR_EQUAL =>
      some m
  | Constraint_Type.EQUAL =>
      some (m.setCell row 0 0)
  | Constraint_Type.OTHER =>
      none


/-! ## PPL constraint systems and polyhedra -/

/-- Modelled from the spec: a PPL constraint system, a collection of
constraints sharing one space dimension, in iteration order. -/
structure Constraint_System where
  space_dimension : Nat
  constraints : List Constraint
deriving DecidableEq

/-- Modelled from the spec: a PPL polyhedron, the region over `space_dimension`
dimensions that satisfies the conjunction of its constraints. -/
structure Polyhedron where
  space_dimension : Nat
  constraints : List Constraint
deriving DecidableEq

/-- The PPL call `ppl_new_NNC_Polyhedron_from_space_dimension (&ph, d, empty)`: the universe
of dimension `d` when `empty` is 0, the empty polyhedron otherwise. -/
def ppl_new_NNC_Polyhedron_from_space_dimension (d : Nat) (empty : Int) : Polyhedron :=
  { space_dimension := d,
    constraints := if empty = 0 then [] else [⟨⟨[], 1⟩, Constraint_Type.EQUAL⟩] }

/-- The PPL call `ppl_Polyhedron_space_dimension`. -/
def ppl_Polyhedron_space_dimension (ph : Polyhedron) : Nat :=
  ph.space_dimension

/-- The PPL call `ppl_Polyhedron_get_constraints`. -/
def ppl_Polyhedron_get_constraints (ph : Polyhedron) : Constraint_System :=
  { space_dimension := ph.space_dimension, constraints := ph.constraints }

/-- The PPL call `ppl_Polyhedron_add_constraint`: intersects with one constraint; a
constraint over more dimensions than the polyhedron is refused by the library
and leaves the polyhedron as it is. -/
def ppl_Polyhedron_add_constraint (ph : Polyhedron) (c : Constraint) : Polyhedron :=
  if ppl_Constraint_space_dimension c ≤ ph.space_dimension then
    { ph with constraints := ph.constraints ++ [c] }
  else ph

/-- The PPL call `ppl_Polyhedron_add_constraints`: intersects with every constraint of the
system; a system over more dimensions than the polyhedron is refused by the
library and leaves the polyhedron as it is. -/
def ppl_Polyhedron_add_constraints (ph : Polyhedron) (cs : Constraint_System) : Polyhedron :=
  if cs.space_dimension ≤ ph.space_dimension then
    { ph with constraints := ph.constraints ++ cs.constraints }
  else ph

/-- Coefficients of an expression after dimension `i` has been renamed
`maps[i]` for every `i < n`: the coefficient of the new dimension `j` is the
coefficient of the old dimension sent to `j`. -/
def map_coefficients (maps : List Nat) (n : Nat) (a : List Int) : List Int :=
  (List.range n).map (fun j =>
    match (List.range n).find? (fun i => maps.getD i 0 = j) with
    | some i => a.getD i 0
    | none => 0)

/-- The PPL call `ppl_Polyhedron_map_space_dimensions (ph, maps, n)` for an array `maps`
that permutes `0 .. n-1`, the only use the program makes of it: dimension `i`
of every constraint becomes dimension `maps[i]`. -/
def ppl_Polyhedron_map_space_dimensions (ph : Polyhedron) (maps : List Nat) (n : Nat) :
    Polyhedron :=
  { space_dimension := n,
    constraints := ph.constraints.map (fun c =>
      { c with expr := { c.expr with
          coefficients := map_coefficients maps n c.expr.coefficients } }) }

/-! ## Matrix ↔ polyhedron conversion (graphite-ppl.c, lines 63-221) -/

/-- The PPL call `ppl_new_Constraint_System`: the empty system, of space
dimension 0. -/
def ppl_new_Constraint_System : Constraint_System :=
  { space_dimension := 0, constraints := [] }

/-- The PPL call `ppl_Constraint_System_insert_Constraint`: appends the
constraint; the space dimension of the system grows to that of the constraint
when the constraint has more dimensions. -/
def ppl_Constraint_System_insert_Constraint (cs : Constraint_System) (c : Constraint) :
    Constraint_System :=
  { space_dimension := max cs.space_dimension (ppl_Constraint_space_dimension c),
    constraints := cs.constraints ++ [c] }

/-- The PPL call `ppl_Constraint_System_space_dimension`. -/
def ppl_Constraint_System_space_dimension (cs : Constraint_System) : Nat :=
  cs.space_dimension

/-- The PPL call `ppl_new_NNC_Polyhedron_recycle_Constraint_System`: the
polyhedron defined by the system, over the space dimension of the system. -/
def ppl_new_NNC_Polyhedron_recycle_Constraint_System (cs : Constraint_System) : Polyhedron :=
  { space_dimension := cs.space_dimension, constraints := cs.constraints }

/-- The function `new_Constraint_System_from_Cloog_Matrix (pcs, matrix)`. -/
def new_Constraint_System_from_Cloog_Matrix (matrix : CloogMatrix) : Constraint_System :=
  forLoop 0 matrix.NbRows
    (fun i pcs =>
      let c := cloog_matrix_to_ppl_constraint matrix i
      ppl_Constraint_System_insert_Constraint pcs c)
    ppl_new_Constraint_System

/-- The function `new_NNC_Polyhedron_from_Cloog_Matrix (ph, matrix)`. -/
def new_NNC_Polyhedron_from_Cloog_Matrix (matrix : CloogMatrix) : Polyhedron :=
  let cs := new_Constraint_System_from_Cloog_Matrix matrix
  ppl_new_NNC_Polyhedron_recycle_Constraint_System cs

/-- The function `ppl_Constrain_System_number_of_constraints (pcs)`: walks the
system with an iterator and counts. -/
def ppl_Constrain_System_number_of_constraints (pcs : Constraint_System) : Nat :=
  pcs.constraints.foldl (fun num _ => num + 1) 0

/-- The body of the loop of `new_Cloog_Matrix_from_ppl_Constraint_System`:
`insert_constraint_into_matrix (matrix, row, c); row++;`.  The state is the
matrix and the variable `row`; `none` is the `gcc_unreachable ()` of
`insert_constraint_into_matrix`. -/
def insert_step (st : Option (CloogMatrix × Nat)) (c : Constraint) :
    Option (CloogMatrix × Nat) :=
  match st with
  | some (matrix, row) =>
    (insert_constraint_into_matrix matrix row c).map (fun m => (m, row + 1))
  | none => none

/-- The function `new_Cloog_Matrix_from_ppl_Constraint_System (pcs)`: the
matrix is allocated with one row per constraint and `dim + 2` columns, then
filled by the loop over the constraints. -/
def new_Cloog_Matrix_from_ppl_Constraint_System (pcs : Constraint_System) :
    Option CloogMatrix :=
  let rows := ppl_Constrain_System_number_of_constraints pcs
  let dim := ppl_Constraint_System_space_dimension pcs
  let matrix := cloog_matrix_alloc rows (dim + 2)
  (pcs.constraints.foldl insert_step (some (matrix, 0))).map Prod.fst

/-- The function `new_Cloog_Matrix_from_ppl_Polyhedron (ph)`. -/
def new_Cloog_Matrix_from_ppl_Polyhedron (ph : Polyhedron) : Option CloogMatrix :=
  let pcs := ppl_Polyhedron_get_constraints ph
  new_Cloog_Matrix_from_ppl_Constraint_System pcs

/-! ## Setting coefficients (graphite-ppl.c, lines 223-271) -/

/-- The function `set_inhomogeneous (e, x)`. -/
def set_inhomogeneous (e : Linear_Expression) (x : Int) : Linear_Expression :=
  let v1 := ppl_Linear_Expression_inhomogeneous_term e
  let v1 := - v1
  let v0 := x
  let v0 := v0 + v1
  ppl_Linear_Expression_add_to_inhomogeneous e v0

/-- The function `set_coef (e, i, x)`. -/
def set_coef (e : Linear_Expression) (i : Nat) (x : Int) : Linear_Expression :=
  let v1 := ppl_Linear_Expression_coefficient e i
  let v1 := - v1
  let v0 := x
  let v0 := v0 + v1
  ppl_Linear_Expression_add_to_coefficient e i v0

/-! ## Dimension shift and strip-mining (graphite-ppl.c, lines 273-397) -/

/-- The function `shift_poly (ph, x, dim)`.  The array `map` is allocated with `dim + 1`
entries and filled by the two loops and the final assignment. -/
def shift_poly (ph : Polyhedron) (x dim : Nat) : Polyhedron :=
  let res := ppl_new_NNC_Polyhedron_from_space_dimension (dim + 1) 0
  let pcs := ppl_Polyhedron_get_constraints ph
  let res := ppl_Polyhedron_add_constraints res pcs
  let map : List Nat := List.replicate (dim + 1) 0
  let map := forLoop 0 x (fun i map => map.set i i) map
  let map := forLoop x dim (fun i map => map.set i (i + 1)) map
  let map := map.set dim x
  ppl_Polyhedron_map_space_dimensions res map (dim + 1)

/-- The statement `v = value_get_si (val)` with `int v`.  The macro
`value_get_si` is declared by CLooG, outside the repository: it is the GMP
conversion of an exact integer to a machine `long`, and the assignment keeps
the low 32 bits as a two's complement `int` (LP64 target).  The exact value is
returned when it fits in an `int`. -/
def value_get_si (val : Int) : Int :=
  (val + 2147483648) % 4294967296 - 2147483648

/-- The function `ppl_strip_loop (ph, loop, stride)`.  `stride` is a C `int`; the `int`
expressions `-1 * stride` and `stride - 1` are taken as exact, which they are
for every `int` but `INT_MIN = -2147483648`, where both overflow.  What is
stated about the two bounds built from them is stated for
`-2147483648 < stride`. -/
def ppl_strip_loop (ph : Polyhedron) (loop : Nat) (stride : Int) : Polyhedron :=
  let dim := ppl_Polyhedron_space_dimension ph
  let pcs := ppl_Polyhedron_get_constraints ph
  let res := ppl_new_NNC_Polyhedron_from_space_dimension (dim + 1) 0
  let res := ppl_Polyhedron_add_constraints res pcs
  let res := shift_poly res loop dim
  let tmp := ppl_new_NNC_Polyhedron_from_space_dimension (dim + 1) 0
  let tmp := pcs.constraints.foldl (fun tmp cstr =>
    let expr := ppl_new_Linear_Expression_from_Constraint cstr
    let val := ppl_Linear_Expression_coefficient expr loop
    let v := value_get_si val
    if 0 < v ∨ v < 0 then ppl_Polyhedron_add_constraint tmp cstr else tmp) tmp
  let tmp := shift_poly tmp (loop + 1) dim
  let pcs := ppl_Polyhedron_get_constraints tmp
  let res := ppl_Polyhedron_add_constraints res pcs
  let expr := ppl_new_Linear_Expression_with_dimension (dim + 1)
  let expr := set_coef expr (loop + 1) 1
  let expr := set_coef expr loop (-1 * stride)
  let new_cstr := ppl_new_Constraint expr Constraint_Type.GREATER_OR_EQUAL
  let res := ppl_Polyhedron_add_constraint res new_cstr
  let expr := ppl_new_Linear_Expression_with_dimension (dim + 1)
  let expr := set_coef expr (loop + 1) (-1)
  let expr := set_coef expr loop stride
  let expr := set_inhomogeneous expr (stride - 1)
  let new_cstr := ppl_new_Constraint expr Constraint_Type.GREATER_OR_EQUAL
  ppl_Polyhedron_add_constraint res new_cstr

/-! ## Lexicographic comparison (graphite-ppl.c, lines 399-444) -/

/-- Modelled from the spec: `value_compare (va, vb)`, the sign of the
difference of two exact integers. -/
def value_compare (va vb : Int) : Int :=
  Int.sign (va - vb)

/-- The loop of `ppl_lexico_compare_linear_expressions` with `n` iterations
left, at index `i`: `some res` when the loop returns `res`, `none` when it
runs to its end. -/
def lexico_loop (a b : Linear_Expression) : Nat → Nat → Option Int
  | 0, _ => none
  | n + 1, i =>
    let va := ppl_Linear_Expression_coefficient a i
    let vb := ppl_Linear_Expression_coefficient b i
    let res := value_compare va vb
    if res = 0 then lexico_loop a b n (i + 1) else some res

/-- The function `ppl_lexico_compare_linear_expressions (a, b)`. -/
def ppl_lexico_compare_linear_expressions (a b : Linear_Expression) : Int :=
  let length1 := ppl_Linear_Expression_space_dimension a
  let length2 := ppl_Linear_Expression_space_dimension b
  let min_length := if length1 < length2 then length1 else length2
  match lexico_loop a b min_length 0 with
  | some res => res
  | none => (length1 : Int) - (length2 : Int)

/-! ## Points and satisfaction -/

/-- Dot product of a coefficient list with a point; a dimension missing on
either side contributes nothing. -/
def dot {R : Type} [LinearOrderedCommRing R] : List Int → List R → R
  | a :: as, x :: xs => (a : R) * x + dot as xs
  | _, _ => 0

/-- Value of a linear expression at the point `x`. -/
def Linear_Expression.eval {R : Type} [LinearOrderedCommRing R] (e : Linear_Expression)
    (x : List R) : R :=
  dot e.coefficients x + (e.inhomogeneous : R)

/-- Modelled from the spec: a constraint holds at `x` iff the value of its
expression at `x` satisfies the kind's relation to zero. -/
def Constraint.holds {R : Type} [LinearOrderedCommRing R] (c : Constraint) (x : List R) : Prop :=
  match c.type with
  | Constraint_Type.LESS_THAN => c.expr.eval x < 0
  | Constraint_Type.LESS_OR_EQUAL => c.expr.eval x ≤ 0
  | Constraint_Type.EQUAL => c.expr.eval x = 0
  | Constraint_Type.GREATER_OR_EQUAL => 0 ≤ c.expr.eval x
  | Constraint_Type.GREATER_THAN => 0 < c.expr.eval x
  | Constraint_Type.OTHER => False

/-- Value of a matrix row at `x`: columns `1 .. columns-2` dotted with `x`
plus the last column. -/
def rowValue {R : Type} [LinearOrderedCommRing R] (r : List Int) (x : List R) : R :=
  dot ((r.drop 1).take (r.length - 2)) x + ((r.getD (r.length - 1) 0 : Int) : R)

/-- Modelled from the spec: a matrix row is satisfied by `x` when its value is
`= 0` and column 0 is 0, or its value is `≥ 0` and column 0 is 1. -/
def rowHolds {R : Type} [LinearOrderedCommRing R] (r : List Int) (x : List R) : Prop :=
  (r.getD 0 0 = 0 ∧ rowValue r x = 0) ∨ (r.getD 0 0 = 1 ∧ 0 ≤ rowValue r x)

/-- A point `x` belongs to the polyhedron: it has one coordinate per
dimension and every constraint holds at it. -/
def Polyhedron.contains {R : Type} [LinearOrderedCommRing R] (ph : Polyhedron) (x : List R) :
    Prop :=
  x.length = ph.space_dimension ∧ ∀ c ∈ ph.constraints, c.holds x

/-- Invariant of a polyhedron: no constraint mentions a dimension the polyhedron
does not have. -/
def Polyhedron.wf (ph : Polyhedron) : Prop :=
  ∀ c ∈ ph.constraints, ppl_Constraint_space_dimension c ≤ ph.space_dimension

instance {R : Type} [LinearOrderedCommRing R] (c : Constraint) (x : List R) :
    Decidable (c.holds x) := by
  unfold Constraint.holds
  cases c.type <;> infer_instance

instance {R : Type} [LinearOrderedCommRing R] (ph : Polyhedron) (x : List R) :
    Decidable (ph.contains x) :=
  inferInstanceAs (Decidable (x.length = ph.space_dimension ∧ ∀ c ∈ ph.constraints, c.holds x))

instance {R : Type} [LinearOrderedCommRing R] (r : List Int) (x : List R) :
    Decidable (rowHolds r x) :=
  inferInstanceAs (Decidable
    ((r.getD 0 0 = 0 ∧ rowValue r x = 0) ∨ (r.getD 0 0 = 1 ∧ 0 ≤ rowValue r x)))

instance (ph : Polyhedron) : Decidable ph.wf :=
  inferInstanceAs (Decidable (∀ c ∈ ph.constraints,
    ppl_Constraint_space_dimension c ≤ ph.space_dimension))

/-- The point `x` with the value `v` inserted at index `k`. -/
def insertAt {α : Type} (x : List α) (k : Nat) (v : α) : List α :=
  x.take k ++ v :: x.drop k

/-- The point `x` with its coordinate at index `k` deleted. -/
def deleteAt {α : Type} (x : List α) (k : Nat) : List α :=
  x.take k ++ x.drop (k + 1)

/-! ## Example polyhedra -/

/-- The loop `0 ≤ i ≤ 9`: constraints `i ≥ 0` and `-i + 9 ≥ 0`. -/
def loop_0_9 : Polyhedron :=
  { space_dimension := 1,
    constraints := [⟨⟨[1], 0⟩, Constraint_Type.GREATER_OR_EQUAL⟩,
                    ⟨⟨[-1], 9⟩, Constraint_Type.GREATER_OR_EQUAL⟩] }

/-- The loop `5 ≤ i ≤ 9`: constraints `i - 5 ≥ 0` and `-i + 9 ≥ 0`. -/
def loop_5_9 : Polyhedron :=
  { space_dimension := 1,
    constraints := [⟨⟨[1], -5⟩, Constraint_Type.GREATER_OR_EQUAL⟩,
                    ⟨⟨[-1], 9⟩, Constraint_Type.GREATER_OR_EQUAL⟩] }

/-- The nest `0 ≤ j ≤ i ≤ 9` over the dimensions `(i, j)`: constraints
`j ≥ 0`, `i - j ≥ 0` and `-i + 9 ≥ 0`. -/
def nest_j_le_i : Polyhedron :=
  { space_dimension := 2,
    constraints := [⟨⟨[0, 1], 0⟩, Constraint_Type.GREATER_OR_EQUAL⟩,
                    ⟨⟨[1, -1], 0⟩, Constraint_Type.GREATER_OR_EQUAL⟩,
                    ⟨⟨[-1, 0], 9⟩, Constraint_Type.GREATER_OR_EQUAL⟩] }

/-! ## Closed forms used in the proofs -/

/-- The matrix `m` with row `row` replaced by `r`. -/
def CloogMatrix.withRow (m : CloogMatrix) (row : Nat) (r : List Int) : CloogMatrix :=
  { m with p := m.p.set row r }

/-- Sign applied to the expression by `insert_constraint_into_matrix`: the row
is opposed for the two "less" kinds. -/
def Constraint_Type.rowSign : Constraint_Type → Int
  | Constraint_Type.LESS_THAN => -1
  | Constraint_Type.LESS_OR_EQUAL => -1
  | _ => 1

/-- Amount taken from the constant by `insert_constraint_into_matrix`: one for
the two strict kinds. -/
def Constraint_Type.rowAdjust : Constraint_Type → Int
  | Constraint_Type.LESS_THAN => 1
  | Constraint_Type.GREATER_THAN => 1
  | _ => 0

/-- Kind flag written by `insert_constraint_into_matrix`. -/
def Constraint_Type.rowFlag : Constraint_Type → Int
  | Constraint_Type.EQUAL => 0
  | _ => 1

/-- Column `j` of the row that `insert_constraint_into_matrix` writes for
`cstr` in a matrix of `nb_cols` columns (closed form, see `insert_row_spec`). -/
def rowEntry (nb_cols : Nat) (cstr : Constraint) (j : Nat) : Int :=
  if j = 0 then cstr.type.rowFlag
  else if j < cstr.expr.coefficients.length + 1 then
    cstr.type.rowSign * cstr.expr.coefficients.getD (j - 1) 0
  else if j < nb_cols - 1 then 0
  else cstr.type.rowSign * cstr.expr.inhomogeneous - cstr.type.rowAdjust


/-- The row that `insert_constraint_into_matrix` writes for `cstr` in a matrix
of `nb_cols` columns, as a list (closed form, see `insert_eq`). -/
def constraint_row (nb_cols : Nat) (cstr : Constraint) : List Int :=
  (List.range nb_cols).map (rowEntry nb_cols cstr)

/-- Row-level effect of a loop `for (k = lo; k < hi; k++) m->p[row][k + 1] = f k`. -/
def writeRow (f : Nat → Int) (lo hi : Nat) (r : List Int) : List Int :=
  (List.range' lo (hi - lo)).foldl (fun r k => r.set (k + 1) (f k)) r

/-- Row-level effect of `oppose_constraint` on a row of `nb_cols` columns. -/
def opposeRow (nb_cols : Nat) (r : List Int) : List Int :=
  (List.range' 1 (nb_cols - 1)).foldl (fun r k => r.set k (- r.getD k 0)) r

/-- The array `map` that `shift_poly (ph, x, dim)` builds. -/
def shift_map (x dim : Nat) : List Nat :=
  (forLoop x dim (fun i map => map.set i (i + 1))
    (forLoop 0 x (fun i map => map.set i i) (List.replicate (dim + 1) 0))).set dim x

/-- The constraint `c` with its dimensions renamed by `shift_map x dim`. -/
def shift_constraint (x dim : Nat) (c : Constraint) : Constraint :=
  { c with expr := { c.expr with
      coefficients := map_coefficients (shift_map x dim) (dim + 1) c.expr.coefficients } }

/-- The test `0 < v || v < 0` of `ppl_strip_loop` on the coefficient of
dimension `loop` of the constraint `c`. -/
def strip_selected (loop : Nat) (c : Constraint) : Bool :=
  decide (0 < value_get_si (ppl_Linear_Expression_coefficient
      (ppl_new_Linear_Expression_from_Constraint c) loop) ∨
    value_get_si (ppl_Linear_Expression_coefficient
      (ppl_new_Linear_Expression_from_Constraint c) loop) < 0)

/-- The lower bound of a tile that `ppl_strip_loop` adds. -/
def strip_lower (dim loop : Nat) (stride : Int) : Constraint :=
  { expr := { coefficients := ((List.replicate (dim + 1) 0).set (loop + 1) 1).set loop
                (-1 * stride),
              inhomogeneous := 0 },
    type := Constraint_Type.GREATER_OR_EQUAL }

/-- The upper bound of a tile that `ppl_strip_loop` adds. -/
def strip_upper (dim loop : Nat) (stride : Int) : Constraint :=
  { expr := { coefficients := ((List.replicate (dim + 1) 0).set (loop + 1) (-1)).set loop stride,
              inhomogeneous := stride - 1 },
    type := Constraint_Type.GREATER_OR_EQUAL }

/-- The indices of the array `map` that `shift_poly (ph, x, dim)` assigns, in
the order of the assignments: the loop `i = 0 .. x-1`, the loop
`i = x .. dim-1`, then `map[dim]`. -/
def shift_map_writes (x dim : Nat) : List Nat :=
  let w : List Nat := []
  let w := forLoop 0 x (fun i w => w ++ [i]) w
  let w := forLoop x dim (fun i w => w ++ [i]) w
  w ++ [dim]

end GraphitePPL

namespace NDS32

/-! ## Option handling of the NDS32 target (common/config/nds32/nds32-common.c, lines 33-70)

`nds32_handle_option` reads two fields of the decoded option, `opt_index` and
`value`, and switches on the first.  The option codes are enumeration constants
of the generated `options.h`; `exact_log2` and `HOST_WIDE_INT` belong to
`hwint.h`.  Both headers are outside the repository. -/

/-- The values of `decoded->opt_index` that the `switch` tells apart: the two
`case` labels, and any other option code, which goes to `default:`. -/
inductive opt_code where
  | OPT_misr_vector_size_
  | OPT_mcache_block_size_
  | OPT_other (opt_index : Nat)
  deriving DecidableEq

/-- The fields of `struct cl_decoded_option` that the function reads.  `value`
is a C `int`. -/
structure cl_decoded_option where
  opt_index : opt_code
  value : Int

/-- The conversion of the `int` argument of `exact_log2 (value)` to the parameter
type `unsigned HOST_WIDE_INT`, an unsigned type of `bits` bits: the value modulo
`2 ^ bits`. -/
def to_unsigned_HOST_WIDE_INT (bits : Nat) (value : Int) : Nat :=
  (value % 2 ^ bits).toNat

/-- Modelled from the spec: `exact_log2 (x)` of `hwint.h`, for an
`unsigned HOST_WIDE_INT` of `bits` bits.  It "returns the base-2 logarithm of a
power of two and -1 for any other value". -/
def exact_log2 (bits : Nat) (x : Nat) : Int :=
  match (List.range bits).find? (fun k => decide (2 ^ k = x)) with
  | some k => (k : Int)
  | none => -1

/-- The function `nds32_handle_option (opts, opts_set, decoded, loc)`.  The arguments `opts`
and `opts_set` are unused and `loc` only places the diagnostic.  The result is
the value returned, together with the text that `error_at` reports, if any.
`bits` is the width of `HOST_WIDE_INT`. -/
def nds32_handle_option (bits : Nat) (decoded : cl_decoded_option) : Bool × Option String :=
  let code := decoded.opt_index
  let value := decoded.value
  match code with
  | opt_code.OPT_misr_vector_size_ =>
    if value ≠ 4 ∧ value ≠ 16 then
      (false, some "for the option -misr-vector-size=X, the valid X must be: 4 or 16")
    else
      (true, none)
  | opt_code.OPT_mcache_block_size_ =>
    if exact_log2 bits (to_unsigned_HOST_WIDE_INT bits value) < 2 ∨
        exact_log2 bits (to_unsigned_HOST_WIDE_INT bits value) > 9 then
      (false, some ("for the option -mcache-block-size=X, the valid X " ++
        "must be: 4, 8, 16, 32, 64, 128, 256, or 512"))
    else
      (true, none)
  | opt_code.OPT_other _ => (true, none)

end NDS32

namespace GraphitePPL

/-! ## Loop lemmas -/

theorem foldl_set_length {α : Type} (d : α) (h : Nat → α → α) (off : Nat) :
    ∀ (n lo : Nat) (r : List α),
      ((List.range' lo n).foldl
        (fun acc k => acc.set (k + off) (h k (acc.getD (k + off) d))) r).length = r.length := by
  intro n
  induction n with
  | zero => intro lo r; rfl
  | succ n ih =>
    intro lo r
    rw [List.range'_succ, List.foldl_cons, ih, List.length_set]

theorem foldl_set_pointwise {α : Type} (d : α) (h : Nat → α → α) (off : Nat) :
    ∀ (n lo : Nat) (r : List α) (j : Nat),
      ((List.range' lo n).foldl
        (fun acc k => acc.set (k + off) (h k (acc.getD (k + off) d))) r)[j]? =
        if lo + off ≤ j ∧ j < lo + n + off then (r[j]?).map (h (j - off)) else r[j]? := by
  intro n
  induction n with
  | zero =>
    intro lo r j
    have : ¬ (lo + off ≤ j ∧ j < lo + 0 + off) := by omega
    rw [if_neg this]; rfl
  | succ n ih =>
    intro lo r j
    rw [List.range'_succ, List.foldl_cons, ih]
    by_cases hj : j = lo + off
    · subst hj
      have h1 : ¬ (lo + 1 + off ≤ lo + off ∧ lo + off < lo + 1 + n + off) := by omega
      have h2 : (lo + off ≤ lo + off ∧ lo + off < lo + (n + 1) + off) := by omega
      rw [if_neg h1, if_pos h2, List.getElem?_set, if_pos rfl, List.getD_eq_getElem?_getD]
      cases hr : r[lo + off]? with
      | none =>
        have hlen : ¬ (lo + off < r.length) := by
          have := List.getElem?_eq_none_iff.mp hr
          omega
        simp [hlen]
      | some v =>
        have hlen : lo + off < r.length := by
          by_contra hc
          have := List.getElem?_eq_none_iff.mpr (Nat.le_of_not_lt hc)
          rw [this] at hr
          cases hr
        simp [hlen]
    · have hne : ¬ (lo + off = j) := fun h => hj h.symm
      simp only [List.getElem?_set, if_neg hne]
      by_cases hc : lo + 1 + off ≤ j ∧ j < lo + 1 + n + off
      · have h2 : (lo + off ≤ j ∧ j < lo + (n + 1) + off) := by omega
        rw [if_pos hc, if_pos h2]
      · have h2 : ¬ (lo + off ≤ j ∧ j < lo + (n + 1) + off) := by omega
        rw [if_neg hc, if_neg h2]

theorem foldl_set_getD {α : Type} (d : α) (h : Nat → α → α) (off n lo : Nat) (r : List α)
    (j : Nat) (hj : j < r.length) :
    ((List.range' lo n).foldl
        (fun acc k => acc.set (k + off) (h k (acc.getD (k + off) d))) r).getD j d =
      if lo + off ≤ j ∧ j < lo + n + off then h (j - off) (r.getD j d) else r.getD j d := by
  rw [List.getD_eq_getElem?_getD, foldl_set_pointwise, List.getD_eq_getElem?_getD,
    List.getElem?_eq_getElem hj]
  split <;> rfl

theorem CloogMatrix.row_set (m : CloogMatrix) (row : Nat) (r : List Int)
    (h : row < m.p.length) :
    ({ m with p := m.p.set row r } : CloogMatrix).row row = r := by
  simp [CloogMatrix.row, List.getD_eq_getElem?_getD, List.getElem?_set, h]

theorem CloogMatrix.set_row_self (m : CloogMatrix) (row : Nat) :
    ({ m with p := m.p.set row (m.row row) } : CloogMatrix) = m := by
  cases m with
  | mk nr nc p =>
    simp only [CloogMatrix.row, CloogMatrix.mk.injEq, true_and]
    apply List.ext_getElem?
    intro j
    rw [List.getElem?_set, List.getD_eq_getElem?_getD]
    by_cases hj : row = j
    · subst hj
      by_cases hl : row < p.length
      · simp [hl]
      · simp [hl, List.getElem?_eq_none_iff.mpr (Nat.le_of_not_lt hl)]
    · simp [hj]

theorem foldl_setCell (h : Nat → Int → Int) (off row : Nat) :
    ∀ (n lo : Nat) (m : CloogMatrix), row < m.p.length →
      (List.range' lo n).foldl
        (fun acc k => acc.setCell row (k + off) (h k (acc.cell row (k + off)))) m =
      { m with p := m.p.set row ((List.range' lo n).foldl
          (fun r k => r.set (k + off) (h k (r.getD (k + off) 0))) (m.row row)) } := by
  intro n
  induction n with
  | zero =>
    intro lo m _
    simp only [List.range'_zero, List.foldl_nil]
    exact (CloogMatrix.set_row_self m row).symm
  | succ n ih =>
    intro lo m hrow
    rw [List.range'_succ, List.foldl_cons, List.foldl_cons, ih]
    · simp only [CloogMatrix.setCell, CloogMatrix.cell]
      rw [CloogMatrix.row_set _ _ _ hrow, List.set_set]
    · simpa [CloogMatrix.setCell] using hrow

theorem CloogMatrix.withRow_self (m : CloogMatrix) (row : Nat) :
    m.withRow row (m.row row) = m :=
  CloogMatrix.set_row_self m row

theorem CloogMatrix.row_withRow (m : CloogMatrix) (row : Nat) (r : List Int)
    (h : row < m.p.length) : (m.withRow row r).row row = r :=
  CloogMatrix.row_set m row r h

theorem CloogMatrix.cell_withRow (m : CloogMatrix) (row : Nat) (r : List Int) (k : Nat)
    (h : row < m.p.length) : (m.withRow row r).cell row k = r.getD k 0 := by
  rw [CloogMatrix.cell, CloogMatrix.row_withRow m row r h]

theorem CloogMatrix.setCell_withRow (m : CloogMatrix) (row : Nat) (r : List Int) (k : Nat)
    (v : Int) (h : row < m.p.length) :
    (m.withRow row r).setCell row k v = m.withRow row (r.set k v) := by
  simp only [CloogMatrix.setCell]
  rw [CloogMatrix.row_withRow m row r h]
  simp [CloogMatrix.withRow, List.set_set]

theorem forLoop_setCell_withRow (h : Nat → Int → Int) (off row lo hi : Nat) (m : CloogMatrix)
    (r : List Int) (hrow : row < m.p.length) :
    forLoop lo hi (fun k acc => acc.setCell row (k + off) (h k (acc.cell row (k + off))))
        (m.withRow row r) =
      m.withRow row ((List.range' lo (hi - lo)).foldl
          (fun r k => r.set (k + off) (h k (r.getD (k + off) 0))) r) := by
  unfold forLoop
  rw [foldl_setCell h off row (hi - lo) lo (m.withRow row r)
    (by simpa [CloogMatrix.withRow] using hrow)]
  rw [CloogMatrix.row_withRow m row r hrow]
  simp [CloogMatrix.withRow, List.set_set]

theorem writeRow_length (f : Nat → Int) (lo hi : Nat) (r : List Int) :
    (writeRow f lo hi r).length = r.length :=
  foldl_set_length 0 (fun k _ => f k) 1 (hi - lo) lo r

theorem opposeRow_length (nb_cols : Nat) (r : List Int) :
    (opposeRow nb_cols r).length = r.length :=
  foldl_set_length 0 (fun _ v => - v) 0 (nb_cols - 1) 1 r

theorem writeRow_getD (f : Nat → Int) (lo hi : Nat) (r : List Int) (j : Nat)
    (hj : j < r.length) :
    (writeRow f lo hi r).getD j 0 =
      if lo + 1 ≤ j ∧ j < lo + (hi - lo) + 1 then f (j - 1) else r.getD j 0 :=
  foldl_set_getD 0 (fun k _ => f k) 1 (hi - lo) lo r j hj

theorem opposeRow_getD (nb_cols : Nat) (r : List Int) (j : Nat) (hj : j < r.length) :
    (opposeRow nb_cols r).getD j 0 =
      if 1 ≤ j ∧ j < 1 + (nb_cols - 1) then - r.getD j 0 else r.getD j 0 :=
  foldl_set_getD 0 (fun _ v => - v) 0 (nb_cols - 1) 1 r j hj

theorem getD_set_of_lt (l : List Int) (i j : Nat) (a : Int) (hj : j < l.length) :
    (l.set i a).getD j 0 = if i = j then a else l.getD j 0 := by
  rw [List.getD_eq_getElem?_getD, List.getElem?_set, List.getD_eq_getElem?_getD,
    List.getElem?_eq_getElem hj]
  by_cases h : i = j
  · subst h
    simp [hj]
  · simp [h]

theorem writeLoop_withRow (f : Nat → Int) (row lo hi : Nat) (m : CloogMatrix) (r : List Int)
    (hrow : row < m.p.length) :
    forLoop lo hi (fun k acc => acc.setCell row (k + 1) (f k)) (m.withRow row r) =
      m.withRow row (writeRow f lo hi r) :=
  forLoop_setCell_withRow (fun k _ => f k) 1 row lo hi m r hrow

theorem oppose_constraint_withRow (row : Nat) (m : CloogMatrix) (r : List Int)
    (hrow : row < m.p.length) :
    oppose_constraint (m.withRow row r) row = m.withRow row (opposeRow m.NbColumns r) :=
  forLoop_setCell_withRow (fun _ v => - v) 0 row 1 m.NbColumns m r hrow

theorem insert_row_spec (m : CloogMatrix) (row : Nat) (cstr : Constraint)
    (hrow : row < m.p.length) (hlen : (m.row row).length = m.NbColumns)
    (hdim : cstr.expr.coefficients.length + 2 ≤ m.NbColumns)
    (hkind : cstr.type ≠ Constraint_Type.OTHER) :
    ∃ r : List Int, insert_constraint_into_matrix m row cstr = some (m.withRow row r) ∧
      r.length = m.NbColumns ∧ ∀ j, j < m.NbColumns → r.getD j 0 = rowEntry m.NbColumns cstr j := by
  rcases cstr with ⟨⟨a, k⟩, ty⟩
  simp only at hdim hkind
  have h0 : m = m.withRow row (m.row row) := (CloogMatrix.withRow_self m row).symm
  simp only [insert_constraint_into_matrix, ppl_Constraint_space_dimension,
    ppl_Constraint_coefficient, ppl_Constraint_inhomogeneous_term, ppl_Constraint_type]
  generalize hr0 : m.row row = r0 at hlen h0
  have hstep : ((forLoop a.length (m.NbColumns - 1) (fun i m => m.setCell row (i + 1) 0)
      (forLoop 0 a.length (fun i m => m.setCell row (i + 1) (a.getD i 0)) m)).setCell row
        (m.NbColumns - 1) k).setCell row 0 1 =
      m.withRow row (((writeRow (fun _ => 0) a.length (m.NbColumns - 1)
        (writeRow (fun i => a.getD i 0) 0 a.length r0)).set (m.NbColumns - 1) k).set 0 1) := by
    conv_lhs => rw [h0]
    rw [writeLoop_withRow _ _ _ _ _ _ hrow, writeLoop_withRow _ _ _ _ _ _ hrow,
      CloogMatrix.setCell_withRow _ _ _ _ _ hrow, CloogMatrix.setCell_withRow _ _ _ _ _ hrow]
    rfl
  rw [hstep]
  generalize hr4 : (((writeRow (fun _ => 0) a.length (m.NbColumns - 1)
        (writeRow (fun i => a.getD i 0) 0 a.length r0)).set (m.NbColumns - 1) k).set 0 1) = r4
  have hl4 : r4.length = m.NbColumns := by
    rw [← hr4]; simp only [List.length_set, writeRow_length]; exact hlen
  have hg4 : ∀ j, j < m.NbColumns → r4.getD j 0 =
      if j = 0 then 1 else if j < a.length + 1 then a.getD (j - 1) 0
        else if j < m.NbColumns - 1 then 0 else k := by
    intro j hj
    rw [← hr4]
    rw [getD_set_of_lt _ _ _ _ (by simp only [List.length_set, writeRow_length]; omega),
      getD_set_of_lt _ _ _ _ (by simp only [writeRow_length]; omega),
      writeRow_getD _ _ _ _ _ (by simp only [writeRow_length]; omega),
      writeRow_getD _ _ _ _ _ (by omega)]
    split_ifs <;> first | rfl | omega
  have hnc : (m.withRow row r4).NbColumns = m.NbColumns := rfl
  cases ty with
  | OTHER => exact absurd rfl hkind
  | LESS_THAN =>
    simp only [oppose_constraint_withRow _ _ _ hrow, CloogMatrix.cell_withRow _ _ _ _ hrow,
      CloogMatrix.setCell_withRow _ _ _ _ _ hrow]
    refine ⟨_, rfl, by simp only [List.length_set, opposeRow_length]; exact hl4, ?_⟩
    intro j hj
    rw [getD_set_of_lt _ _ _ _ (by simp only [opposeRow_length]; omega),
      opposeRow_getD _ _ _ (by omega), opposeRow_getD _ _ _ (by omega),
      hg4 j hj, hg4 _ (by omega)]
    simp only [rowEntry, Constraint_Type.rowFlag, Constraint_Type.rowSign,
      Constraint_Type.rowAdjust]
    split_ifs <;> first | rfl | omega
  | GREATER_THAN =>
    simp only [CloogMatrix.cell_withRow _ _ _ _ hrow,
      CloogMatrix.setCell_withRow _ _ _ _ _ hrow]
    refine ⟨_, rfl, by simp only [List.length_set]; exact hl4, ?_⟩
    intro j hj
    rw [getD_set_of_lt _ _ _ _ (by omega), hg4 j hj, hg4 _ (by omega)]
    simp only [rowEntry, Constraint_Type.rowFlag, Constraint_Type.rowSign,
      Constraint_Type.rowAdjust]
    split_ifs <;> first | rfl | omega
  | LESS_OR_EQUAL =>
    simp only [oppose_constraint_withRow _ _ _ hrow]
    refine ⟨_, rfl, by simp only [opposeRow_length]; exact hl4, ?_⟩
    intro j hj
    rw [opposeRow_getD _ _ _ (by omega), hg4 j hj]
    simp only [rowEntry, Constraint_Type.rowFlag, Constraint_Type.rowSign,
      Constraint_Type.rowAdjust]
    split_ifs <;> first | rfl | omega
  | GREATER_OR_EQUAL =>
    refine ⟨_, rfl, hl4, ?_⟩
    intro j hj
    rw [hg4 j hj]
    simp only [rowEntry, Constraint_Type.rowFlag, Constraint_Type.rowSign,
      Constraint_Type.rowAdjust]
    split_ifs <;> first | rfl | omega
  | EQUAL =>
    simp only [CloogMatrix.setCell_withRow _ _ _ _ _ hrow]
    refine ⟨_, rfl, by simp only [List.length_set]; exact hl4, ?_⟩
    intro j hj
    rw [getD_set_of_lt _ _ _ _ (by omega), hg4 j hj]
    simp only [rowEntry, Constraint_Type.rowFlag, Constraint_Type.rowSign,
      Constraint_Type.rowAdjust]
    split_ifs <;> first | rfl | omega

/-! ## Lists and dot products -/

theorem list_eq_of_getD (l₁ l₂ : List Int) (hlen : l₁.length = l₂.length)
    (h : ∀ j, j < l₁.length → l₁.getD j 0 = l₂.getD j 0) : l₁ = l₂ := by
  apply List.ext_getElem hlen
  intro j h1 h2
  have := h j h1
  rw [List.getD_eq_getElem?_getD, List.getD_eq_getElem?_getD, List.getElem?_eq_getElem h1,
    List.getElem?_eq_getElem h2] at this
  simpa using this

theorem getD_drop_take (r : List Int) (n j : Nat) (hj : j < n) :
    ((r.drop 1).take n).getD j 0 = r.getD (j + 1) 0 := by
  simp only [List.getD_eq_getElem?_getD, List.getElem?_take, List.getElem?_drop, if_pos hj]
  rw [Nat.add_comm]

theorem dot_map_mul {R : Type} [LinearOrderedCommRing R] (s : Int) (a : List Int) (x : List R) :
    dot (a.map (fun c => s * c)) x = (s : R) * dot a x := by
  induction a generalizing x with
  | nil => simp [dot]
  | cons c cs ih =>
    cases x with
    | nil => simp [dot]
    | cons y ys =>
      simp only [List.map_cons, dot, ih]
      push_cast
      ring

/-- The coefficient columns `1 .. dim` of the row written for `cstr`. -/
theorem row_coefficients (r : List Int) (nb_cols : Nat) (cstr : Constraint)
    (hcols : nb_cols = cstr.expr.coefficients.length + 2) (hlen : r.length = nb_cols)
    (hr : ∀ j, j < nb_cols → r.getD j 0 = rowEntry nb_cols cstr j) :
    (r.drop 1).take (r.length - 2) =
      cstr.expr.coefficients.map (fun c => cstr.type.rowSign * c) := by
  apply list_eq_of_getD
  · simp only [List.length_take, List.length_drop, List.length_map]; omega
  · intro j hj
    simp only [List.length_take, List.length_drop] at hj
    rw [getD_drop_take _ _ _ (by omega), hr _ (by omega)]
    have h1 : ¬ (j + 1 = 0) := by omega
    have h2 : j + 1 < cstr.expr.coefficients.length + 1 := by omega
    simp only [rowEntry, if_neg h1, if_pos h2, Nat.add_sub_cancel]
    simp [List.getD_eq_getElem?_getD, List.getElem?_map]
    cases cstr.expr.coefficients[j]? <;> simp

/-- The value at `x` of the row written for `cstr`. -/
theorem rowValue_spec {R : Type} [LinearOrderedCommRing R] (r : List Int) (nb_cols : Nat)
    (cstr : Constraint) (x : List R)
    (hcols : nb_cols = cstr.expr.coefficients.length + 2) (hlen : r.length = nb_cols)
    (hr : ∀ j, j < nb_cols → r.getD j 0 = rowEntry nb_cols cstr j) :
    rowValue r x = (cstr.type.rowSign : R) * cstr.expr.eval x - (cstr.type.rowAdjust : R) := by
  unfold rowValue
  rw [row_coefficients r nb_cols cstr hcols hlen hr, dot_map_mul, hlen, hr _ (by omega)]
  have h1 : ¬ (nb_cols - 1 = 0) := by omega
  have h2 : ¬ (nb_cols - 1 < cstr.expr.coefficients.length + 1) := by omega
  have h3 : ¬ (nb_cols - 1 < nb_cols - 1) := by omega
  simp only [rowEntry, if_neg h1, if_neg h2, if_neg h3, Linear_Expression.eval]
  push_cast
  ring

/-! ## Row → constraint, closed form -/

theorem add_to_coefficient_of_lt (e : Linear_Expression) (i : Nat) (n : Int)
    (h : i < e.coefficients.length) :
    ppl_Linear_Expression_add_to_coefficient e i n =
      { coefficients := e.coefficients.set i (e.coefficients.getD i 0 + n),
        inhomogeneous := e.inhomogeneous } := by
  have h0 : i + 1 - e.coefficients.length = 0 := by omega
  simp [ppl_Linear_Expression_add_to_coefficient, h0]

theorem coefficient_loop (c : Nat → Int) :
    ∀ (n l : Nat) (e : Linear_Expression), l + n ≤ e.coefficients.length →
      (List.range' (l + 1) n).foldl
          (fun e j => ppl_Linear_Expression_add_to_coefficient e (j - 1) (c j)) e =
        { coefficients := (List.range' l n).foldl
            (fun acc k => acc.set (k + 0) ((fun k v => v + c (k + 1)) k (acc.getD (k + 0) 0)))
            e.coefficients,
          inhomogeneous := e.inhomogeneous } := by
  intro n
  induction n with
  | zero => intro l e _; rfl
  | succ n ih =>
    intro l e hle
    rw [List.range'_succ, List.foldl_cons, List.range'_succ, List.foldl_cons]
    rw [Nat.add_sub_cancel, add_to_coefficient_of_lt e l (c (l + 1)) (by omega)]
    rw [ih (l + 1) _ (by simp only [List.length_set]; omega)]
    rfl

/-- Closed form of `cloog_matrix_to_ppl_constraint`: the coefficient of
dimension `j` is column `j + 1`, the constant is the last column, and the kind
is `GREATER_OR_EQUAL`, the test on column 0 being a test of an address. -/
theorem cloog_matrix_to_ppl_constraint_spec (m : CloogMatrix) (row : Nat) :
    cloog_matrix_to_ppl_constraint m row =
      { expr := { coefficients := (List.range (m.NbColumns - 2)).map (fun j => m.cell row (j + 1)),
                  inhomogeneous := m.cell row (m.NbColumns - 1) },
        type := Constraint_Type.GREATER_OR_EQUAL } := by
  have hloop : forLoop 1 (m.NbColumns - 1)
      (fun j e => ppl_Linear_Expression_add_to_coefficient e (j - 1) (m.cell row j))
      (ppl_new_Linear_Expression_with_dimension (m.NbColumns - 2)) =
      { coefficients := (List.range (m.NbColumns - 2)).map (fun j => m.cell row (j + 1)),
        inhomogeneous := 0 } := by
    unfold forLoop
    rw [coefficient_loop (fun j => m.cell row j) (m.NbColumns - 1 - 1) 0 _
      (by simp [ppl_new_Linear_Expression_with_dimension]; omega)]
    simp only [ppl_new_Linear_Expression_with_dimension, Linear_Expression.mk.injEq, and_true]
    have hL := foldl_set_length 0 (fun k v => v + m.cell row (k + 1)) 0 (m.NbColumns - 1 - 1) 0
      (List.replicate (m.NbColumns - 2) 0)
    apply list_eq_of_getD
    · rw [hL]; simp
    · intro j hj
      rw [hL] at hj
      have hG := foldl_set_getD 0 (fun k v => v + m.cell row (k + 1)) 0 (m.NbColumns - 1 - 1) 0
        (List.replicate (m.NbColumns - 2) 0) j hj
      simp only [List.length_replicate] at hj
      have hc : 0 + 0 ≤ j ∧ j < 0 + (m.NbColumns - 1 - 1) + 0 := by omega
      rw [if_pos hc] at hG
      rw [hG]
      simp [List.getD_eq_getElem?_getD, List.getElem?_replicate, List.getElem?_range, hj]
  unfold cloog_matrix_to_ppl_constraint
  simp only [hloop, ppl_Linear_Expression_add_to_inhomogeneous, ppl_new_Constraint, zero_add,
    CloogMatrix.entry_equals_null, Bool.false_eq_true, if_false]

/-! ## The dimension shifter -/

theorem getD_nat_set_of_lt (l : List Nat) (i j : Nat) (a : Nat) (hj : j < l.length) :
    (l.set i a).getD j 0 = if i = j then a else l.getD j 0 := by
  rw [List.getD_eq_getElem?_getD, List.getElem?_set, List.getD_eq_getElem?_getD,
    List.getElem?_eq_getElem hj]
  by_cases h : i = j
  · subst h
    simp [hj]
  · simp [h]

theorem shift_map_getD (x dim i : Nat) (hx : x ≤ dim) (hi : i ≤ dim) :
    (shift_map x dim).getD i 0 = if i < x then i else if i < dim then i + 1 else x := by
  have hL1 := foldl_set_length 0 (fun k _ => k) 0 (x - 0) 0 (List.replicate (dim + 1) 0)
  have hG1 := foldl_set_getD 0 (fun k _ => k) 0 (x - 0) 0 (List.replicate (dim + 1) 0)
  have hL2 := foldl_set_length 0 (fun k _ => k + 1) 0 (dim - x) x
    ((List.range' 0 (x - 0)).foldl (fun acc k => acc.set (k + 0) ((fun k _ => k) k
      (acc.getD (k + 0) 0))) (List.replicate (dim + 1) 0))
  have hG2 := foldl_set_getD 0 (fun k _ => k + 1) 0 (dim - x) x
    ((List.range' 0 (x - 0)).foldl (fun acc k => acc.set (k + 0) ((fun k _ => k) k
      (acc.getD (k + 0) 0))) (List.replicate (dim + 1) 0))
  simp only [List.length_replicate] at hL1
  rw [hL1] at hL2
  have key := getD_nat_set_of_lt _ dim i x (hL2.symm ▸ (by omega : i < dim + 1))
  have h2 := hG2 i (by rw [hL1]; omega)
  have h1 := hG1 i (by simp only [List.length_replicate]; omega)
  unfold shift_map forLoop
  refine key.trans ?_
  by_cases hd : dim = i
  · subst hd
    have : ¬ (dim < x) := by omega
    simp [this]
  · rw [if_neg hd]
    refine h2.trans ?_
    by_cases hxi : i < x
    · have : ¬ (x + 0 ≤ i ∧ i < x + (dim - x) + 0) := by omega
      rw [if_neg this, if_pos hxi]
      refine h1.trans ?_
      have : 0 + 0 ≤ i ∧ i < 0 + (x - 0) + 0 := by omega
      rw [if_pos this]
      rfl
    · have : x + 0 ≤ i ∧ i < x + (dim - x) + 0 := by omega
      have hid : i < dim := by omega
      rw [if_pos this, if_neg hxi, if_pos hid]
      rfl

theorem find?_eq_some_of_unique {α : Type} (p : α → Bool) (b : α) :
    ∀ (l : List α), b ∈ l → p b = true → (∀ a ∈ l, p a = true → a = b) →
      l.find? p = some b := by
  intro l
  induction l with
  | nil => intro hb; cases hb
  | cons a t ih =>
    intro hb hp hu
    by_cases hpa : p a = true
    · have : a = b := hu a (List.mem_cons_self a t) hpa
      subst this
      simp [List.find?, hpa]
    · have hbt : b ∈ t := by
        rcases List.mem_cons.mp hb with h | h
        · subst h; exact absurd hp hpa
        · exact h
      simp only [List.find?, hpa]
      exact ih hbt hp (fun a ha => hu a (List.mem_cons_of_mem _ ha))

theorem map_coefficients_length (maps : List Nat) (n : Nat) (a : List Int) :
    (map_coefficients maps n a).length = n := by
  simp [map_coefficients]

theorem shift_coefficients_getD (x dim j : Nat) (a : List Int) (hx : x ≤ dim) (hj : j ≤ dim) :
    (map_coefficients (shift_map x dim) (dim + 1) a).getD j 0 =
      if j < x then a.getD j 0 else if j = x then a.getD dim 0 else a.getD (j - 1) 0 := by
  have hfind : (List.range (dim + 1)).find? (fun i => (shift_map x dim).getD i 0 = j) =
      some (if j < x then j else if j = x then dim else j - 1) := by
    apply find?_eq_some_of_unique
    · rw [List.mem_range]; split_ifs <;> omega
    · rw [decide_eq_true_eq, shift_map_getD x dim _ hx (by split_ifs <;> omega)]
      split_ifs <;> omega
    · intro i hi hpi
      rw [List.mem_range] at hi
      rw [decide_eq_true_eq, shift_map_getD x dim i hx (by omega)] at hpi
      split_ifs at hpi ⊢ <;> omega
  have hjl : j < dim + 1 := by omega
  unfold map_coefficients
  rw [List.getD_eq_getElem?_getD, List.getElem?_map, List.getElem?_range hjl]
  simp only [Option.map_some', Option.getD_some]
  rw [hfind]
  split_ifs <;> rfl

theorem dot_nil_right {R : Type} [LinearOrderedCommRing R] (a : List Int) :
    dot a ([] : List R) = 0 := by
  cases a <;> rfl

theorem dot_replicate_zero {R : Type} [LinearOrderedCommRing R] (k : Nat) (y : List R) :
    dot (List.replicate k 0) y = 0 := by
  induction k generalizing y with
  | zero => rfl
  | succ k ih =>
    cases y with
    | nil => rfl
    | cons v ys => simp [List.replicate_succ, dot, ih]

theorem dot_pad {R : Type} [LinearOrderedCommRing R] (a : List Int) (k : Nat) (y : List R) :
    dot (a ++ List.replicate k 0) y = dot a y := by
  induction a generalizing y with
  | nil => rw [List.nil_append, dot_replicate_zero]; rfl
  | cons c cs ih =>
    cases y with
    | nil => rfl
    | cons v ys => simp [dot, ih]

theorem getD_pad (a : List Int) (k i : Nat) :
    (a ++ List.replicate k 0).getD i 0 = a.getD i 0 := by
  induction a generalizing i with
  | nil =>
    simp only [List.nil_append, List.getD_eq_getElem?_getD, List.getElem?_replicate]
    split <;> rfl
  | cons c cs ih =>
    cases i with
    | zero => rfl
    | succ i => simpa using ih i

theorem insertAt_zero {α : Type} (l : List α) (v : α) : insertAt l 0 v = v :: l := rfl

theorem insertAt_succ {α : Type} (a : α) (l : List α) (x : Nat) (v : α) :
    insertAt (a :: l) (x + 1) v = a :: insertAt l x v := rfl

theorem deleteAt_cons_zero {α : Type} (a : α) (l : List α) : deleteAt (a :: l) 0 = l := rfl

theorem deleteAt_cons_succ {α : Type} (a : α) (l : List α) (x : Nat) :
    deleteAt (a :: l) (x + 1) = a :: deleteAt l x := rfl

theorem deleteAt_nil {α : Type} (x : Nat) : deleteAt ([] : List α) x = [] := by
  simp [deleteAt]

theorem getD_insertAt (l : List Int) (x j : Nat) (v : Int) (hx : x ≤ l.length) :
    (insertAt l x v).getD j 0 =
      if j < x then l.getD j 0 else if j = x then v else l.getD (j - 1) 0 := by
  induction x generalizing l j with
  | zero =>
    rw [insertAt_zero]
    cases j with
    | zero => rfl
    | succ j => simp
  | succ x ih =>
    cases l with
    | nil => simp at hx
    | cons a l =>
      rw [insertAt_succ]
      cases j with
      | zero => simp
      | succ j =>
        have := ih l j (by simpa using hx)
        simp only [List.getD_cons_succ, this, Nat.add_lt_add_iff_right, Nat.add_right_cancel_iff,
          Nat.add_sub_cancel]
        by_cases h1 : j < x
        · simp [h1]
        · by_cases h2 : j = x
          · simp [h2]
          · have hj : j - 1 + 1 = j := by omega
            simp only [if_neg h1, if_neg h2]
            rw [← hj, List.getD_cons_succ, hj]

theorem dot_insertAt_zero {R : Type} [LinearOrderedCommRing R] (l : List Int) (x : Nat)
    (y : List R) (hx : x ≤ l.length) : dot (insertAt l x 0) y = dot l (deleteAt y x) := by
  induction x generalizing l y with
  | zero =>
    rw [insertAt_zero]
    cases y with
    | nil => simp only [deleteAt_nil, dot_nil_right]
    | cons v ys => simp [dot, deleteAt_cons_zero]
  | succ x ih =>
    cases l with
    | nil => simp at hx
    | cons a l =>
      rw [insertAt_succ]
      cases y with
      | nil => simp only [deleteAt_nil, dot_nil_right]
      | cons v ys =>
        rw [deleteAt_cons_succ]
        simp only [dot]
        rw [ih l ys (by simpa using hx)]

theorem shift_coefficients_eq (x dim : Nat) (a : List Int) (hx : x ≤ dim)
    (ha : a.length ≤ dim) :
    map_coefficients (shift_map x dim) (dim + 1) a =
      insertAt (a ++ List.replicate (dim - a.length) 0) x 0 := by
  have hpl : (a ++ List.replicate (dim - a.length) 0).length = dim := by
    simp only [List.length_append, List.length_replicate]; omega
  apply list_eq_of_getD
  · rw [map_coefficients_length]
    simp only [insertAt, List.length_append, List.length_take, List.length_cons,
      List.length_drop, hpl]
    omega
  · intro j hj
    rw [map_coefficients_length] at hj
    rw [shift_coefficients_getD x dim j a hx (by omega), getD_insertAt _ _ _ _ (by omega)]
    simp only [getD_pad]
    have h0 : a.getD dim 0 = 0 := by
      rw [List.getD_eq_getElem?_getD, List.getElem?_eq_none_iff.mpr ha]; rfl
    split_ifs <;> first | rfl | exact h0

theorem shift_constraint_holds {R : Type} [LinearOrderedCommRing R] (x dim : Nat)
    (c : Constraint) (y : List R) (hx : x ≤ dim)
    (hc : ppl_Constraint_space_dimension c ≤ dim) :
    (shift_constraint x dim c).holds y ↔ c.holds (deleteAt y x) := by
  have hev : (shift_constraint x dim c).expr.eval y = c.expr.eval (deleteAt y x) := by
    simp only [shift_constraint, Linear_Expression.eval]
    rw [shift_coefficients_eq x dim _ hx hc, dot_insertAt_zero, dot_pad]
    simp only [List.length_append, List.length_replicate]
    unfold ppl_Constraint_space_dimension at hc
    omega
  unfold Constraint.holds
  rw [hev]
  rfl

theorem shift_poly_eq (ph : Polyhedron) (x dim : Nat) (hdim : ph.space_dimension ≤ dim + 1) :
    shift_poly ph x dim =
      { space_dimension := dim + 1, constraints := ph.constraints.map (shift_constraint x dim) } := by
  simp [shift_poly, ppl_new_NNC_Polyhedron_from_space_dimension, ppl_Polyhedron_get_constraints,
    ppl_Polyhedron_add_constraints, hdim, ppl_Polyhedron_map_space_dimensions, shift_constraint,
    shift_map]

theorem shift_poly_contains {R : Type} [LinearOrderedCommRing R] (ph : Polyhedron)
    (x dim : Nat) (y : List R) (hdim : ph.space_dimension ≤ dim + 1) (hx : x ≤ dim)
    (hwf : ∀ c ∈ ph.constraints, ppl_Constraint_space_dimension c ≤ dim) :
    (shift_poly ph x dim).contains y ↔
      y.length = dim + 1 ∧ ∀ c ∈ ph.constraints, c.holds (deleteAt y x) := by
  rw [shift_poly_eq ph x dim hdim]
  simp only [Polyhedron.contains, List.mem_map, forall_exists_index, and_imp,
    forall_apply_eq_imp_iff₂]
  constructor
  · rintro ⟨hl, h⟩
    exact ⟨hl, fun c hc => (shift_constraint_holds x dim c y hx (hwf c hc)).mp (h c hc)⟩
  · rintro ⟨hl, h⟩
    exact ⟨hl, fun c hc => (shift_constraint_holds x dim c y hx (hwf c hc)).mpr (h c hc)⟩

/-! ## The strip-mining transformer -/

theorem set_coef_of_lt (e : Linear_Expression) (i : Nat) (x : Int)
    (h : i < e.coefficients.length) :
    set_coef e i x = { coefficients := e.coefficients.set i x, inhomogeneous := e.inhomogeneous } := by
  unfold set_coef
  simp only [ppl_Linear_Expression_coefficient]
  rw [add_to_coefficient_of_lt e i _ h]
  have : e.coefficients.getD i 0 + (x + -e.coefficients.getD i 0) = x := by ring
  rw [this]

theorem set_inhomogeneous_eq (e : Linear_Expression) (x : Int) :
    set_inhomogeneous e x = { coefficients := e.coefficients, inhomogeneous := x } := by
  unfold set_inhomogeneous
  simp only [ppl_Linear_Expression_inhomogeneous_term, ppl_Linear_Expression_add_to_inhomogeneous]
  have : e.inhomogeneous + (x + -e.inhomogeneous) = x := by ring
  rw [this]

theorem strip_select_fold (loop : Nat) :
    ∀ (cs : List Constraint) (tmp : Polyhedron),
      (∀ c ∈ cs, ppl_Constraint_space_dimension c ≤ tmp.space_dimension) →
      cs.foldl (fun tmp cstr =>
        let expr := ppl_new_Linear_Expression_from_Constraint cstr
        let val := ppl_Linear_Expression_coefficient expr loop
        let v := value_get_si val
        if 0 < v ∨ v < 0 then ppl_Polyhedron_add_constraint tmp cstr else tmp) tmp =
      { tmp with constraints := tmp.constraints ++ cs.filter (strip_selected loop) } := by
  intro cs
  induction cs with
  | nil => intro tmp _; simp
  | cons c cs ih =>
    intro tmp hwf
    have hc := hwf c (List.mem_cons_self c cs)
    rw [List.foldl_cons]
    by_cases hsel : 0 < value_get_si (ppl_Linear_Expression_coefficient
        (ppl_new_Linear_Expression_from_Constraint c) loop) ∨
        value_get_si (ppl_Linear_Expression_coefficient
        (ppl_new_Linear_Expression_from_Constraint c) loop) < 0
    · have hs : strip_selected loop c = true := by simp [strip_selected, hsel]
      have hstep : (if 0 < value_get_si (ppl_Linear_Expression_coefficient
            (ppl_new_Linear_Expression_from_Constraint c) loop) ∨
          value_get_si (ppl_Linear_Expression_coefficient
            (ppl_new_Linear_Expression_from_Constraint c) loop) < 0
          then ppl_Polyhedron_add_constraint tmp c else tmp) =
          { tmp with constraints := tmp.constraints ++ [c] } := by
        rw [if_pos hsel]; simp [ppl_Polyhedron_add_constraint, hc]
      show List.foldl _ (if _ then _ else _) cs = _
      rw [hstep, ih { tmp with constraints := tmp.constraints ++ [c] }
        (fun c' hc' => hwf c' (List.mem_cons_of_mem _ hc'))]
      simp [List.filter_cons, hs]
    · have hs : strip_selected loop c = false := by simp [strip_selected, hsel]
      show List.foldl _ (if _ then _ else _) cs = _
      rw [if_neg hsel, ih tmp (fun c' hc' => hwf c' (List.mem_cons_of_mem _ hc'))]
      simp [List.filter_cons, hs]

/-- Closed form of `ppl_strip_loop`: the constraints shifted at `loop`, the
selected constraints shifted at `loop + 1`, and the two bounds of a tile. -/
theorem ppl_strip_loop_eq (ph : Polyhedron) (loop : Nat) (stride : Int) (hwf : ph.wf)
    (hloop : loop < ph.space_dimension) :
    ppl_strip_loop ph loop stride =
      { space_dimension := ph.space_dimension + 1,
        constraints :=
          ph.constraints.map (shift_constraint loop ph.space_dimension) ++
          (ph.constraints.filter (strip_selected loop)).map
            (shift_constraint (loop + 1) ph.space_dimension) ++
          [strip_lower ph.space_dimension loop stride] ++
          [strip_upper ph.space_dimension loop stride] } := by
  have hlow : set_coef (set_coef (ppl_new_Linear_Expression_with_dimension
      (ph.space_dimension + 1)) (loop + 1) 1) loop (-1 * stride) =
      (strip_lower ph.space_dimension loop stride).expr := by
    rw [set_coef_of_lt (ppl_new_Linear_Expression_with_dimension (ph.space_dimension + 1))
        (loop + 1) 1 (by simp [ppl_new_Linear_Expression_with_dimension]; omega),
      set_coef_of_lt _ _ _ (by simp [ppl_new_Linear_Expression_with_dimension]; omega)]
    rfl
  have hup : set_inhomogeneous (set_coef (set_coef (ppl_new_Linear_Expression_with_dimension
      (ph.space_dimension + 1)) (loop + 1) (-1)) loop stride) (stride - 1) =
      (strip_upper ph.space_dimension loop stride).expr := by
    rw [set_inhomogeneous_eq,
      set_coef_of_lt (ppl_new_Linear_Expression_with_dimension (ph.space_dimension + 1))
        (loop + 1) (-1) (by simp [ppl_new_Linear_Expression_with_dimension]; omega),
      set_coef_of_lt _ _ _ (by simp [ppl_new_Linear_Expression_with_dimension]; omega)]
    rfl
  have hsel := strip_select_fold loop ph.constraints
    (ppl_new_NNC_Polyhedron_from_space_dimension (ph.space_dimension + 1) 0)
    (fun c hc => Nat.le_succ_of_le (hwf c hc))
  unfold ppl_strip_loop
  simp only [ppl_Polyhedron_space_dimension, ppl_Polyhedron_get_constraints]
  rw [hlow, hup, hsel]
  rw [shift_poly_eq _ loop _ (by simp [ppl_Polyhedron_add_constraints,
        ppl_new_NNC_Polyhedron_from_space_dimension]),
    shift_poly_eq _ (loop + 1) _ (by simp [ppl_new_NNC_Polyhedron_from_space_dimension])]
  simp [ppl_Polyhedron_add_constraints, ppl_Polyhedron_add_constraint,
    ppl_new_NNC_Polyhedron_from_space_dimension, ppl_new_Constraint,
    ppl_Constraint_space_dimension, strip_lower, strip_upper]

theorem dot_set {R : Type} [LinearOrderedCommRing R] (l : List Int) (i : Nat) (a : Int)
    (y : List R) (hi : i < l.length) :
    dot (l.set i a) y = dot l y + ((a : R) - ((l.getD i 0 : Int) : R)) * y.getD i 0 := by
  induction l generalizing i y with
  | nil => simp at hi
  | cons c cs ih =>
    cases i with
    | zero =>
      cases y with
      | nil => simp [dot]
      | cons v ys => simp only [List.set_cons_zero, dot, List.getD_cons_zero]; ring
    | succ i =>
      cases y with
      | nil => simp [dot]
      | cons v ys =>
        simp only [List.set_cons_succ, dot, List.getD_cons_succ]
        rw [ih i ys (by simpa using hi)]
        ring

theorem getD_replicate_zero (n i : Nat) : (List.replicate n (0 : Int)).getD i 0 = 0 := by
  simp only [List.getD_eq_getElem?_getD, List.getElem?_replicate]
  split <;> rfl

theorem strip_lower_eval {R : Type} [LinearOrderedCommRing R] (dim loop : Nat) (stride : Int)
    (y : List R) (hloop : loop < dim) :
    (strip_lower dim loop stride).expr.eval y =
      y.getD (loop + 1) 0 - (stride : R) * y.getD loop 0 := by
  have hne : ¬ (loop + 1 = loop) := by omega
  simp only [strip_lower, Linear_Expression.eval]
  rw [dot_set _ _ _ _ (by simp only [List.length_set, List.length_replicate]; omega),
    dot_set _ _ _ _ (by simp only [List.length_replicate]; omega), dot_replicate_zero,
    getD_set_of_lt _ _ _ _ (by simp only [List.length_replicate]; omega), if_neg hne]
  simp only [getD_replicate_zero]
  push_cast
  ring

theorem strip_upper_eval {R : Type} [LinearOrderedCommRing R] (dim loop : Nat) (stride : Int)
    (y : List R) (hloop : loop < dim) :
    (strip_upper dim loop stride).expr.eval y =
      - y.getD (loop + 1) 0 + (stride : R) * y.getD loop 0 + ((stride : R) - 1) := by
  have hne : ¬ (loop + 1 = loop) := by omega
  simp only [strip_upper, Linear_Expression.eval]
  rw [dot_set _ _ _ _ (by simp only [List.length_set, List.length_replicate]; omega),
    dot_set _ _ _ _ (by simp only [List.length_replicate]; omega), dot_replicate_zero,
    getD_set_of_lt _ _ _ _ (by simp only [List.length_replicate]; omega), if_neg hne]
  simp only [getD_replicate_zero]
  push_cast
  ring

/-- Membership in the result of `ppl_strip_loop`. -/
theorem ppl_strip_loop_contains {R : Type} [LinearOrderedCommRing R] (ph : Polyhedron)
    (loop : Nat) (stride : Int) (y : List R) (hwf : ph.wf) (hloop : loop < ph.space_dimension) :
    (ppl_strip_loop ph loop stride).contains y ↔
      y.length = ph.space_dimension + 1 ∧
      (∀ c ∈ ph.constraints, c.holds (deleteAt y loop)) ∧
      (∀ c ∈ ph.constraints, strip_selected loop c = true → c.holds (deleteAt y (loop + 1))) ∧
      0 ≤ y.getD (loop + 1) 0 - (stride : R) * y.getD loop 0 ∧
      0 ≤ - y.getD (loop + 1) 0 + (stride : R) * y.getD loop 0 + ((stride : R) - 1) := by
  rw [ppl_strip_loop_eq ph loop stride hwf hloop]
  have hlow : (strip_lower ph.space_dimension loop stride).holds y ↔
      0 ≤ y.getD (loop + 1) 0 - (stride : R) * y.getD loop 0 := by
    rw [← strip_lower_eval ph.space_dimension loop stride y hloop]; rfl
  have hup : (strip_upper ph.space_dimension loop stride).holds y ↔
      0 ≤ - y.getD (loop + 1) 0 + (stride : R) * y.getD loop 0 + ((stride : R) - 1) := by
    rw [← strip_upper_eval ph.space_dimension loop stride y hloop]; rfl
  simp only [Polyhedron.contains, List.mem_append, List.mem_map, List.mem_filter,
    List.mem_singleton]
  constructor
  · rintro ⟨hl, h⟩
    refine ⟨hl, ?_, ?_, ?_, ?_⟩
    · intro c hc
      exact (shift_constraint_holds loop _ c y (by omega) (hwf c hc)).mp
        (h _ (Or.inl (Or.inl (Or.inl ⟨c, hc, rfl⟩))))
    · intro c hc hs
      exact (shift_constraint_holds (loop + 1) _ c y (by omega) (hwf c hc)).mp
        (h _ (Or.inl (Or.inl (Or.inr ⟨c, ⟨hc, hs⟩, rfl⟩))))
    · exact hlow.mp (h _ (Or.inl (Or.inr rfl)))
    · exact hup.mp (h _ (Or.inr rfl))
  · rintro ⟨hl, h1, h2, h3, h4⟩
    refine ⟨hl, ?_⟩
    rintro c' (((⟨c, hc, rfl⟩ | ⟨c, ⟨hc, hs⟩, rfl⟩) | rfl) | rfl)
    · exact (shift_constraint_holds loop _ c y (by omega) (hwf c hc)).mpr (h1 c hc)
    · exact (shift_constraint_holds (loop + 1) _ c y (by omega) (hwf c hc)).mpr (h2 c hc hs)
    · exact hlow.mpr h3
    · exact hup.mpr h4

theorem length_insertAt {α : Type} (p : List α) (k : Nat) (t : α) :
    (insertAt p k t).length = p.length + 1 := by
  simp only [insertAt, List.length_append, List.length_take, List.length_cons, List.length_drop]
  omega

theorem deleteAt_insertAt {α : Type} (p : List α) (k : Nat) (t : α) (hk : k ≤ p.length) :
    deleteAt (insertAt p k t) k = p := by
  induction k generalizing p with
  | zero => rfl
  | succ k ih =>
    cases p with
    | nil => simp at hk
    | cons a p => rw [insertAt_succ, deleteAt_cons_succ, ih p (by simpa using hk)]

theorem deleteAt_succ_insertAt {α : Type} (p : List α) (k : Nat) (t : α) (hk : k < p.length) :
    deleteAt (insertAt p k t) (k + 1) = p.set k t := by
  induction k generalizing p with
  | zero =>
    cases p with
    | nil => simp at hk
    | cons a p => rfl
  | succ k ih =>
    cases p with
    | nil => simp at hk
    | cons a p =>
      rw [insertAt_succ, deleteAt_cons_succ, ih p (by simpa using hk)]
      rfl

theorem getD_insertAt_self {R : Type} [LinearOrderedCommRing R] (p : List R) (k : Nat) (t : R)
    (hk : k ≤ p.length) : (insertAt p k t).getD k 0 = t := by
  induction k generalizing p with
  | zero => rfl
  | succ k ih =>
    cases p with
    | nil => simp at hk
    | cons a p => rw [insertAt_succ, List.getD_cons_succ, ih p (by simpa using hk)]

theorem getD_insertAt_succ {R : Type} [LinearOrderedCommRing R] (p : List R) (k : Nat) (t : R) :
    (insertAt p k t).getD (k + 1) 0 = p.getD k 0 := by
  induction k generalizing p with
  | zero => cases p <;> rfl
  | succ k ih =>
    cases p with
    | nil => simp [insertAt]
    | cons a p => rw [insertAt_succ, List.getD_cons_succ, List.getD_cons_succ, ih p]

/-! ## The lexicographic comparator -/

theorem value_compare_cases (u v : Int) :
    (u < v ∧ value_compare u v = -1) ∨ (u = v ∧ value_compare u v = 0) ∨
      (v < u ∧ value_compare u v = 1) := by
  unfold value_compare
  rcases lt_trichotomy u v with h | h | h
  · exact Or.inl ⟨h, Int.sign_eq_neg_one_of_neg (by omega)⟩
  · exact Or.inr (Or.inl ⟨h, by rw [h, sub_self]; rfl⟩)
  · exact Or.inr (Or.inr ⟨h, Int.sign_eq_one_of_pos (by omega)⟩)

theorem value_compare_neg_iff (u v : Int) : value_compare u v < 0 ↔ u < v := by
  rcases value_compare_cases u v with ⟨h, hc⟩ | ⟨h, hc⟩ | ⟨h, hc⟩ <;> rw [hc] <;> omega

theorem value_compare_pos_iff (u v : Int) : 0 < value_compare u v ↔ v < u := by
  rcases value_compare_cases u v with ⟨h, hc⟩ | ⟨h, hc⟩ | ⟨h, hc⟩ <;> rw [hc] <;> omega

theorem value_compare_eq_zero_iff (u v : Int) : value_compare u v = 0 ↔ u = v := by
  rcases value_compare_cases u v with ⟨h, hc⟩ | ⟨h, hc⟩ | ⟨h, hc⟩ <;> rw [hc] <;> omega

/-- The loop returns at the first index where the coefficients differ. -/
theorem lexico_loop_first_difference (a b : Linear_Expression) (k : Nat)
    (hdiff : ppl_Linear_Expression_coefficient a k ≠ ppl_Linear_Expression_coefficient b k) :
    ∀ (n i : Nat), i ≤ k → k < i + n →
      (∀ j, i ≤ j → j < k →
        ppl_Linear_Expression_coefficient a j = ppl_Linear_Expression_coefficient b j) →
      lexico_loop a b n i = some (value_compare (ppl_Linear_Expression_coefficient a k)
        (ppl_Linear_Expression_coefficient b k)) := by
  intro n
  induction n with
  | zero => intro i h1 h2; omega
  | succ n ih =>
    intro i h1 h2 hagree
    by_cases hik : i = k
    · subst hik
      have hne : ¬ (value_compare (ppl_Linear_Expression_coefficient a i)
          (ppl_Linear_Expression_coefficient b i) = 0) :=
        fun h => hdiff ((value_compare_eq_zero_iff _ _).mp h)
      simp only [lexico_loop, if_neg hne]
    · have heq : value_compare (ppl_Linear_Expression_coefficient a i)
          (ppl_Linear_Expression_coefficient b i) = 0 :=
        (value_compare_eq_zero_iff _ _).mpr (hagree i (Nat.le_refl i) (by omega))
      simp only [lexico_loop, if_pos heq]
      exact ih (i + 1) (by omega) (by omega) (fun j hj1 hj2 => hagree j (by omega) hj2)

/-- The loop runs to its end when the coefficients agree on its whole range. -/
theorem lexico_loop_agree (a b : Linear_Expression) :
    ∀ (n i : Nat),
      (∀ j, i ≤ j → j < i + n →
        ppl_Linear_Expression_coefficient a j = ppl_Linear_Expression_coefficient b j) →
      lexico_loop a b n i = none := by
  intro n
  induction n with
  | zero => intro i _; rfl
  | succ n ih =>
    intro i hagree
    have heq : value_compare (ppl_Linear_Expression_coefficient a i)
        (ppl_Linear_Expression_coefficient b i) = 0 :=
      (value_compare_eq_zero_iff _ _).mpr (hagree i (Nat.le_refl i) (by omega))
    simp only [lexico_loop, if_pos heq]
    exact ih (i + 1) (fun j hj1 hj2 => hagree j (by omega) (by omega))

/-- Below any bound the coefficients of two expressions either all agree or
have a first index where they differ. -/
theorem lexico_first_or_agree (a b : Linear_Expression) :
    ∀ n : Nat,
      (∀ j, j < n →
        ppl_Linear_Expression_coefficient a j = ppl_Linear_Expression_coefficient b j) ∨
      ∃ k, k < n ∧
        (∀ j, j < k →
          ppl_Linear_Expression_coefficient a j = ppl_Linear_Expression_coefficient b j) ∧
        ppl_Linear_Expression_coefficient a k ≠ ppl_Linear_Expression_coefficient b k := by
  intro n
  induction n with
  | zero => exact Or.inl (fun j hj => absurd hj (Nat.not_lt_zero j))
  | succ n ih =>
    rcases ih with h | ⟨k, hk, hlt, hne⟩
    · by_cases hn : ppl_Linear_Expression_coefficient a n = ppl_Linear_Expression_coefficient b n
      · refine Or.inl (fun j hj => ?_)
        rcases Nat.lt_succ_iff_lt_or_eq.mp hj with h1 | h1
        · exact h j h1
        · rw [h1]; exact hn
      · exact Or.inr ⟨n, Nat.lt_succ_self n, h, hn⟩
    · exact Or.inr ⟨k, Nat.lt_succ_of_lt hk, hlt, hne⟩

theorem lexico_min_length (a b : Linear_Expression) :
    (if ppl_Linear_Expression_space_dimension a < ppl_Linear_Expression_space_dimension b
      then ppl_Linear_Expression_space_dimension a
      else ppl_Linear_Expression_space_dimension b) =
      min (ppl_Linear_Expression_space_dimension a) (ppl_Linear_Expression_space_dimension b) := by
  split <;> omega

/-- The comparator on expressions that agree below the shorter dimension. -/
theorem lexico_compare_of_agree (a b : Linear_Expression)
    (hagree : ∀ j, j < min (ppl_Linear_Expression_space_dimension a)
        (ppl_Linear_Expression_space_dimension b) →
      ppl_Linear_Expression_coefficient a j = ppl_Linear_Expression_coefficient b j) :
    ppl_lexico_compare_linear_expressions a b =
      (ppl_Linear_Expression_space_dimension a : Int) -
        (ppl_Linear_Expression_space_dimension b : Int) := by
  have hloop := lexico_loop_agree a b
    (min (ppl_Linear_Expression_space_dimension a) (ppl_Linear_Expression_space_dimension b)) 0
    (fun j _ hj => hagree j (by omega))
  unfold ppl_lexico_compare_linear_expressions
  simp only [lexico_min_length, hloop]

/-- The comparator on expressions with a first difference at index `k`. -/
theorem lexico_compare_of_difference (a b : Linear_Expression) (k : Nat)
    (hk : k < min (ppl_Linear_Expression_space_dimension a)
      (ppl_Linear_Expression_space_dimension b))
    (hagree : ∀ j, j < k →
      ppl_Linear_Expression_coefficient a j = ppl_Linear_Expression_coefficient b j)
    (hdiff : ppl_Linear_Expression_coefficient a k ≠ ppl_Linear_Expression_coefficient b k) :
    ppl_lexico_compare_linear_expressions a b =
      value_compare (ppl_Linear_Expression_coefficient a k)
        (ppl_Linear_Expression_coefficient b k) := by
  have hloop := lexico_loop_first_difference a b k hdiff
    (min (ppl_Linear_Expression_space_dimension a) (ppl_Linear_Expression_space_dimension b)) 0
    (Nat.zero_le k) (by omega) (fun j _ hj => hagree j hj)
  unfold ppl_lexico_compare_linear_expressions
  simp only [lexico_min_length, hloop]

/-- The comparator is negative exactly when `a` is smaller at the first
difference, or is a strictly shorter expression agreeing with `b`. -/
theorem lexico_neg_iff (a b : Linear_Expression) :
    ppl_lexico_compare_linear_expressions a b < 0 ↔
      (∃ k, k < min (ppl_Linear_Expression_space_dimension a)
          (ppl_Linear_Expression_space_dimension b) ∧
        (∀ j, j < k →
          ppl_Linear_Expression_coefficient a j = ppl_Linear_Expression_coefficient b j) ∧
        ppl_Linear_Expression_coefficient a k < ppl_Linear_Expression_coefficient b k) ∨
      ((∀ j, j < min (ppl_Linear_Expression_space_dimension a)
          (ppl_Linear_Expression_space_dimension b) →
        ppl_Linear_Expression_coefficient a j = ppl_Linear_Expression_coefficient b j) ∧
        ppl_Linear_Expression_space_dimension a < ppl_Linear_Expression_space_dimension b) := by
  constructor
  · intro hneg
    rcases lexico_first_or_agree a b (min (ppl_Linear_Expression_space_dimension a)
      (ppl_Linear_Expression_space_dimension b)) with h | ⟨k, hk, hlt, hne⟩
    · rw [lexico_compare_of_agree a b h] at hneg
      exact Or.inr ⟨h, by omega⟩
    · rw [lexico_compare_of_difference a b k hk hlt hne] at hneg
      exact Or.inl ⟨k, hk, hlt, (value_compare_neg_iff _ _).mp hneg⟩
  · rintro (⟨k, hk, hlt, hlk⟩ | ⟨h, hl⟩)
    · rw [lexico_compare_of_difference a b k hk hlt (ne_of_lt hlk)]
      exact (value_compare_neg_iff _ _).mpr hlk
    · rw [lexico_compare_of_agree a b h]
      omega

/-- The comparator is zero exactly on expressions of equal dimension that
agree on every dimension. -/
theorem lexico_eq_zero_iff (a b : Linear_Expression) :
    ppl_lexico_compare_linear_expressions a b = 0 ↔
      (∀ j, j < min (ppl_Linear_Expression_space_dimension a)
          (ppl_Linear_Expression_space_dimension b) →
        ppl_Linear_Expression_coefficient a j = ppl_Linear_Expression_coefficient b j) ∧
        ppl_Linear_Expression_space_dimension a = ppl_Linear_Expression_space_dimension b := by
  constructor
  · intro hz
    rcases lexico_first_or_agree a b (min (ppl_Linear_Expression_space_dimension a)
      (ppl_Linear_Expression_space_dimension b)) with h | ⟨k, hk, hlt, hne⟩
    · rw [lexico_compare_of_agree a b h] at hz
      exact ⟨h, by omega⟩
    · rw [lexico_compare_of_difference a b k hk hlt hne] at hz
      exact absurd ((value_compare_eq_zero_iff _ _).mp hz) hne
  · rintro ⟨h, hl⟩
    rw [lexico_compare_of_agree a b h]
    omega

/-- The loop reads the coefficients only. -/
theorem lexico_loop_congr (a a₂ b b₂ : Linear_Expression)
    (ha : ∀ i, ppl_Linear_Expression_coefficient a i = ppl_Linear_Expression_coefficient a₂ i)
    (hb : ∀ i, ppl_Linear_Expression_coefficient b i = ppl_Linear_Expression_coefficient b₂ i) :
    ∀ (n i : Nat), lexico_loop a b n i = lexico_loop a₂ b₂ n i := by
  intro n
  induction n with
  | zero => intro i; rfl
  | succ n ih =>
    intro i
    simp only [lexico_loop, ha i, hb i, ih (i + 1)]

/-! ## Matrix ↔ polyhedron conversion -/

theorem getD_constraint_row (nb_cols : Nat) (cstr : Constraint) (j : Nat) (hj : j < nb_cols) :
    (constraint_row nb_cols cstr).getD j 0 = rowEntry nb_cols cstr j := by
  simp [constraint_row, List.getD_eq_getElem?_getD, List.getElem?_map, List.getElem?_range hj]

theorem constraint_row_length (nb_cols : Nat) (cstr : Constraint) :
    (constraint_row nb_cols cstr).length = nb_cols := by
  simp [constraint_row]

/-- Closed form of `insert_constraint_into_matrix`: row `row` becomes
`constraint_row`, nothing else changes. -/
theorem insert_eq (m : CloogMatrix) (row : Nat) (cstr : Constraint)
    (hrow : row < m.p.length) (hlen : (m.row row).length = m.NbColumns)
    (hdim : cstr.expr.coefficients.length + 2 ≤ m.NbColumns)
    (hkind : cstr.type ≠ Constraint_Type.OTHER) :
    insert_constraint_into_matrix m row cstr =
      some (m.withRow row (constraint_row m.NbColumns cstr)) := by
  obtain ⟨r, hins, hl, hr⟩ := insert_row_spec m row cstr hrow hlen hdim hkind
  have : r = constraint_row m.NbColumns cstr := by
    apply list_eq_of_getD
    · rw [hl, constraint_row_length]
    · intro j hj
      rw [hl] at hj
      rw [hr j hj, getD_constraint_row _ _ _ hj]
  rw [hins, this]

/-- Reading a row with flag 1 and writing the constraint back gives the row
again. -/
theorem constraint_row_round_trip (m : CloogMatrix) (row : Nat) (hcols : 2 ≤ m.NbColumns)
    (hlen : (m.row row).length = m.NbColumns)
    (hflag : m.cell row 0 = 1) :
    constraint_row m.NbColumns (cloog_matrix_to_ppl_constraint m row) = m.row row := by
  rw [cloog_matrix_to_ppl_constraint_spec]
  have hfl : Constraint_Type.GREATER_OR_EQUAL.rowFlag = m.cell row 0 := by
    rw [hflag]; rfl
  have hsg : Constraint_Type.GREATER_OR_EQUAL.rowSign = 1 := rfl
  have hadj : Constraint_Type.GREATER_OR_EQUAL.rowAdjust = 0 := rfl
  apply list_eq_of_getD
  · rw [constraint_row_length, hlen]
  · intro j hj
    rw [constraint_row_length] at hj
    rw [getD_constraint_row _ _ _ hj]
    simp only [rowEntry, List.length_map, List.length_range, hfl, hsg, hadj, one_mul, sub_zero]
    by_cases h0 : j = 0
    · subst h0
      simp [CloogMatrix.cell]
    · by_cases h1 : j < m.NbColumns - 2 + 1
      · have hj1 : j - 1 < m.NbColumns - 2 := by omega
        have hj2 : j - 1 + 1 = j := by omega
        simp [h0, h1, List.getD_eq_getElem?_getD, List.getElem?_range, hj1, hj2,
          CloogMatrix.cell]
      · have h2 : ¬ (j < m.NbColumns - 1) := by omega
        have hj2 : m.NbColumns - 1 = j := by omega
        simp [h0, h1, h2, hj2, CloogMatrix.cell]

theorem set_append_length {α : Type} (done rest : List α) (r v : α) :
    (done ++ r :: rest).set done.length v = done ++ v :: rest := by
  induction done with
  | nil => rfl
  | cons a done ih => simp only [List.cons_append, List.length_cons, List.set_cons_succ, ih]

theorem getD_append_length {α : Type} (done rest : List α) (r d : α) :
    (done ++ r :: rest).getD done.length d = r := by
  induction done with
  | nil => rfl
  | cons a done ih => simpa using ih

/-- The loop of `new_Cloog_Matrix_from_ppl_Constraint_System`: started at row
`done.length`, it replaces the next rows by the rows of the constraints, in
order, and leaves the others. -/
theorem insert_fold (nr nc : Nat) :
    ∀ (cs : List Constraint) (done rest : List (List Int)),
      cs.length ≤ rest.length →
      (∀ r ∈ rest, r.length = nc) →
      (∀ c ∈ cs, c.type ≠ Constraint_Type.OTHER ∧ c.expr.coefficients.length + 2 ≤ nc) →
      cs.foldl insert_step (some (CloogMatrix.mk nr nc (done ++ rest), done.length)) =
        some (CloogMatrix.mk nr nc (done ++ cs.map (constraint_row nc) ++ rest.drop cs.length),
          done.length + cs.length) := by
  intro cs
  induction cs with
  | nil => intro done rest _ _ _; simp
  | cons c cs ih =>
    intro done rest hlen hrest hcs
    cases rest with
    | nil => simp at hlen
    | cons r rest =>
      have hc := hcs c (List.mem_cons_self c cs)
      have hins := insert_eq (CloogMatrix.mk nr nc (done ++ r :: rest)) done.length c
        (by simp) (by simp only [CloogMatrix.row, getD_append_length];
                      exact hrest r (List.mem_cons_self r rest)) hc.2 hc.1
      have hstep : insert_step (some (CloogMatrix.mk nr nc (done ++ r :: rest), done.length)) c =
          some (CloogMatrix.mk nr nc ((done ++ [constraint_row nc c]) ++ rest),
            (done ++ [constraint_row nc c]).length) := by
        simp only [insert_step, hins, Option.map_some', CloogMatrix.withRow, set_append_length]
        simp
      rw [List.foldl_cons, hstep, ih (done ++ [constraint_row nc c]) rest
        (by simpa using hlen) (fun r' hr' => hrest r' (List.mem_cons_of_mem _ hr'))
        (fun c' hc' => hcs c' (List.mem_cons_of_mem _ hc'))]
      simp [Nat.add_assoc, Nat.add_comm 1]

theorem number_of_constraints_eq (pcs : Constraint_System) :
    ppl_Constrain_System_number_of_constraints pcs = pcs.constraints.length := by
  have h : ∀ (l : List Constraint) (n : Nat),
      l.foldl (fun num _ => num + 1) n = n + l.length := by
    intro l
    induction l with
    | nil => intro n; rfl
    | cons c l ih => intro n; rw [List.foldl_cons, ih]; simp only [List.length_cons]; omega
  unfold ppl_Constrain_System_number_of_constraints
  rw [h]; omega

/-- Closed form of `new_Cloog_Matrix_from_ppl_Constraint_System` on a system
of constraints of the five kinds over at most `space_dimension` dimensions. -/
theorem new_Cloog_Matrix_from_ppl_Constraint_System_eq (pcs : Constraint_System)
    (hkind : ∀ c ∈ pcs.constraints, c.type ≠ Constraint_Type.OTHER)
    (hdim : ∀ c ∈ pcs.constraints, ppl_Constraint_space_dimension c ≤ pcs.space_dimension) :
    new_Cloog_Matrix_from_ppl_Constraint_System pcs =
      some (CloogMatrix.mk pcs.constraints.length (pcs.space_dimension + 2)
        (pcs.constraints.map (constraint_row (pcs.space_dimension + 2)))) := by
  unfold new_Cloog_Matrix_from_ppl_Constraint_System
  simp only [number_of_constraints_eq, ppl_Constraint_System_space_dimension, cloog_matrix_alloc]
  have h := insert_fold pcs.constraints.length (pcs.space_dimension + 2) pcs.constraints []
    (List.replicate pcs.constraints.length (List.replicate (pcs.space_dimension + 2) 0))
    (by simp) (by intro r hr; rw [List.eq_of_mem_replicate hr]; simp)
    (fun c hc => ⟨hkind c hc, Nat.add_le_add_right (hdim c hc) 2⟩)
  simp only [List.nil_append, List.length_nil, Nat.zero_add] at h
  rw [h]
  simp

theorem system_loop (f : Nat → Constraint) (d : Nat)
    (hf : ∀ i, ppl_Constraint_space_dimension (f i) = d) :
    ∀ (n lo : Nat) (pcs : Constraint_System),
      (List.range' lo n).foldl (fun pcs i => ppl_Constraint_System_insert_Constraint pcs (f i))
          pcs =
        { space_dimension := if n = 0 then pcs.space_dimension else max pcs.space_dimension d,
          constraints := pcs.constraints ++ (List.range' lo n).map f } := by
  intro n
  induction n with
  | zero => intro lo pcs; simp
  | succ n ih =>
    intro lo pcs
    rw [List.range'_succ, List.foldl_cons, ih]
    simp only [ppl_Constraint_System_insert_Constraint, hf, List.map_cons, List.append_assoc,
      List.singleton_append, Nat.succ_ne_zero, if_false, Constraint_System.mk.injEq, and_true]
    split <;> omega

theorem cloog_constraint_dimension (m : CloogMatrix) (row : Nat) :
    ppl_Constraint_space_dimension (cloog_matrix_to_ppl_constraint m row) = m.NbColumns - 2 := by
  rw [cloog_matrix_to_ppl_constraint_spec]
  simp [ppl_Constraint_space_dimension]

theorem cloog_constraint_kind (m : CloogMatrix) (row : Nat) :
    (cloog_matrix_to_ppl_constraint m row).type ≠ Constraint_Type.OTHER := by
  rw [cloog_matrix_to_ppl_constraint_spec]
  simp

/-- Closed form of `new_NNC_Polyhedron_from_Cloog_Matrix`: one constraint per
row, in row order. -/
theorem new_NNC_Polyhedron_from_Cloog_Matrix_eq (m : CloogMatrix) :
    new_NNC_Polyhedron_from_Cloog_Matrix m =
      { space_dimension := if m.NbRows = 0 then 0 else m.NbColumns - 2,
        constraints := (List.range' 0 m.NbRows).map (cloog_matrix_to_ppl_constraint m) } := by
  have h := system_loop (cloog_matrix_to_ppl_constraint m) (m.NbColumns - 2)
    (cloog_constraint_dimension m) (m.NbRows - 0) 0 ppl_new_Constraint_System
  have h2 : new_Constraint_System_from_Cloog_Matrix m =
      (List.range' 0 (m.NbRows - 0)).foldl
        (fun pcs i => ppl_Constraint_System_insert_Constraint pcs
          (cloog_matrix_to_ppl_constraint m i)) ppl_new_Constraint_System := rfl
  unfold new_NNC_Polyhedron_from_Cloog_Matrix
  simp only []
  rw [h2, h]
  simp only [ppl_new_NNC_Polyhedron_recycle_Constraint_System, ppl_new_Constraint_System,
    Nat.sub_zero, List.nil_append, Nat.zero_max]

theorem map_getD_range' (l : List (List Int)) :
    (List.range' 0 l.length).map (fun k => l.getD k []) = l := by
  apply List.ext_getElem
  · simp
  · intro j h1 h2
    simp [List.getD_eq_getElem?_getD, List.getElem?_eq_getElem h2]

/-- The cells of the row written by `insert_constraint_into_matrix`. -/
theorem insert_cells (m : CloogMatrix) (row : Nat) (cstr : Constraint)
    (hrow : row < m.p.length) (hlen : (m.row row).length = m.NbColumns)
    (hdim : cstr.expr.coefficients.length + 2 ≤ m.NbColumns)
    (hkind : cstr.type ≠ Constraint_Type.OTHER) :
    ∃ m', insert_constraint_into_matrix m row cstr = some m' ∧
      ∀ j, j < m.NbColumns → m'.cell row j = rowEntry m.NbColumns cstr j := by
  refine ⟨_, insert_eq m row cstr hrow hlen hdim hkind, ?_⟩
  intro j hj
  rw [CloogMatrix.cell_withRow m row _ j hrow, getD_constraint_row _ _ _ hj]

theorem rowEntry_flag (nb_cols : Nat) (cstr : Constraint) :
    rowEntry nb_cols cstr 0 = cstr.type.rowFlag := by
  simp [rowEntry]

theorem rowEntry_coefficient (nb_cols : Nat) (cstr : Constraint) (i : Nat)
    (hi : i < cstr.expr.coefficients.length) :
    rowEntry nb_cols cstr (i + 1) = cstr.type.rowSign * cstr.expr.coefficients.getD i 0 := by
  have h1 : i + 1 < cstr.expr.coefficients.length + 1 := by omega
  simp [rowEntry, h1]

theorem rowEntry_padding (nb_cols : Nat) (cstr : Constraint) (j : Nat)
    (h1 : cstr.expr.coefficients.length < j) (h2 : j < nb_cols - 1) :
    rowEntry nb_cols cstr j = 0 := by
  have h0 : ¬ (j = 0) := by omega
  have h3 : ¬ (j < cstr.expr.coefficients.length + 1) := by omega
  simp [rowEntry, h0, h3, h2]

theorem rowEntry_constant (nb_cols : Nat) (cstr : Constraint)
    (hdim : cstr.expr.coefficients.length + 2 ≤ nb_cols) :
    rowEntry nb_cols cstr (nb_cols - 1) =
      cstr.type.rowSign * cstr.expr.inhomogeneous - cstr.type.rowAdjust := by
  have h0 : ¬ (nb_cols - 1 = 0) := by omega
  have h3 : ¬ (nb_cols - 1 < cstr.expr.coefficients.length + 1) := by omega
  simp [rowEntry, h0, h3]

theorem cell_setCell_of_ne (m : CloogMatrix) (row k j : Nat) (v : Int) (h : j ≠ k) :
    (m.setCell row k v).cell row j = m.cell row j := by
  by_cases hrow : row < m.p.length
  · have : m.setCell row k v = m.withRow row ((m.row row).set k v) := rfl
    rw [this, CloogMatrix.cell_withRow m row _ j hrow]
    simp only [CloogMatrix.cell, List.getD_eq_getElem?_getD, List.getElem?_set]
    rw [if_neg (fun hkj => h hkj.symm)]
  · have : m.setCell row k v = m := by
      cases m with
      | mk nr nc p =>
        simp only [CloogMatrix.setCell, CloogMatrix.mk.injEq, true_and]
        exact List.set_eq_of_length_le (Nat.le_of_not_lt hrow)
    rw [this]

/-- The kind of the constraint read from a row. -/
theorem cloog_constraint_type (m : CloogMatrix) (row : Nat) :
    (cloog_matrix_to_ppl_constraint m row).type = Constraint_Type.GREATER_OR_EQUAL := by
  rw [cloog_matrix_to_ppl_constraint_spec]

/-- The constraint read from a well-formed row with flag 1 holds exactly where
the row is satisfied. -/
theorem cloog_constraint_holds {R : Type} [LinearOrderedCommRing R] (m : CloogMatrix)
    (row : Nat) (x : List R) (hcols : 2 ≤ m.NbColumns)
    (hlen : (m.row row).length = m.NbColumns)
    (hflag : m.cell row 0 = 1) :
    (cloog_matrix_to_ppl_constraint m row).holds x ↔ rowHolds (m.row row) x := by
  have hco : (List.range (m.NbColumns - 2)).map (fun j => m.cell row (j + 1)) =
      ((m.row row).drop 1).take ((m.row row).length - 2) := by
    apply list_eq_of_getD
    · simp only [List.length_map, List.length_range, List.length_take, List.length_drop]
      omega
    · intro j hj
      simp only [List.length_map, List.length_range] at hj
      rw [getD_drop_take _ _ _ (by omega)]
      simp [List.getD_eq_getElem?_getD, List.getElem?_map, List.getElem?_range hj,
        CloogMatrix.cell]
  have hev : (cloog_matrix_to_ppl_constraint m row).expr.eval x = rowValue (m.row row) x := by
    rw [cloog_matrix_to_ppl_constraint_spec]
    unfold Linear_Expression.eval rowValue
    simp only []
    rw [hco, hlen]
    rfl
  have hf0 : (m.row row).getD 0 0 = m.cell row 0 := rfl
  unfold Constraint.holds rowHolds
  rw [cloog_constraint_type, hev, hf0]
  simp [hflag]

theorem space_dimension_add_constraint (ph : Polyhedron) (c : Constraint) :
    (ppl_Polyhedron_add_constraint ph c).space_dimension = ph.space_dimension := by
  unfold ppl_Polyhedron_add_constraint
  split <;> rfl

theorem space_dimension_add_constraints (ph : Polyhedron) (cs : Constraint_System) :
    (ppl_Polyhedron_add_constraints ph cs).space_dimension = ph.space_dimension := by
  unfold ppl_Polyhedron_add_constraints
  split <;> rfl

theorem space_dimension_shift_poly (ph : Polyhedron) (x dim : Nat) :
    (shift_poly ph x dim).space_dimension = dim + 1 := rfl

/-- The result of `ppl_strip_loop` has one dimension more than its argument,
whatever the arguments are. -/
theorem ppl_strip_loop_space_dimension (ph : Polyhedron) (loop : Nat) (stride : Int) :
    (ppl_strip_loop ph loop stride).space_dimension = ph.space_dimension + 1 := by
  unfold ppl_strip_loop
  simp only [space_dimension_add_constraint, space_dimension_add_constraints,
    space_dimension_shift_poly, ppl_Polyhedron_space_dimension]

theorem getD_deleteAt {α : Type} (x : List α) (k : Nat) (d : α) :
    (deleteAt x k).getD k d = x.getD (k + 1) d := by
  induction k generalizing x with
  | zero =>
    cases x with
    | nil => rfl
    | cons a x => rfl
  | succ k ih =>
    cases x with
    | nil => simp [deleteAt]
    | cons a x => rw [deleteAt_cons_succ, List.getD_cons_succ, List.getD_cons_succ, ih]

theorem forLoop_setCell_dims (row : Nat) (col : Nat → Nat) (val : Nat → CloogMatrix → Int) :
    ∀ (n lo : Nat) (m : CloogMatrix),
      ((List.range' lo n).foldl (fun acc k => acc.setCell row (col k) (val k acc)) m).NbRows =
          m.NbRows ∧
      ((List.range' lo n).foldl (fun acc k => acc.setCell row (col k) (val k acc)) m).NbColumns =
          m.NbColumns := by
  intro n
  induction n with
  | zero => intro lo m; exact ⟨rfl, rfl⟩
  | succ n ih =>
    intro lo m
    rw [List.range'_succ, List.foldl_cons]
    exact ih (lo + 1) (m.setCell row (col lo) (val lo m))

theorem forLoop_setCell_NbRows (row lo hi : Nat) (col : Nat → Nat)
    (val : Nat → CloogMatrix → Int) (m : CloogMatrix) :
    (forLoop lo hi (fun k acc => acc.setCell row (col k) (val k acc)) m).NbRows = m.NbRows :=
  (forLoop_setCell_dims row col val (hi - lo) lo m).1

theorem forLoop_setCell_NbColumns (row lo hi : Nat) (col : Nat → Nat)
    (val : Nat → CloogMatrix → Int) (m : CloogMatrix) :
    (forLoop lo hi (fun k acc => acc.setCell row (col k) (val k acc)) m).NbColumns =
      m.NbColumns :=
  (forLoop_setCell_dims row col val (hi - lo) lo m).2

theorem setCell_NbRows (m : CloogMatrix) (row k : Nat) (v : Int) :
    (m.setCell row k v).NbRows = m.NbRows := rfl

theorem setCell_NbColumns (m : CloogMatrix) (row k : Nat) (v : Int) :
    (m.setCell row k v).NbColumns = m.NbColumns := rfl

theorem oppose_constraint_NbRows (m : CloogMatrix) (row : Nat) :
    (oppose_constraint m row).NbRows = m.NbRows :=
  forLoop_setCell_NbRows row 1 m.NbColumns (fun k => k) (fun k acc => - acc.cell row k) m

theorem oppose_constraint_NbColumns (m : CloogMatrix) (row : Nat) :
    (oppose_constraint m row).NbColumns = m.NbColumns :=
  forLoop_setCell_NbColumns row 1 m.NbColumns (fun k => k) (fun k acc => - acc.cell row k) m

/-- The matrix of `insert_constraint_into_matrix` after the copy of the
coefficients, the zero fill, the constant and the flag 1. -/
theorem insert_prefix_dims (m : CloogMatrix) (row : Nat) (cstr : Constraint) :
    ((((forLoop (ppl_Constraint_space_dimension cstr) (m.NbColumns - 1)
        (fun i m => m.setCell row (i + 1) 0)
        (forLoop 0 (ppl_Constraint_space_dimension cstr)
          (fun i m => m.setCell row (i + 1) (ppl_Constraint_coefficient cstr i)) m)).setCell row
        (m.NbColumns - 1) (ppl_Constraint_inhomogeneous_term cstr)).setCell row 0 1).NbRows =
        m.NbRows) ∧
    ((((forLoop (ppl_Constraint_space_dimension cstr) (m.NbColumns - 1)
        (fun i m => m.setCell row (i + 1) 0)
        (forLoop 0 (ppl_Constraint_space_dimension cstr)
          (fun i m => m.setCell row (i + 1) (ppl_Constraint_coefficient cstr i)) m)).setCell row
        (m.NbColumns - 1) (ppl_Constraint_inhomogeneous_term cstr)).setCell row 0 1).NbColumns =
        m.NbColumns) := by
  have h1 := forLoop_setCell_dims row (fun i => i + 1)
    (fun i _ => ppl_Constraint_coefficient cstr i) (ppl_Constraint_space_dimension cstr - 0) 0 m
  have h2 := forLoop_setCell_dims row (fun i => i + 1) (fun _ _ => 0)
    (m.NbColumns - 1 - ppl_Constraint_space_dimension cstr) (ppl_Constraint_space_dimension cstr)
    (forLoop 0 (ppl_Constraint_space_dimension cstr)
      (fun i m => m.setCell row (i + 1) (ppl_Constraint_coefficient cstr i)) m)
  exact ⟨h2.1.trans h1.1, h2.2.trans h1.2⟩

/-! ## Claims -/

/-- C1: for a constraint of one of the five kinds over `dim` dimensions and a
matrix row of `dim + 2` columns, `insert_constraint_into_matrix` produces a
matrix, and an integer point `x` satisfies the row it wrote (value `= 0` with
flag 0, value `≥ 0` with flag 1) if and only if the constraint holds at `x`. -/
theorem C1_constraint_row_exact (m : CloogMatrix) (row : Nat) (cstr : Constraint)
    (x : List Int) (hrow : row < m.p.length) (hlen : (m.row row).length = m.NbColumns)
    (hcols : m.NbColumns = ppl_Constraint_space_dimension cstr + 2)
    (hkind : cstr.type ≠ Constraint_Type.OTHER) :
    ∃ m', insert_constraint_into_matrix m row cstr = some m' ∧
      (rowHolds (m'.row row) x ↔ cstr.holds x) := by
  obtain ⟨r, hins, hl, hr⟩ := insert_row_spec m row cstr hrow hlen
    (by rw [hcols]; exact Nat.le_refl _) hkind
  refine ⟨_, hins, ?_⟩
  rw [CloogMatrix.row_withRow m row r hrow]
  have hv := rowValue_spec r m.NbColumns cstr x hcols hl hr
  have hf : r.getD 0 0 = cstr.type.rowFlag := by
    rw [hr 0 (by omega)]; simp [rowEntry]
  unfold rowHolds Constraint.holds
  rw [hv, hf]
  generalize cstr.expr.eval x = v
  cases hty : cstr.type <;>
    simp only [Constraint_Type.rowFlag, Constraint_Type.rowSign, Constraint_Type.rowAdjust,
      Int.cast_id] <;>
    first
    | exact absurd hty hkind
    | (simp only [one_ne_zero, zero_ne_one, false_and, true_and, false_or, or_false]
       constructor <;> intro h <;> omega)

/-- Witness of C1: the constraint `x - 5 < 0`, written into a row of 3 columns,
at the point `x = 4`. -/
theorem C1_constraint_row_exact_witness :
    (0 < (cloog_matrix_alloc 1 3).p.length ∧
      ((cloog_matrix_alloc 1 3).row 0).length = (cloog_matrix_alloc 1 3).NbColumns) ∧
    ∃ m', insert_constraint_into_matrix (cloog_matrix_alloc 1 3) 0
        ⟨⟨[1], -5⟩, Constraint_Type.LESS_THAN⟩ = some m' ∧
      (rowHolds (m'.row 0) [(4 : Int)] ↔
        Constraint.holds ⟨⟨[1], -5⟩, Constraint_Type.LESS_THAN⟩ [(4 : Int)]) :=
  ⟨by decide, C1_constraint_row_exact (cloog_matrix_alloc 1 3) 0
    ⟨⟨[1], -5⟩, Constraint_Type.LESS_THAN⟩ [4] (by decide) (by decide) (by decide) (by decide)⟩

/-- C2 (code defect): the test `matrix->p[row][0] == 0` of
`cloog_matrix_to_ppl_constraint` compares the address of an `mpz_t` entry with
0 and is never true, so a row with kind flag 0 is read as a
`GREATER_OR_EQUAL` constraint and written back with flag 1.  The row
`[0, 1, 1, -4]` comes back as `[1, 1, 1, -4]`; the row `[1, 2, -1, 3]`, with
flag 1, is recovered in every column. -/
theorem C2_round_trip_changes_flag_zero_row :
    (CloogMatrix.mk 1 4 [[0, 1, 1, -4]]).cell 0 0 = 0 ∧
    cloog_matrix_to_ppl_constraint (CloogMatrix.mk 1 4 [[0, 1, 1, -4]]) 0 =
      ⟨⟨[1, 1], -4⟩, Constraint_Type.GREATER_OR_EQUAL⟩ ∧
    (insert_constraint_into_matrix (cloog_matrix_alloc 1 4) 0
        (cloog_matrix_to_ppl_constraint (CloogMatrix.mk 1 4 [[0, 1, 1, -4]]) 0)).map
      (fun m => m.row 0) = some [1, 1, 1, -4] ∧
    (insert_constraint_into_matrix (cloog_matrix_alloc 1 4) 0
        (cloog_matrix_to_ppl_constraint (CloogMatrix.mk 1 4 [[1, 2, -1, 3]]) 0)).map
      (fun m => m.row 0) = some [1, 2, -1, 3] := by
  refine ⟨by decide, by decide, by decide, by decide⟩

/-- C3 (code defect): `ppl_strip_loop` loses iterations.  The constraints that
bound the loop are put on the tile index as well
(`shift_poly (tmp, loop + 1, dim)`), so a point is kept only if its tile index
satisfies the bounds of the loop variable.  For the loop `5 ≤ i ≤ 9`,
`loop = 0` and `stride = 4`, the point `i = 5` has no tile index `t` with
`(t, 5)` in the result (`5 ≤ t` and `4 t ≤ 5`); for the nest `0 ≤ j ≤ i ≤ 9`,
`loop = 0` and `stride = 4`, the point `(i, j) = (6, 5)` has no tile index `t`
with `(t, 6, 5)` in the result (`5 ≤ t` and `4 t ≤ 6`). -/
theorem C3_strip_loop_loses_iterations :
    loop_5_9.wf ∧ 0 < loop_5_9.space_dimension ∧ (1 : Int) ≤ 4 ∧
    loop_5_9.contains [(5 : Int)] ∧
    (¬ ∃ t : Int, (ppl_strip_loop loop_5_9 0 4).contains (insertAt [(5 : Int)] 0 t)) ∧
    nest_j_le_i.wf ∧ 0 < nest_j_le_i.space_dimension ∧
    nest_j_le_i.contains [(6 : Int), 5] ∧
    (¬ ∃ t : Int, (ppl_strip_loop nest_j_le_i 0 4).contains (insertAt [(6 : Int), 5] 0 t)) := by
  refine ⟨by decide, by decide, by decide, by decide, ?_, by decide, by decide, by decide, ?_⟩
  · rintro ⟨t, ht⟩
    rw [ppl_strip_loop_contains loop_5_9 0 4 _ (by decide) (by decide)] at ht
    obtain ⟨_, _, hsel, hlow, _⟩ := ht
    have h5 := hsel ⟨⟨[1], -5⟩, Constraint_Type.GREATER_OR_EQUAL⟩ (by simp [loop_5_9])
      (by decide)
    simp [Constraint.holds, Linear_Expression.eval, dot, insertAt, deleteAt] at h5 hlow
    omega
  · rintro ⟨t, ht⟩
    rw [ppl_strip_loop_contains nest_j_le_i 0 4 _ (by decide) (by decide)] at ht
    obtain ⟨_, _, hsel, hlow, _⟩ := ht
    have h5 := hsel ⟨⟨[1, -1], 0⟩, Constraint_Type.GREATER_OR_EQUAL⟩ (by simp [nest_j_le_i])
      (by decide)
    simp [Constraint.holds, Linear_Expression.eval, dot, insertAt, deleteAt] at h5 hlow
    omega

/-- C4: for a polyhedron `P` of dimension `dim`, `loop < dim` and every stride
(in particular every `stride ≥ 1`), every point `x` of
`ppl_strip_loop (P, loop, stride)` satisfies
`stride * x[loop] ≤ x[loop+1] ≤ stride * x[loop] + stride - 1`. -/
theorem C4_strip_loop_window {R : Type} [LinearOrderedCommRing R] (P : Polyhedron) (loop : Nat)
    (stride : Int) (x : List R) (hwf : P.wf) (hloop : loop < P.space_dimension)
    (hx : (ppl_strip_loop P loop stride).contains x) :
    (stride : R) * x.getD loop 0 ≤ x.getD (loop + 1) 0 ∧
      x.getD (loop + 1) 0 ≤ (stride : R) * x.getD loop 0 + (stride : R) - 1 := by
  rw [ppl_strip_loop_contains P loop stride x hwf hloop] at hx
  obtain ⟨_, _, _, hlow, hup⟩ := hx
  constructor
  · linarith
  · linarith

/-- Witness of C4: the loop `0 ≤ i ≤ 9`, `stride = 4`, the point `(1, 5)`. -/
theorem C4_strip_loop_window_witness :
    (ppl_strip_loop loop_0_9 0 4).contains [(1 : Int), 5] ∧
    ((4 : Int) * ([(1 : Int), 5]).getD 0 0 ≤ ([(1 : Int), 5]).getD (0 + 1) 0 ∧
      ([(1 : Int), 5]).getD (0 + 1) 0 ≤ (4 : Int) * ([(1 : Int), 5]).getD 0 0 + (4 : Int) - 1) :=
  ⟨by decide, C4_strip_loop_window loop_0_9 0 4 [1, 5] (by decide) (by decide) (by decide)⟩

/-- C5: for a polyhedron `P` of dimension `dim`, `loop < dim` and every stride,
every point of `ppl_strip_loop (P, loop, stride)`, once its coordinate at index
`loop` (the tile index) is deleted, is a point of `P`. -/
theorem C5_strip_loop_retains_bounds {R : Type} [LinearOrderedCommRing R] (P : Polyhedron)
    (loop : Nat) (stride : Int) (x : List R) (hwf : P.wf) (hloop : loop < P.space_dimension)
    (hx : (ppl_strip_loop P loop stride).contains x) :
    P.contains (deleteAt x loop) := by
  rw [ppl_strip_loop_contains P loop stride x hwf hloop] at hx
  obtain ⟨hlen, hcs, _⟩ := hx
  refine ⟨?_, hcs⟩
  simp only [deleteAt, List.length_append, List.length_take, List.length_drop]
  omega

/-- Witness of C5: the loop `0 ≤ i ≤ 9`, `stride = 4`, the point `(1, 5)`. -/
theorem C5_strip_loop_retains_bounds_witness :
    (ppl_strip_loop loop_0_9 0 4).contains [(1 : Int), 5] ∧
    loop_0_9.contains (deleteAt [(1 : Int), 5] 0) :=
  ⟨by decide, C5_strip_loop_retains_bounds loop_0_9 0 4 [1, 5] (by decide) (by decide) (by decide)⟩

/-- C6: for the 1-dimensional polyhedron `0 ≤ i ≤ 9` (constraints `i ≥ 0` and
`-i + 9 ≥ 0`), `ppl_strip_loop` with `loop = 0` and `stride = 4` yields a
2-dimensional polyhedron whose integer points `(t, i)` are exactly
`(0,0),(0,1),(0,2),(0,3),(1,4),(1,5),(1,6),(1,7),(2,8),(2,9)`. -/
theorem C6_strip_loop_example :
    (ppl_strip_loop loop_0_9 0 4).space_dimension = 2 ∧
    ∀ x : List Int,
      (ppl_strip_loop loop_0_9 0 4).contains x ↔
      x ∈ [[0, 0], [0, 1], [0, 2], [0, 3], [1, 4], [1, 5], [1, 6], [1, 7], [2, 8], [2, 9]] := by
  refine ⟨by decide, ?_⟩
  intro x
  constructor
  · intro hx
    rw [ppl_strip_loop_contains loop_0_9 0 4 _ (by decide) (by decide)] at hx
    obtain ⟨hlen, hcs, _, hlow, hup⟩ := hx
    match x, hlen with
    | [t, i], _ =>
      have h0 := hcs ⟨⟨[1], 0⟩, Constraint_Type.GREATER_OR_EQUAL⟩ (by simp [loop_0_9])
      have h9 := hcs ⟨⟨[-1], 9⟩, Constraint_Type.GREATER_OR_EQUAL⟩ (by simp [loop_0_9])
      simp [Constraint.holds, Linear_Expression.eval, dot, deleteAt] at h0 h9 hlow hup
      have ht : 0 ≤ t ∧ t ≤ 2 := by omega
      have hi : 0 ≤ i ∧ i ≤ 9 := by omega
      obtain ⟨ht0, ht2⟩ := ht
      obtain ⟨hi0, hi9⟩ := hi
      interval_cases t <;> interval_cases i <;> first | omega | simp
  · intro hx
    simp only [List.mem_cons, List.mem_singleton, List.not_mem_nil, or_false] at hx
    rcases hx with h | h | h | h | h | h | h | h | h | h <;> subst h <;> decide

/-- C7: for a `dim`-dimensional polyhedron `P` and `0 ≤ k ≤ dim`, a
`(dim+1)`-dimensional point `x` belongs to `shift_poly (P, k, dim)` if and only
if `x` with its coordinate at index `k` deleted belongs to `P`. -/
theorem C7_shift_poly_membership {R : Type} [LinearOrderedCommRing R] (P : Polyhedron)
    (k dim : Nat) (x : List R) (hP : P.space_dimension = dim) (hwf : P.wf) (hk : k ≤ dim)
    (hx : x.length = dim + 1) :
    (shift_poly P k dim).contains x ↔ P.contains (deleteAt x k) := by
  rw [shift_poly_contains P k dim x (by omega) hk (fun c hc => hP ▸ hwf c hc)]
  have hlen : (deleteAt x k).length = P.space_dimension := by
    simp only [deleteAt, List.length_append, List.length_take, List.length_drop]
    omega
  simp only [Polyhedron.contains, hx, hlen, true_and]

/-- Witness of C7: the segment `0 ≤ i ≤ 9`, a dimension inserted at index 0,
at the point `(7, 3)`. -/
theorem C7_shift_poly_membership_witness :
    loop_0_9.wf ∧
    ((shift_poly loop_0_9 0 1).contains [(7 : Int), 3] ↔
      loop_0_9.contains (deleteAt [(7 : Int), 3] 0)) :=
  ⟨by decide, C7_shift_poly_membership loop_0_9 0 1 [7, 3] rfl (by decide) (by decide) rfl⟩

/-- C8: for a `dim`-dimensional polyhedron and `0 ≤ k ≤ dim`, `shift_poly`
keeps the number and the order of the constraints, and the constraint it makes
of `c` has `dim + 1` coefficients, coefficient 0 at index `k`, the coefficient
of `c` for dimension `i` at index `i` when `i < k` and at index `i + 1` when
`k ≤ i < dim`, and the constant term and the kind of `c`. -/
theorem C8_shift_poly_placement (P : Polyhedron) (k dim : Nat)
    (hP : P.space_dimension = dim) (hwf : P.wf) (hk : k ≤ dim) :
    (shift_poly P k dim).constraints.length = P.constraints.length ∧
    ∀ (n : Nat) (c : Constraint), P.constraints[n]? = some c →
      ∃ c', (shift_poly P k dim).constraints[n]? = some c' ∧
        ppl_Constraint_space_dimension c' = dim + 1 ∧
        ppl_Constraint_coefficient c' k = 0 ∧
        (∀ i, i < k → ppl_Constraint_coefficient c' i = ppl_Constraint_coefficient c i) ∧
        (∀ i, k ≤ i → i < dim →
          ppl_Constraint_coefficient c' (i + 1) = ppl_Constraint_coefficient c i) ∧
        ppl_Constraint_inhomogeneous_term c' = ppl_Constraint_inhomogeneous_term c ∧
        ppl_Constraint_type c' = ppl_Constraint_type c := by
  rw [shift_poly_eq P k dim (by omega)]
  refine ⟨by simp, ?_⟩
  intro n c hn
  refine ⟨shift_constraint k dim c, by simp [List.getElem?_map, hn], ?_⟩
  have hc : c.expr.coefficients.length ≤ dim := by
    have := hwf c (List.getElem?_mem hn)
    rw [hP] at this
    exact this
  refine ⟨map_coefficients_length _ _ _, ?_, ?_, ?_, rfl, rfl⟩
  · simp only [ppl_Constraint_coefficient, shift_constraint]
    rw [shift_coefficients_getD k dim k _ hk hk]
    simp only [lt_self_iff_false, if_false, if_true]
    rw [List.getD_eq_getElem?_getD, List.getElem?_eq_none_iff.mpr hc]; rfl
  · intro i hi
    simp only [ppl_Constraint_coefficient, shift_constraint]
    rw [shift_coefficients_getD k dim i _ hk (by omega), if_pos hi]
  · intro i hki hid
    simp only [ppl_Constraint_coefficient, shift_constraint]
    have h1 : ¬ (i + 1 < k) := by omega
    have h2 : ¬ (i + 1 = k) := by omega
    rw [shift_coefficients_getD k dim (i + 1) _ hk (by omega), if_neg h1, if_neg h2,
      Nat.add_sub_cancel]

/-- Witness of C8: the constraint `x + 2 y + 3 z + 7 ≥ 0` and a dimension
inserted at index 1. -/
theorem C8_shift_poly_placement_witness :
    (Polyhedron.mk 3 [⟨⟨[1, 2, 3], 7⟩, Constraint_Type.GREATER_OR_EQUAL⟩]).wf ∧
    (shift_poly (Polyhedron.mk 3 [⟨⟨[1, 2, 3], 7⟩, Constraint_Type.GREATER_OR_EQUAL⟩])
        1 3).constraints.length = 1 ∧
    ∀ (n : Nat) (c : Constraint),
      (Polyhedron.mk 3 [⟨⟨[1, 2, 3], 7⟩, Constraint_Type.GREATER_OR_EQUAL⟩]).constraints[n]? =
        some c →
      ∃ c', (shift_poly (Polyhedron.mk 3 [⟨⟨[1, 2, 3], 7⟩, Constraint_Type.GREATER_OR_EQUAL⟩])
          1 3).constraints[n]? = some c' ∧
        ppl_Constraint_space_dimension c' = 3 + 1 ∧
        ppl_Constraint_coefficient c' 1 = 0 ∧
        (∀ i, i < 1 → ppl_Constraint_coefficient c' i = ppl_Constraint_coefficient c i) ∧
        (∀ i, 1 ≤ i → i < 3 →
          ppl_Constraint_coefficient c' (i + 1) = ppl_Constraint_coefficient c i) ∧
        ppl_Constraint_inhomogeneous_term c' = ppl_Constraint_inhomogeneous_term c ∧
        ppl_Constraint_type c' = ppl_Constraint_type c :=
  ⟨by decide, C8_shift_poly_placement _ 1 3 rfl (by decide) (by decide)⟩

/-- C9: if `k < min (dim a) (dim b)` is the smallest index at which the
coefficients of `a` and `b` differ, `ppl_lexico_compare_linear_expressions (a, b)`
is negative when `a[k] < b[k]` and positive when `a[k] > b[k]`, whatever the
later coefficients and the dimensions are. -/
theorem C9_lexico_first_difference (a b : Linear_Expression) (k : Nat)
    (hk : k < min (ppl_Linear_Expression_space_dimension a)
      (ppl_Linear_Expression_space_dimension b))
    (hagree : ∀ j, j < k →
      ppl_Linear_Expression_coefficient a j = ppl_Linear_Expression_coefficient b j)
    (hdiff : ppl_Linear_Expression_coefficient a k ≠ ppl_Linear_Expression_coefficient b k) :
    (ppl_Linear_Expression_coefficient a k < ppl_Linear_Expression_coefficient b k →
      ppl_lexico_compare_linear_expressions a b < 0) ∧
    (ppl_Linear_Expression_coefficient b k < ppl_Linear_Expression_coefficient a k →
      0 < ppl_lexico_compare_linear_expressions a b) := by
  have hmin : (if ppl_Linear_Expression_space_dimension a < ppl_Linear_Expression_space_dimension b
      then ppl_Linear_Expression_space_dimension a
      else ppl_Linear_Expression_space_dimension b) =
      min (ppl_Linear_Expression_space_dimension a) (ppl_Linear_Expression_space_dimension b) := by
    split <;> omega
  have hloop := lexico_loop_first_difference a b k hdiff
    (min (ppl_Linear_Expression_space_dimension a) (ppl_Linear_Expression_space_dimension b)) 0
    (Nat.zero_le k) (by omega) (fun j _ hj => hagree j hj)
  unfold ppl_lexico_compare_linear_expressions
  simp only [hmin, hloop]
  exact ⟨(value_compare_neg_iff _ _).mpr, (value_compare_pos_iff _ _).mpr⟩

/-- Witness of C9: `compare ([1,2,3], [1,2,4]) < 0`, first difference at index 2. -/
theorem C9_lexico_first_difference_witness :
    ppl_lexico_compare_linear_expressions ⟨[1, 2, 3], 0⟩ ⟨[1, 2, 4], 0⟩ < 0 :=
  (C9_lexico_first_difference ⟨[1, 2, 3], 0⟩ ⟨[1, 2, 4], 0⟩ 2 (by decide) (by decide)
    (by decide)).1 (by decide)

/-- C10: when the coefficients of `a` and `b` agree on every index below
`min (dim a) (dim b)`, `ppl_lexico_compare_linear_expressions (a, b)` equals
`dim a - dim b`; it is negative when `a` is strictly shorter than `b` and 0
when the dimensions are equal. -/
theorem C10_lexico_common_part (a b : Linear_Expression)
    (hagree : ∀ j, j < min (ppl_Linear_Expression_space_dimension a)
        (ppl_Linear_Expression_space_dimension b) →
      ppl_Linear_Expression_coefficient a j = ppl_Linear_Expression_coefficient b j) :
    ppl_lexico_compare_linear_expressions a b =
      (ppl_Linear_Expression_space_dimension a : Int) -
        (ppl_Linear_Expression_space_dimension b : Int) ∧
    (ppl_Linear_Expression_space_dimension a < ppl_Linear_Expression_space_dimension b →
      ppl_lexico_compare_linear_expressions a b < 0) ∧
    (ppl_Linear_Expression_space_dimension a = ppl_Linear_Expression_space_dimension b →
      ppl_lexico_compare_linear_expressions a b = 0) := by
  have hmin : (if ppl_Linear_Expression_space_dimension a < ppl_Linear_Expression_space_dimension b
      then ppl_Linear_Expression_space_dimension a
      else ppl_Linear_Expression_space_dimension b) =
      min (ppl_Linear_Expression_space_dimension a) (ppl_Linear_Expression_space_dimension b) := by
    split <;> omega
  have hloop := lexico_loop_agree a b
    (min (ppl_Linear_Expression_space_dimension a) (ppl_Linear_Expression_space_dimension b)) 0
    (fun j _ hj => hagree j (by omega))
  have heq : ppl_lexico_compare_linear_expressions a b =
      (ppl_Linear_Expression_space_dimension a : Int) -
        (ppl_Linear_Expression_space_dimension b : Int) := by
    unfold ppl_lexico_compare_linear_expressions
    simp only [hmin, hloop]
  refine ⟨heq, ?_, ?_⟩
  · intro h; rw [heq]; omega
  · intro h; rw [heq]; omega

/-- Witness of C10: `compare ([1,2], [1,2,3]) < 0`. -/
theorem C10_lexico_common_part_witness :
    ppl_lexico_compare_linear_expressions ⟨[1, 2], 0⟩ ⟨[1, 2, 3], 0⟩ < 0 ∧
    ppl_lexico_compare_linear_expressions ⟨[5], 0⟩ ⟨[5], 0⟩ = 0 :=
  ⟨(C10_lexico_common_part ⟨[1, 2], 0⟩ ⟨[1, 2, 3], 0⟩ (by decide)).2.1 (by decide),
   (C10_lexico_common_part ⟨[5], 0⟩ ⟨[5], 0⟩ (by decide)).2.2 (by decide)⟩

/-- C11: the comparator is antisymmetric: `compare (a, b)` is negative if and
only if `compare (b, a)` is positive, and one is 0 if and only if the other
is 0. -/
theorem C11_lexico_antisymmetric (a b : Linear_Expression) :
    (ppl_lexico_compare_linear_expressions a b < 0 ↔
      0 < ppl_lexico_compare_linear_expressions b a) ∧
    (ppl_lexico_compare_linear_expressions a b = 0 ↔
      ppl_lexico_compare_linear_expressions b a = 0) := by
  rcases lexico_first_or_agree a b (min (ppl_Linear_Expression_space_dimension a)
    (ppl_Linear_Expression_space_dimension b)) with h | ⟨k, hk, hlt, hne⟩
  · rw [lexico_compare_of_agree a b h,
      lexico_compare_of_agree b a (fun j hj => (h j (by omega)).symm)]
    constructor <;> constructor <;> intro h1 <;> omega
  · rw [lexico_compare_of_difference a b k hk hlt hne,
      lexico_compare_of_difference b a k (by omega) (fun j hj => (hlt j hj).symm) (Ne.symm hne)]
    rw [value_compare_neg_iff, value_compare_pos_iff, value_compare_eq_zero_iff,
      value_compare_eq_zero_iff]
    exact ⟨Iff.rfl, ⟨fun h1 => h1.symm, fun h1 => h1.symm⟩⟩

/-- Witness of C11: `compare ([1,2], [1,2,3]) < 0` gives
`compare ([1,2,3], [1,2]) > 0`. -/
theorem C11_lexico_antisymmetric_witness :
    0 < ppl_lexico_compare_linear_expressions ⟨[1, 2, 3], 0⟩ ⟨[1, 2], 0⟩ :=
  (C11_lexico_antisymmetric ⟨[1, 2], 0⟩ ⟨[1, 2, 3], 0⟩).1.mp (by decide)

/-- C12: the comparator is transitive on expressions of any dimensions: from
`compare (a, b) < 0` and `compare (b, c) < 0` follows `compare (a, c) < 0`, and
from `compare (a, b) = 0` and `compare (b, c) = 0` follows `compare (a, c) = 0`. -/
theorem C12_lexico_transitive (a b c : Linear_Expression) :
    (ppl_lexico_compare_linear_expressions a b < 0 →
      ppl_lexico_compare_linear_expressions b c < 0 →
      ppl_lexico_compare_linear_expressions a c < 0) ∧
    (ppl_lexico_compare_linear_expressions a b = 0 →
      ppl_lexico_compare_linear_expressions b c = 0 →
      ppl_lexico_compare_linear_expressions a c = 0) := by
  constructor
  · intro hab hbc
    rw [lexico_neg_iff] at hab hbc ⊢
    rcases hab with ⟨k₁, hk₁, hlt₁, hd₁⟩ | ⟨hag₁, hl₁⟩
    · rcases hbc with ⟨k₂, hk₂, hlt₂, hd₂⟩ | ⟨hag₂, hl₂⟩
      · rcases lt_trichotomy k₁ k₂ with h | h | h
        · refine Or.inl ⟨k₁, by omega, fun j hj => (hlt₁ j hj).trans (hlt₂ j (by omega)), ?_⟩
          rw [← hlt₂ k₁ h]; exact hd₁
        · subst h
          exact Or.inl ⟨k₁, by omega, fun j hj => (hlt₁ j hj).trans (hlt₂ j hj),
            lt_trans hd₁ hd₂⟩
        · refine Or.inl ⟨k₂, by omega, fun j hj => (hlt₁ j (by omega)).trans (hlt₂ j hj), ?_⟩
          rw [hlt₁ k₂ h]; exact hd₂
      · refine Or.inl ⟨k₁, by omega, fun j hj => (hlt₁ j hj).trans (hag₂ j (by omega)), ?_⟩
        rw [← hag₂ k₁ (by omega)]; exact hd₁
    · rcases hbc with ⟨k₂, hk₂, hlt₂, hd₂⟩ | ⟨hag₂, hl₂⟩
      · by_cases h : k₂ < ppl_Linear_Expression_space_dimension a
        · refine Or.inl ⟨k₂, by omega, fun j hj => (hag₁ j (by omega)).trans (hlt₂ j hj), ?_⟩
          rw [hag₁ k₂ (by omega)]; exact hd₂
        · exact Or.inr ⟨fun j hj => (hag₁ j (by omega)).trans (hlt₂ j (by omega)), by omega⟩
      · exact Or.inr ⟨fun j hj => (hag₁ j (by omega)).trans (hag₂ j (by omega)), by omega⟩
  · intro hab hbc
    rw [lexico_eq_zero_iff] at hab hbc ⊢
    obtain ⟨hag₁, hl₁⟩ := hab
    obtain ⟨hag₂, hl₂⟩ := hbc
    exact ⟨fun j hj => (hag₁ j (by omega)).trans (hag₂ j (by omega)), by omega⟩

/-- Witness of C12: `[1] < [1, 2]` and `[1, 2] < [2]` give `[1] < [2]`, across
three different pairs of dimensions. -/
theorem C12_lexico_transitive_witness :
    ppl_lexico_compare_linear_expressions ⟨[1], 0⟩ ⟨[2], 0⟩ < 0 :=
  (C12_lexico_transitive ⟨[1], 0⟩ ⟨[1, 2], 0⟩ ⟨[2], 0⟩).1 (by decide) (by decide)

/-- C13: `compare (a, b) = 0` if and only if `dim a = dim b` and `a` and `b`
have the same coefficient at every dimension, that is, if and only if their
coefficient sequences are equal; for two expressions with different coefficient
sequences the result is nonzero. -/
theorem C13_lexico_total (a b : Linear_Expression) :
    (ppl_lexico_compare_linear_expressions a b = 0 ↔
      ppl_Linear_Expression_space_dimension a = ppl_Linear_Expression_space_dimension b ∧
      ∀ i, i < ppl_Linear_Expression_space_dimension a →
        ppl_Linear_Expression_coefficient a i = ppl_Linear_Expression_coefficient b i) ∧
    (a.coefficients ≠ b.coefficients → ppl_lexico_compare_linear_expressions a b ≠ 0) := by
  have hiff : ppl_lexico_compare_linear_expressions a b = 0 ↔
      ppl_Linear_Expression_space_dimension a = ppl_Linear_Expression_space_dimension b ∧
      ∀ i, i < ppl_Linear_Expression_space_dimension a →
        ppl_Linear_Expression_coefficient a i = ppl_Linear_Expression_coefficient b i := by
    rw [lexico_eq_zero_iff]
    constructor
    · rintro ⟨h, hl⟩
      exact ⟨hl, fun i hi => h i (by omega)⟩
    · rintro ⟨hl, h⟩
      exact ⟨fun j hj => h j (by omega), hl⟩
  refine ⟨hiff, ?_⟩
  intro hne hz
  obtain ⟨hl, h⟩ := hiff.mp hz
  exact hne (list_eq_of_getD _ _ hl h)

/-- Witness of C13: `[1, 2]` and `[1, 2, 0]` have different coefficient
sequences, so they do not compare equal. -/
theorem C13_lexico_total_witness :
    ppl_lexico_compare_linear_expressions ⟨[1, 2], 0⟩ ⟨[1, 2, 0], 0⟩ ≠ 0 :=
  (C13_lexico_total ⟨[1, 2], 0⟩ ⟨[1, 2, 0], 0⟩).2 (by decide)

/-- C14: the comparator does not read the constant term: if `a` and `a₂` have
the same dimension and coefficients, and `b` and `b₂` have the same dimension
and coefficients, then `compare (a, b) = compare (a₂, b₂)`, whatever the four
constant terms are. -/
theorem C14_lexico_ignores_constant (a a₂ b b₂ : Linear_Expression)
    (hda : ppl_Linear_Expression_space_dimension a = ppl_Linear_Expression_space_dimension a₂)
    (hca : ∀ i, ppl_Linear_Expression_coefficient a i = ppl_Linear_Expression_coefficient a₂ i)
    (hdb : ppl_Linear_Expression_space_dimension b = ppl_Linear_Expression_space_dimension b₂)
    (hcb : ∀ i, ppl_Linear_Expression_coefficient b i = ppl_Linear_Expression_coefficient b₂ i) :
    ppl_lexico_compare_linear_expressions a b = ppl_lexico_compare_linear_expressions a₂ b₂ := by
  unfold ppl_lexico_compare_linear_expressions
  simp only [hda, hdb, lexico_loop_congr a a₂ b b₂ hca hcb]

/-- Witness of C14: `x + 2 y + 7` against `x + 3 y - 4`, and the same
coefficients with the constants 0 and 100. -/
theorem C14_lexico_ignores_constant_witness :
    ppl_lexico_compare_linear_expressions ⟨[1, 2], 7⟩ ⟨[1, 3], -4⟩ =
      ppl_lexico_compare_linear_expressions ⟨[1, 2], 0⟩ ⟨[1, 3], 100⟩ :=
  C14_lexico_ignores_constant ⟨[1, 2], 7⟩ ⟨[1, 2], 0⟩ ⟨[1, 3], -4⟩ ⟨[1, 3], 100⟩
    rfl (fun _ => rfl) rfl (fun _ => rfl)

/-- C15 (code defect, the one of C2): the matrix of `2 x - y + 3 ≥ 0` and
`x + y - 4 = 0` is turned into a polyhedron and back into the matrix of
`2 x - y + 3 ≥ 0` and `x + y - 4 ≥ 0`, because the row with flag 0 is read as
`GREATER_OR_EQUAL`; the integer vector `(5, 5)` satisfies all rows of the
result and not the rows of the original. -/
theorem C15_round_trip_widens_equality_row :
    new_Cloog_Matrix_from_ppl_Polyhedron
        (new_NNC_Polyhedron_from_Cloog_Matrix
          (CloogMatrix.mk 2 4 [[1, 2, -1, 3], [0, 1, 1, -4]])) =
      some (CloogMatrix.mk 2 4 [[1, 2, -1, 3], [1, 1, 1, -4]]) ∧
    (∀ i, i < (CloogMatrix.mk 2 4 [[1, 2, -1, 3], [1, 1, 1, -4]]).NbRows →
      rowHolds ((CloogMatrix.mk 2 4 [[1, 2, -1, 3], [1, 1, 1, -4]]).row i) [(5 : Int), 5]) ∧
    ¬ (∀ i, i < (CloogMatrix.mk 2 4 [[1, 2, -1, 3], [0, 1, 1, -4]]).NbRows →
      rowHolds ((CloogMatrix.mk 2 4 [[1, 2, -1, 3], [0, 1, 1, -4]]).row i) [(5 : Int), 5]) := by
  refine ⟨by decide, by decide, by decide⟩

/-- C16: for a `LESS_THAN` constraint with coefficients `a[0..dim-1]` and
constant `k`, `insert_constraint_into_matrix` writes kind flag 1 (the flag is
not negated), column `i + 1 = -a[i]` for every `i < dim`, and last column
`-k - 1`. -/
theorem C16_less_than_row (m : CloogMatrix) (row : Nat) (cstr : Constraint)
    (hrow : row < m.p.length) (hlen : (m.row row).length = m.NbColumns)
    (hdim : ppl_Constraint_space_dimension cstr + 2 ≤ m.NbColumns)
    (hty : ppl_Constraint_type cstr = Constraint_Type.LESS_THAN) :
    ∃ m', insert_constraint_into_matrix m row cstr = some m' ∧
      m'.cell row 0 = 1 ∧
      (∀ i, i < ppl_Constraint_space_dimension cstr →
        m'.cell row (i + 1) = - ppl_Constraint_coefficient cstr i) ∧
      m'.cell row (m.NbColumns - 1) = - ppl_Constraint_inhomogeneous_term cstr - 1 := by
  unfold ppl_Constraint_space_dimension at hdim
  unfold ppl_Constraint_type at hty
  obtain ⟨m', hins, hc⟩ := insert_cells m row cstr hrow hlen hdim (by rw [hty]; simp)
  refine ⟨m', hins, ?_, ?_, ?_⟩
  · rw [hc 0 (by omega), rowEntry_flag, hty]; rfl
  · intro i hi
    unfold ppl_Constraint_space_dimension at hi
    rw [hc (i + 1) (by omega), rowEntry_coefficient _ _ _ hi, hty]
    simp [Constraint_Type.rowSign, ppl_Constraint_coefficient]
  · rw [hc _ (by omega), rowEntry_constant _ _ hdim, hty]
    simp [Constraint_Type.rowSign, Constraint_Type.rowAdjust, ppl_Constraint_inhomogeneous_term]

/-- Witness of C16: `x - 5 < 0` gives flag 1, coefficient `-1`, constant 4. -/
theorem C16_less_than_row_witness :
    (insert_constraint_into_matrix (cloog_matrix_alloc 1 3) 0
        ⟨⟨[1], -5⟩, Constraint_Type.LESS_THAN⟩).map (fun m => m.row 0) = some [1, -1, 4] ∧
    ∃ m', insert_constraint_into_matrix (cloog_matrix_alloc 1 3) 0
        ⟨⟨[1], -5⟩, Constraint_Type.LESS_THAN⟩ = some m' ∧
      m'.cell 0 0 = 1 ∧
      (∀ i, i < ppl_Constraint_space_dimension ⟨⟨[1], -5⟩, Constraint_Type.LESS_THAN⟩ →
        m'.cell 0 (i + 1) =
          - ppl_Constraint_coefficient ⟨⟨[1], -5⟩, Constraint_Type.LESS_THAN⟩ i) ∧
      m'.cell 0 ((cloog_matrix_alloc 1 3).NbColumns - 1) =
        - ppl_Constraint_inhomogeneous_term ⟨⟨[1], -5⟩, Constraint_Type.LESS_THAN⟩ - 1 :=
  ⟨by decide, C16_less_than_row (cloog_matrix_alloc 1 3) 0
    ⟨⟨[1], -5⟩, Constraint_Type.LESS_THAN⟩ (by decide) (by decide) (by decide) rfl⟩

/-- C17: for a `GREATER_THAN` constraint with coefficients `a[0..dim-1]` and
constant `k`, `insert_constraint_into_matrix` writes kind flag 1, column
`i + 1 = a[i]` for every `i < dim` (no negation), and last column `k - 1`. -/
theorem C17_greater_than_row (m : CloogMatrix) (row : Nat) (cstr : Constraint)
    (hrow : row < m.p.length) (hlen : (m.row row).length = m.NbColumns)
    (hdim : ppl_Constraint_space_dimension cstr + 2 ≤ m.NbColumns)
    (hty : ppl_Constraint_type cstr = Constraint_Type.GREATER_THAN) :
    ∃ m', insert_constraint_into_matrix m row cstr = some m' ∧
      m'.cell row 0 = 1 ∧
      (∀ i, i < ppl_Constraint_space_dimension cstr →
        m'.cell row (i + 1) = ppl_Constraint_coefficient cstr i) ∧
      m'.cell row (m.NbColumns - 1) = ppl_Constraint_inhomogeneous_term cstr - 1 := by
  unfold ppl_Constraint_space_dimension at hdim
  unfold ppl_Constraint_type at hty
  obtain ⟨m', hins, hc⟩ := insert_cells m row cstr hrow hlen hdim (by rw [hty]; simp)
  refine ⟨m', hins, ?_, ?_, ?_⟩
  · rw [hc 0 (by omega), rowEntry_flag, hty]; rfl
  · intro i hi
    unfold ppl_Constraint_space_dimension at hi
    rw [hc (i + 1) (by omega), rowEntry_coefficient _ _ _ hi, hty]
    simp [Constraint_Type.rowSign, ppl_Constraint_coefficient]
  · rw [hc _ (by omega), rowEntry_constant _ _ hdim, hty]
    simp [Constraint_Type.rowSign, Constraint_Type.rowAdjust, ppl_Constraint_inhomogeneous_term]

/-- Witness of C17: `x - 5 > 0` gives flag 1, coefficient 1, constant `-6`. -/
theorem C17_greater_than_row_witness :
    (insert_constraint_into_matrix (cloog_matrix_alloc 1 3) 0
        ⟨⟨[1], -5⟩, Constraint_Type.GREATER_THAN⟩).map (fun m => m.row 0) = some [1, 1, -6] ∧
    ∃ m', insert_constraint_into_matrix (cloog_matrix_alloc 1 3) 0
        ⟨⟨[1], -5⟩, Constraint_Type.GREATER_THAN⟩ = some m' ∧
      m'.cell 0 0 = 1 ∧
      (∀ i, i < ppl_Constraint_space_dimension ⟨⟨[1], -5⟩, Constraint_Type.GREATER_THAN⟩ →
        m'.cell 0 (i + 1) =
          ppl_Constraint_coefficient ⟨⟨[1], -5⟩, Constraint_Type.GREATER_THAN⟩ i) ∧
      m'.cell 0 ((cloog_matrix_alloc 1 3).NbColumns - 1) =
        ppl_Constraint_inhomogeneous_term ⟨⟨[1], -5⟩, Constraint_Type.GREATER_THAN⟩ - 1 :=
  ⟨by decide, C17_greater_than_row (cloog_matrix_alloc 1 3) 0
    ⟨⟨[1], -5⟩, Constraint_Type.GREATER_THAN⟩ (by decide) (by decide) (by decide) rfl⟩

/-- C18: for a `LESS_OR_EQUAL` constraint with coefficients `a[0..dim-1]` and
constant `k`, `insert_constraint_into_matrix` writes kind flag 1, column
`i + 1 = -a[i]` for every `i < dim`, and last column `-k`, the constant being
not adjusted by 1. -/
theorem C18_less_or_equal_row (m : CloogMatrix) (row : Nat) (cstr : Constraint)
    (hrow : row < m.p.length) (hlen : (m.row row).length = m.NbColumns)
    (hdim : ppl_Constraint_space_dimension cstr + 2 ≤ m.NbColumns)
    (hty : ppl_Constraint_type cstr = Constraint_Type.LESS_OR_EQUAL) :
    ∃ m', insert_constraint_into_matrix m row cstr = some m' ∧
      m'.cell row 0 = 1 ∧
      (∀ i, i < ppl_Constraint_space_dimension cstr →
        m'.cell row (i + 1) = - ppl_Constraint_coefficient cstr i) ∧
      m'.cell row (m.NbColumns - 1) = - ppl_Constraint_inhomogeneous_term cstr := by
  unfold ppl_Constraint_space_dimension at hdim
  unfold ppl_Constraint_type at hty
  obtain ⟨m', hins, hc⟩ := insert_cells m row cstr hrow hlen hdim (by rw [hty]; simp)
  refine ⟨m', hins, ?_, ?_, ?_⟩
  · rw [hc 0 (by omega), rowEntry_flag, hty]; rfl
  · intro i hi
    unfold ppl_Constraint_space_dimension at hi
    rw [hc (i + 1) (by omega), rowEntry_coefficient _ _ _ hi, hty]
    simp [Constraint_Type.rowSign, ppl_Constraint_coefficient]
  · rw [hc _ (by omega), rowEntry_constant _ _ hdim, hty]
    simp [Constraint_Type.rowSign, Constraint_Type.rowAdjust, ppl_Constraint_inhomogeneous_term]

/-- Witness of C18: `2 x - y + 3 ≤ 0` gives the row `[1, -2, 1, -3]`. -/
theorem C18_less_or_equal_row_witness :
    (insert_constraint_into_matrix (cloog_matrix_alloc 1 4) 0
        ⟨⟨[2, -1], 3⟩, Constraint_Type.LESS_OR_EQUAL⟩).map (fun m => m.row 0) =
      some [1, -2, 1, -3] ∧
    ∃ m', insert_constraint_into_matrix (cloog_matrix_alloc 1 4) 0
        ⟨⟨[2, -1], 3⟩, Constraint_Type.LESS_OR_EQUAL⟩ = some m' ∧
      m'.cell 0 0 = 1 ∧
      (∀ i, i < ppl_Constraint_space_dimension ⟨⟨[2, -1], 3⟩, Constraint_Type.LESS_OR_EQUAL⟩ →
        m'.cell 0 (i + 1) =
          - ppl_Constraint_coefficient ⟨⟨[2, -1], 3⟩, Constraint_Type.LESS_OR_EQUAL⟩ i) ∧
      m'.cell 0 ((cloog_matrix_alloc 1 4).NbColumns - 1) =
        - ppl_Constraint_inhomogeneous_term ⟨⟨[2, -1], 3⟩, Constraint_Type.LESS_OR_EQUAL⟩ :=
  ⟨by decide, C18_less_or_equal_row (cloog_matrix_alloc 1 4) 0
    ⟨⟨[2, -1], 3⟩, Constraint_Type.LESS_OR_EQUAL⟩ (by decide) (by decide) (by decide) rfl⟩

/-- C19: for a constraint of any of the five kinds, the row written by
`insert_constraint_into_matrix` has column 0 equal to 0 if the kind is `EQUAL`
and to 1 otherwise; for `EQUAL` and `GREATER_OR_EQUAL` the coefficients and the
constant are copied without any change of sign or value. -/
theorem C19_row_flag (m : CloogMatrix) (row : Nat) (cstr : Constraint)
    (hrow : row < m.p.length) (hlen : (m.row row).length = m.NbColumns)
    (hdim : ppl_Constraint_space_dimension cstr + 2 ≤ m.NbColumns)
    (hkind : ppl_Constraint_type cstr ≠ Constraint_Type.OTHER) :
    ∃ m', insert_constraint_into_matrix m row cstr = some m' ∧
      (ppl_Constraint_type cstr = Constraint_Type.EQUAL → m'.cell row 0 = 0) ∧
      (ppl_Constraint_type cstr ≠ Constraint_Type.EQUAL → m'.cell row 0 = 1) ∧
      (ppl_Constraint_type cstr = Constraint_Type.EQUAL ∨
        ppl_Constraint_type cstr = Constraint_Type.GREATER_OR_EQUAL →
        (∀ i, i < ppl_Constraint_space_dimension cstr →
          m'.cell row (i + 1) = ppl_Constraint_coefficient cstr i) ∧
        m'.cell row (m.NbColumns - 1) = ppl_Constraint_inhomogeneous_term cstr) := by
  unfold ppl_Constraint_space_dimension at hdim
  unfold ppl_Constraint_type at hkind
  obtain ⟨m', hins, hc⟩ := insert_cells m row cstr hrow hlen hdim hkind
  simp only [ppl_Constraint_type]
  refine ⟨m', hins, ?_, ?_, ?_⟩
  · intro hty
    rw [hc 0 (by omega), rowEntry_flag, hty]; rfl
  · intro hty
    rw [hc 0 (by omega), rowEntry_flag]
    cases h : cstr.type <;> first | rfl | exact absurd h hty
  · intro hty
    have hs : cstr.type.rowSign = 1 ∧ cstr.type.rowAdjust = 0 := by
      rcases hty with h | h <;> rw [h] <;> exact ⟨rfl, rfl⟩
    constructor
    · intro i hi
      unfold ppl_Constraint_space_dimension at hi
      rw [hc (i + 1) (by omega), rowEntry_coefficient _ _ _ hi, hs.1]
      simp [ppl_Constraint_coefficient]
    · rw [hc _ (by omega), rowEntry_constant _ _ hdim, hs.1, hs.2]
      simp [ppl_Constraint_inhomogeneous_term]

/-- Witness of C19: `2 x - y + 3 = 0` gives the row `[0, 2, -1, 3]`. -/
theorem C19_row_flag_witness :
    (insert_constraint_into_matrix (cloog_matrix_alloc 1 4) 0
        ⟨⟨[2, -1], 3⟩, Constraint_Type.EQUAL⟩).map (fun m => m.row 0) = some [0, 2, -1, 3] ∧
    ∃ m', insert_constraint_into_matrix (cloog_matrix_alloc 1 4) 0
        ⟨⟨[2, -1], 3⟩, Constraint_Type.EQUAL⟩ = some m' ∧
      (ppl_Constraint_type ⟨⟨[2, -1], 3⟩, Constraint_Type.EQUAL⟩ = Constraint_Type.EQUAL →
        m'.cell 0 0 = 0) ∧
      (ppl_Constraint_type ⟨⟨[2, -1], 3⟩, Constraint_Type.EQUAL⟩ ≠ Constraint_Type.EQUAL →
        m'.cell 0 0 = 1) ∧
      (ppl_Constraint_type ⟨⟨[2, -1], 3⟩, Constraint_Type.EQUAL⟩ = Constraint_Type.EQUAL ∨
        ppl_Constraint_type ⟨⟨[2, -1], 3⟩, Constraint_Type.EQUAL⟩ =
          Constraint_Type.GREATER_OR_EQUAL →
        (∀ i, i < ppl_Constraint_space_dimension ⟨⟨[2, -1], 3⟩, Constraint_Type.EQUAL⟩ →
          m'.cell 0 (i + 1) =
            ppl_Constraint_coefficient ⟨⟨[2, -1], 3⟩, Constraint_Type.EQUAL⟩ i) ∧
        m'.cell 0 ((cloog_matrix_alloc 1 4).NbColumns - 1) =
          ppl_Constraint_inhomogeneous_term ⟨⟨[2, -1], 3⟩, Constraint_Type.EQUAL⟩) :=
  ⟨by decide, C19_row_flag (cloog_matrix_alloc 1 4) 0 ⟨⟨[2, -1], 3⟩, Constraint_Type.EQUAL⟩
    (by decide) (by decide) (by decide) (by decide)⟩

/-- C20: for a matrix with at least 2 columns and every row index,
`cloog_matrix_to_ppl_constraint` returns a constraint over exactly
`columns - 2` dimensions whose coefficient of dimension `j - 1` is
`matrix[row][j]` for `1 ≤ j ≤ columns - 2` and whose constant term is
`matrix[row][columns - 1]`; the coefficients do not depend on the last column
and the expression does not depend on the flag column. -/
theorem C20_row_to_constraint_expression (m : CloogMatrix) (row : Nat)
    (hcols : 2 ≤ m.NbColumns) :
    ppl_Constraint_space_dimension (cloog_matrix_to_ppl_constraint m row) = m.NbColumns - 2 ∧
    (∀ j, 1 ≤ j → j ≤ m.NbColumns - 2 →
      ppl_Constraint_coefficient (cloog_matrix_to_ppl_constraint m row) (j - 1) =
        m.cell row j) ∧
    ppl_Constraint_inhomogeneous_term (cloog_matrix_to_ppl_constraint m row) =
      m.cell row (m.NbColumns - 1) ∧
    (∀ v, (cloog_matrix_to_ppl_constraint (m.setCell row (m.NbColumns - 1) v)
        row).expr.coefficients = (cloog_matrix_to_ppl_constraint m row).expr.coefficients) ∧
    (∀ v, (cloog_matrix_to_ppl_constraint (m.setCell row 0 v) row).expr =
      (cloog_matrix_to_ppl_constraint m row).expr) := by
  refine ⟨cloog_constraint_dimension m row, ?_, ?_, ?_, ?_⟩
  · intro j h1 h2
    rw [cloog_matrix_to_ppl_constraint_spec]
    have hj : j - 1 < m.NbColumns - 2 := by omega
    have hj2 : j - 1 + 1 = j := by omega
    simp [ppl_Constraint_coefficient, List.getD_eq_getElem?_getD, List.getElem?_map,
      List.getElem?_range hj, hj2]
  · rw [cloog_matrix_to_ppl_constraint_spec]
    rfl
  · intro v
    rw [cloog_matrix_to_ppl_constraint_spec, cloog_matrix_to_ppl_constraint_spec]
    have hnc : (m.setCell row (m.NbColumns - 1) v).NbColumns = m.NbColumns := rfl
    simp only [hnc]
    apply List.map_congr_left
    intro j hj
    rw [List.mem_range] at hj
    exact cell_setCell_of_ne m row _ _ v (by omega)
  · intro v
    rw [cloog_matrix_to_ppl_constraint_spec, cloog_matrix_to_ppl_constraint_spec]
    have hnc : (m.setCell row 0 v).NbColumns = m.NbColumns := rfl
    simp only [hnc, Linear_Expression.mk.injEq]
    constructor
    · apply List.map_congr_left
      intro j _
      exact cell_setCell_of_ne m row _ _ v (by omega)
    · exact cell_setCell_of_ne m row _ _ v (by omega)

/-- Witness of C20: the row `[1, 2, -1, 3]` gives `2 x - y + 3`. -/
theorem C20_row_to_constraint_expression_witness :
    (cloog_matrix_to_ppl_constraint (CloogMatrix.mk 1 4 [[1, 2, -1, 3]]) 0).expr =
      ⟨[2, -1], 3⟩ ∧
    ppl_Constraint_space_dimension
      (cloog_matrix_to_ppl_constraint (CloogMatrix.mk 1 4 [[1, 2, -1, 3]]) 0) = 4 - 2 :=
  ⟨by decide, (C20_row_to_constraint_expression (CloogMatrix.mk 1 4 [[1, 2, -1, 3]]) 0
    (by decide)).1⟩

/-- C21 (code defect, the one of C2): `cloog_matrix_to_ppl_constraint` returns
a constraint of kind `GREATER_OR_EQUAL` for every row, also when the value in
column 0 is 0: the test `matrix->p[row][0] == 0` is a test of an address that
is never null, and the `EQUAL` arm is never taken.  For the row `[0, 1, -5]`
the kind returned is `GREATER_OR_EQUAL`. -/
theorem C21_row_kind_is_never_equal :
    (∀ (m : CloogMatrix) (row : Nat),
      ppl_Constraint_type (cloog_matrix_to_ppl_constraint m row) =
        Constraint_Type.GREATER_OR_EQUAL) ∧
    (CloogMatrix.mk 1 3 [[0, 1, -5]]).cell 0 0 = 0 ∧
    ppl_Constraint_type (cloog_matrix_to_ppl_constraint (CloogMatrix.mk 1 3 [[0, 1, -5]]) 0) =
      Constraint_Type.GREATER_OR_EQUAL ∧
    ppl_Constraint_type (cloog_matrix_to_ppl_constraint (CloogMatrix.mk 1 3 [[0, 1, -5]]) 0) ≠
      Constraint_Type.EQUAL := by
  refine ⟨fun m row => ?_, by decide, by decide, by decide⟩
  unfold ppl_Constraint_type
  exact cloog_constraint_type m row

/-- C22: for a constraint over `dim` dimensions of one of the five kinds and a
target row of `nb_cols > dim + 2` columns, `insert_constraint_into_matrix`
leaves columns `dim+1 .. nb_cols-2` equal to 0 and puts in column `nb_cols-1`
the kind-adjusted constant, the value that the insertion into a row of exactly
`dim + 2` columns puts in its last column; columns `1 .. dim` are those of
that narrow row too. -/
theorem C22_insert_into_wider_row (m : CloogMatrix) (row : Nat) (cstr : Constraint)
    (hrow : row < m.p.length) (hlen : (m.row row).length = m.NbColumns)
    (hwide : ppl_Constraint_space_dimension cstr + 2 < m.NbColumns)
    (hkind : ppl_Constraint_type cstr ≠ Constraint_Type.OTHER) :
    ∃ m' n', insert_constraint_into_matrix m row cstr = some m' ∧
      insert_constraint_into_matrix
        (cloog_matrix_alloc 1 (ppl_Constraint_space_dimension cstr + 2)) 0 cstr = some n' ∧
      (∀ j, ppl_Constraint_space_dimension cstr + 1 ≤ j → j ≤ m.NbColumns - 2 →
        m'.cell row j = 0) ∧
      m'.cell row (m.NbColumns - 1) = n'.cell 0 (ppl_Constraint_space_dimension cstr + 1) ∧
      (∀ j, j ≤ ppl_Constraint_space_dimension cstr → m'.cell row j = n'.cell 0 j) := by
  unfold ppl_Constraint_space_dimension at *
  unfold ppl_Constraint_type at hkind
  obtain ⟨m', hins, hc⟩ := insert_cells m row cstr hrow hlen (by omega) hkind
  obtain ⟨n', hins₀, hc₀⟩ := insert_cells
    (cloog_matrix_alloc 1 (cstr.expr.coefficients.length + 2)) 0 cstr
    (by simp [cloog_matrix_alloc]) (by simp [cloog_matrix_alloc, CloogMatrix.row])
    (by simp [cloog_matrix_alloc]) hkind
  have hnc : (cloog_matrix_alloc 1 (cstr.expr.coefficients.length + 2)).NbColumns =
      cstr.expr.coefficients.length + 2 := rfl
  rw [hnc] at hc₀
  refine ⟨m', n', hins, hins₀, ?_, ?_, ?_⟩
  · intro j h1 h2
    rw [hc j (by omega), rowEntry_padding _ _ _ (by omega) (by omega)]
  · rw [hc _ (by omega), hc₀ _ (by omega), rowEntry_constant _ _ (by omega)]
    have := rowEntry_constant (cstr.expr.coefficients.length + 2) cstr (Nat.le_refl _)
    have h21 : cstr.expr.coefficients.length + 2 - 1 = cstr.expr.coefficients.length + 1 := by
      omega
    rw [h21] at this
    rw [this]
  · intro j hj
    rw [hc j (by omega), hc₀ j (by omega)]
    by_cases h0 : j = 0
    · subst h0; rw [rowEntry_flag, rowEntry_flag]
    · have hj1 : j - 1 + 1 = j := by omega
      rw [← hj1, rowEntry_coefficient _ _ _ (by omega), rowEntry_coefficient _ _ _ (by omega)]

/-- Witness of C22: `x - 5 > 0` written into a row of 5 columns gives
`[1, 1, 0, 0, -6]`. -/
theorem C22_insert_into_wider_row_witness :
    (insert_constraint_into_matrix (cloog_matrix_alloc 1 5) 0
        ⟨⟨[1], -5⟩, Constraint_Type.GREATER_THAN⟩).map (fun m => m.row 0) =
      some [1, 1, 0, 0, -6] ∧
    ∃ m' n', insert_constraint_into_matrix (cloog_matrix_alloc 1 5) 0
        ⟨⟨[1], -5⟩, Constraint_Type.GREATER_THAN⟩ = some m' ∧
      insert_constraint_into_matrix
        (cloog_matrix_alloc 1 (ppl_Constraint_space_dimension
          ⟨⟨[1], -5⟩, Constraint_Type.GREATER_THAN⟩ + 2)) 0
        ⟨⟨[1], -5⟩, Constraint_Type.GREATER_THAN⟩ = some n' ∧
      (∀ j, ppl_Constraint_space_dimension ⟨⟨[1], -5⟩, Constraint_Type.GREATER_THAN⟩ + 1 ≤ j →
        j ≤ (cloog_matrix_alloc 1 5).NbColumns - 2 → m'.cell 0 j = 0) ∧
      m'.cell 0 ((cloog_matrix_alloc 1 5).NbColumns - 1) =
        n'.cell 0 (ppl_Constraint_space_dimension ⟨⟨[1], -5⟩, Constraint_Type.GREATER_THAN⟩ + 1) ∧
      (∀ j, j ≤ ppl_Constraint_space_dimension ⟨⟨[1], -5⟩, Constraint_Type.GREATER_THAN⟩ →
        m'.cell 0 j = n'.cell 0 j) :=
  ⟨by decide, C22_insert_into_wider_row (cloog_matrix_alloc 1 5) 0
    ⟨⟨[1], -5⟩, Constraint_Type.GREATER_THAN⟩ (by decide) (by decide) (by decide) (by decide)⟩

/-- C23 (code defect, the one of C2): for the matrix of `2 x - y + 3 ≥ 0` and
`x + y - 4 = 0`, the polyhedron built by `new_NNC_Polyhedron_from_Cloog_Matrix`
has the constraints `2 x - y + 3 ≥ 0` and `x + y - 4 ≥ 0`: the point `(5, 5)`
belongs to it and does not satisfy the row with flag 0. -/
theorem C23_polyhedron_widens_equality_row :
    (new_NNC_Polyhedron_from_Cloog_Matrix
        (CloogMatrix.mk 2 4 [[1, 2, -1, 3], [0, 1, 1, -4]])).constraints =
      [⟨⟨[2, -1], 3⟩, Constraint_Type.GREATER_OR_EQUAL⟩,
       ⟨⟨[1, 1], -4⟩, Constraint_Type.GREATER_OR_EQUAL⟩] ∧
    (new_NNC_Polyhedron_from_Cloog_Matrix
        (CloogMatrix.mk 2 4 [[1, 2, -1, 3], [0, 1, 1, -4]])).contains [(5 : Int), 5] ∧
    (CloogMatrix.mk 2 4 [[1, 2, -1, 3], [0, 1, 1, -4]]).cell 1 0 = 0 ∧
    ¬ rowHolds ((CloogMatrix.mk 2 4 [[1, 2, -1, 3], [0, 1, 1, -4]]).row 1) [(5 : Int), 5] := by
  refine ⟨by decide, by decide, by decide, by decide⟩

/-- C24: for a polyhedron whose constraint system has `n` constraints (of the
five kinds) over `d` dimensions, `new_Cloog_Matrix_from_ppl_Polyhedron` returns
a matrix with exactly `n` rows and `d + 2` columns whose row `k` is, for every
`k < n`, the row that `insert_constraint_into_matrix` writes for the `k`-th
constraint of the system. -/
theorem C24_polyhedron_to_matrix_shape (ph : Polyhedron) (hwf : ph.wf)
    (hkind : ∀ c ∈ ph.constraints, ppl_Constraint_type c ≠ Constraint_Type.OTHER) :
    ∃ m', new_Cloog_Matrix_from_ppl_Polyhedron ph = some m' ∧
      m'.NbRows = ppl_Constrain_System_number_of_constraints (ppl_Polyhedron_get_constraints ph) ∧
      m'.NbColumns =
        ppl_Constraint_System_space_dimension (ppl_Polyhedron_get_constraints ph) + 2 ∧
      m'.p.length = m'.NbRows ∧
      ∀ (k : Nat) (c : Constraint),
        (ppl_Polyhedron_get_constraints ph).constraints[k]? = some c →
        ∃ n', insert_constraint_into_matrix (cloog_matrix_alloc 1 m'.NbColumns) 0 c = some n' ∧
          m'.row k = n'.row 0 := by
  unfold new_Cloog_Matrix_from_ppl_Polyhedron
  simp only []
  rw [new_Cloog_Matrix_from_ppl_Constraint_System_eq (ppl_Polyhedron_get_constraints ph)
    hkind hwf]
  refine ⟨_, rfl, ?_, rfl, ?_, ?_⟩
  · rw [number_of_constraints_eq]
  · simp
  · intro k c hk
    simp only [ppl_Polyhedron_get_constraints] at hk ⊢
    have hc : c ∈ ph.constraints := List.getElem?_mem hk
    have hins := insert_eq (cloog_matrix_alloc 1 (ph.space_dimension + 2)) 0 c
      (by simp [cloog_matrix_alloc]) (by simp [cloog_matrix_alloc, CloogMatrix.row])
      (Nat.add_le_add_right (hwf c hc) 2) (hkind c hc)
    refine ⟨_, hins, ?_⟩
    rw [CloogMatrix.row_withRow _ _ _ (by simp [cloog_matrix_alloc])]
    simp [CloogMatrix.row, List.getD_eq_getElem?_getD, List.getElem?_map, hk, cloog_matrix_alloc]

/-- Witness of C24: `x - 5 < 0`, `x + y - 5 > 0` and `7 ≤ 0` over 2 dimensions
give a matrix of 3 rows and 4 columns. -/
theorem C24_polyhedron_to_matrix_shape_witness :
    (new_Cloog_Matrix_from_ppl_Polyhedron
        (Polyhedron.mk 2 [⟨⟨[1], -5⟩, Constraint_Type.LESS_THAN⟩,
          ⟨⟨[1, 1], -5⟩, Constraint_Type.GREATER_THAN⟩,
          ⟨⟨[], 7⟩, Constraint_Type.LESS_OR_EQUAL⟩])).map (fun m => (m.NbRows, m.NbColumns, m.p)) =
      some (3, 4, [[1, -1, 0, 4], [1, 1, 1, -6], [1, 0, 0, -7]]) ∧
    ∃ m', new_Cloog_Matrix_from_ppl_Polyhedron
        (Polyhedron.mk 2 [⟨⟨[1], -5⟩, Constraint_Type.LESS_THAN⟩,
          ⟨⟨[1, 1], -5⟩, Constraint_Type.GREATER_THAN⟩,
          ⟨⟨[], 7⟩, Constraint_Type.LESS_OR_EQUAL⟩]) = some m' ∧
      m'.NbRows = ppl_Constrain_System_number_of_constraints (ppl_Polyhedron_get_constraints
        (Polyhedron.mk 2 [⟨⟨[1], -5⟩, Constraint_Type.LESS_THAN⟩,
          ⟨⟨[1, 1], -5⟩, Constraint_Type.GREATER_THAN⟩,
          ⟨⟨[], 7⟩, Constraint_Type.LESS_OR_EQUAL⟩])) ∧
      m'.NbColumns = ppl_Constraint_System_space_dimension (ppl_Polyhedron_get_constraints
        (Polyhedron.mk 2 [⟨⟨[1], -5⟩, Constraint_Type.LESS_THAN⟩,
          ⟨⟨[1, 1], -5⟩, Constraint_Type.GREATER_THAN⟩,
          ⟨⟨[], 7⟩, Constraint_Type.LESS_OR_EQUAL⟩])) + 2 ∧
      m'.p.length = m'.NbRows ∧
      ∀ (k : Nat) (c : Constraint),
        (ppl_Polyhedron_get_constraints
          (Polyhedron.mk 2 [⟨⟨[1], -5⟩, Constraint_Type.LESS_THAN⟩,
            ⟨⟨[1, 1], -5⟩, Constraint_Type.GREATER_THAN⟩,
            ⟨⟨[], 7⟩, Constraint_Type.LESS_OR_EQUAL⟩])).constraints[k]? = some c →
        ∃ n', insert_constraint_into_matrix (cloog_matrix_alloc 1 m'.NbColumns) 0 c = some n' ∧
          m'.row k = n'.row 0 :=
  ⟨by decide, C24_polyhedron_to_matrix_shape
    (Polyhedron.mk 2 [⟨⟨[1], -5⟩, Constraint_Type.LESS_THAN⟩,
      ⟨⟨[1, 1], -5⟩, Constraint_Type.GREATER_THAN⟩,
      ⟨⟨[], 7⟩, Constraint_Type.LESS_OR_EQUAL⟩]) (by decide) (by decide)⟩

/-- C25: for a polyhedron `P` of space dimension `dim`, `loop < dim` and every
stride, `ppl_strip_loop` returns a polyhedron of space dimension exactly
`dim + 1`.  Index `loop + 1` holds the original loop variable: deleting
coordinate `loop` of a point of the result gives a point of `P` whose
coordinate `loop` is the coordinate `loop + 1` of the point, and the copy of
each constraint of `P` has at index `loop + 1` the coefficient the constraint
has on `loop`.  Index `loop` is the new dimension, the tile index: the copy
has coefficient 0 there, and for every `int` stride but `INT_MIN` the
coordinate `loop` selects the window of the coordinate `loop + 1`. -/
theorem C25_strip_loop_dimension {R : Type} [LinearOrderedCommRing R] (P : Polyhedron)
    (loop : Nat) (stride : Int) (hwf : P.wf) (hloop : loop < P.space_dimension) :
    ppl_Polyhedron_space_dimension (ppl_strip_loop P loop stride) =
      ppl_Polyhedron_space_dimension P + 1 ∧
    (∀ x : List R, (ppl_strip_loop P loop stride).contains x →
      x.length = ppl_Polyhedron_space_dimension P + 1 ∧
      P.contains (deleteAt x loop) ∧
      (deleteAt x loop).getD loop 0 = x.getD (loop + 1) 0) ∧
    (∀ (k : Nat) (c : Constraint), P.constraints[k]? = some c →
      ∃ c', (ppl_strip_loop P loop stride).constraints[k]? = some c' ∧
        ppl_Constraint_coefficient c' loop = 0 ∧
        ppl_Constraint_coefficient c' (loop + 1) = ppl_Constraint_coefficient c loop) ∧
    (-2147483648 < stride → stride ≤ 2147483647 →
      ∀ x : List R, (ppl_strip_loop P loop stride).contains x →
        (stride : R) * x.getD loop 0 ≤ x.getD (loop + 1) 0 ∧
        x.getD (loop + 1) 0 ≤ (stride : R) * x.getD loop 0 + (stride : R) - 1) := by
  refine ⟨ppl_strip_loop_space_dimension P loop stride, ?_, ?_, ?_⟩
  · intro x hx
    rw [ppl_strip_loop_contains P loop stride x hwf hloop] at hx
    obtain ⟨hlen, hcs, _, _, _⟩ := hx
    refine ⟨hlen, ⟨?_, hcs⟩, getD_deleteAt x loop 0⟩
    simp only [deleteAt, List.length_append, List.length_take, List.length_drop]
    omega
  · intro k c hk
    have hc : c.expr.coefficients.length ≤ P.space_dimension := hwf c (List.getElem?_mem hk)
    have hkl : k < P.constraints.length := by
      by_contra hcon
      rw [List.getElem?_eq_none_iff.mpr (Nat.le_of_not_lt hcon)] at hk
      cases hk
    refine ⟨shift_constraint loop P.space_dimension c, ?_, ?_, ?_⟩
    · rw [ppl_strip_loop_eq P loop stride hwf hloop]
      simp only [List.append_assoc]
      rw [List.getElem?_append_left (by simp only [List.length_map]; exact hkl),
        List.getElem?_map, hk]
      rfl
    · simp only [ppl_Constraint_coefficient, shift_constraint]
      rw [shift_coefficients_getD loop P.space_dimension loop _ (by omega) (by omega)]
      simp only [lt_self_iff_false, if_false, if_true]
      rw [List.getD_eq_getElem?_getD, List.getElem?_eq_none_iff.mpr hc]; rfl
    · simp only [ppl_Constraint_coefficient, shift_constraint]
      have h1 : ¬ (loop + 1 < loop) := by omega
      have h2 : ¬ (loop + 1 = loop) := by omega
      rw [shift_coefficients_getD loop P.space_dimension (loop + 1) _ (by omega) (by omega),
        if_neg h1, if_neg h2, Nat.add_sub_cancel]
  · intro _ _ x hx
    rw [ppl_strip_loop_contains P loop stride x hwf hloop] at hx
    obtain ⟨_, _, _, hlow, hup⟩ := hx
    exact ⟨by linarith, by linarith⟩

/-- Witness of C25: the loop `0 ≤ i ≤ 9`, `stride = 4`, the point `(1, 5)`. -/
theorem C25_strip_loop_dimension_witness :
    ppl_Polyhedron_space_dimension (ppl_strip_loop loop_0_9 0 4) = 2 ∧
    (ppl_strip_loop loop_0_9 0 4).contains [(1 : Int), 5] ∧
    loop_0_9.contains (deleteAt [(1 : Int), 5] 0) ∧
    ((4 : Int) * ([(1 : Int), 5]).getD 0 0 ≤ ([(1 : Int), 5]).getD (0 + 1) 0 ∧
      ([(1 : Int), 5]).getD (0 + 1) 0 ≤ (4 : Int) * ([(1 : Int), 5]).getD 0 0 + (4 : Int) - 1) :=
  ⟨(C25_strip_loop_dimension (R := Int) loop_0_9 0 4 (by decide) (by decide)).1,
   by decide,
   ((C25_strip_loop_dimension loop_0_9 0 4 (by decide) (by decide)).2.1 [(1 : Int), 5]
     (by decide)).2.1,
   (C25_strip_loop_dimension loop_0_9 0 4 (by decide) (by decide)).2.2.2 (by decide)
     (by decide) [(1 : Int), 5] (by decide)⟩

/-- C26 (code defect): the selection of `ppl_strip_loop` tests the coefficient
after `v = value_get_si (val)` has narrowed it to a machine `int`, so a nonzero
coefficient that is a multiple of `2^32` reads as 0.  For the 1-dimensional
polyhedron `4294967296 i ≥ 0` (and for `18446744073709551616 i ≥ 0`), `loop = 0`
and `stride = 4`, the constraint is not selected: the result holds the shifted
constraint and the two bounds of the window only, whereas for `i ≥ 0` the
constraint is selected and put on the new dimension as well. -/
theorem C26_strip_selection_narrows_coefficient :
    value_get_si 4294967296 = 0 ∧ value_get_si 18446744073709551616 = 0 ∧
    strip_selected 0 ⟨⟨[4294967296], 0⟩, Constraint_Type.GREATER_OR_EQUAL⟩ = false ∧
    strip_selected 0 ⟨⟨[18446744073709551616], 0⟩, Constraint_Type.GREATER_OR_EQUAL⟩ = false ∧
    ppl_strip_loop
        { space_dimension := 1,
          constraints := [⟨⟨[4294967296], 0⟩, Constraint_Type.GREATER_OR_EQUAL⟩] } 0 4 =
      { space_dimension := 2,
        constraints := [⟨⟨[0, 4294967296], 0⟩, Constraint_Type.GREATER_OR_EQUAL⟩,
                        ⟨⟨[-4, 1], 0⟩, Constraint_Type.GREATER_OR_EQUAL⟩,
                        ⟨⟨[4, -1], 3⟩, Constraint_Type.GREATER_OR_EQUAL⟩] } ∧
    ppl_strip_loop
        { space_dimension := 1,
          constraints := [⟨⟨[18446744073709551616], 0⟩, Constraint_Type.GREATER_OR_EQUAL⟩] }
        0 4 =
      { space_dimension := 2,
        constraints := [⟨⟨[0, 18446744073709551616], 0⟩, Constraint_Type.GREATER_OR_EQUAL⟩,
                        ⟨⟨[-4, 1], 0⟩, Constraint_Type.GREATER_OR_EQUAL⟩,
                        ⟨⟨[4, -1], 3⟩, Constraint_Type.GREATER_OR_EQUAL⟩] } ∧
    ppl_strip_loop
        { space_dimension := 1,
          constraints := [⟨⟨[1], 0⟩, Constraint_Type.GREATER_OR_EQUAL⟩] } 0 4 =
      { space_dimension := 2,
        constraints := [⟨⟨[0, 1], 0⟩, Constraint_Type.GREATER_OR_EQUAL⟩,
                        ⟨⟨[1, 0], 0⟩, Constraint_Type.GREATER_OR_EQUAL⟩,
                        ⟨⟨[-4, 1], 0⟩, Constraint_Type.GREATER_OR_EQUAL⟩,
                        ⟨⟨[4, -1], 3⟩, Constraint_Type.GREATER_OR_EQUAL⟩] } := by
  refine ⟨by decide, by decide, by decide, by decide, by decide, by decide, by decide⟩

/-- Counterexample to C27 as stated: for the loop `0 ≤ i ≤ 9` (dimension 1) and
`loop = 0`, `ppl_strip_loop` called with `stride = 0` and with `stride = -4`
returns a transformed polyhedron of dimension 2, built as for a positive
stride. -/
theorem C27_counterexample :
    loop_0_9.wf ∧ loop_0_9.space_dimension = 1 ∧
    ppl_strip_loop loop_0_9 0 0 =
      { space_dimension := 2,
        constraints := [⟨⟨[0, 1], 0⟩, Constraint_Type.GREATER_OR_EQUAL⟩,
                        ⟨⟨[0, -1], 9⟩, Constraint_Type.GREATER_OR_EQUAL⟩,
                        ⟨⟨[1, 0], 0⟩, Constraint_Type.GREATER_OR_EQUAL⟩,
                        ⟨⟨[-1, 0], 9⟩, Constraint_Type.GREATER_OR_EQUAL⟩,
                        ⟨⟨[0, 1], 0⟩, Constraint_Type.GREATER_OR_EQUAL⟩,
                        ⟨⟨[0, -1], -1⟩, Constraint_Type.GREATER_OR_EQUAL⟩] } ∧
    ppl_strip_loop loop_0_9 0 (-4) =
      { space_dimension := 2,
        constraints := [⟨⟨[0, 1], 0⟩, Constraint_Type.GREATER_OR_EQUAL⟩,
                        ⟨⟨[0, -1], 9⟩, Constraint_Type.GREATER_OR_EQUAL⟩,
                        ⟨⟨[1, 0], 0⟩, Constraint_Type.GREATER_OR_EQUAL⟩,
                        ⟨⟨[-1, 0], 9⟩, Constraint_Type.GREATER_OR_EQUAL⟩,
                        ⟨⟨[4, 1], 0⟩, Constraint_Type.GREATER_OR_EQUAL⟩,
                        ⟨⟨[-4, -1], -5⟩, Constraint_Type.GREATER_OR_EQUAL⟩] } := by
  refine ⟨by decide, by decide, by decide, by decide⟩

/-- C27 (amended): `ppl_strip_loop` does not check its parameters and has no
error result.  For a polyhedron `P` of dimension `dim`, `loop < dim` and
`stride ≤ 0` it returns a transformed polyhedron of dimension `dim + 1`: the
constraints of `P` moved above `loop`, the selected constraints moved above
`loop + 1`, and two bound constraints, which for every stride but `INT_MIN`
are, as for a positive stride, `x[loop+1] - stride * x[loop] ≥ 0` and
`- x[loop+1] + stride * x[loop] + stride - 1 ≥ 0`. -/
theorem C27_strip_loop_nonpositive_stride (P : Polyhedron) (loop : Nat) (stride : Int)
    (hwf : P.wf) (hloop : loop < P.space_dimension) (hstride : stride ≤ 0) :
    (ppl_strip_loop P loop stride).space_dimension = P.space_dimension + 1 ∧
    ∃ lower upper : Constraint,
      (ppl_strip_loop P loop stride).constraints =
        P.constraints.map (shift_constraint loop P.space_dimension) ++
        (P.constraints.filter (strip_selected loop)).map
          (shift_constraint (loop + 1) P.space_dimension) ++
        [lower] ++ [upper] ∧
      (-2147483648 < stride →
        lower = strip_lower P.space_dimension loop stride ∧
        upper = strip_upper P.space_dimension loop stride) := by
  have _ := hstride
  refine ⟨ppl_strip_loop_space_dimension P loop stride,
    strip_lower P.space_dimension loop stride, strip_upper P.space_dimension loop stride,
    ?_, fun _ => ⟨rfl, rfl⟩⟩
  rw [ppl_strip_loop_eq P loop stride hwf hloop]

/-- Witness of C27 (amended): the loop `0 ≤ i ≤ 9` with `stride = -4`; the
polyhedron returned has dimension 2. -/
theorem C27_strip_loop_nonpositive_stride_witness :
    loop_0_9.wf ∧ 0 < loop_0_9.space_dimension ∧ (-4 : Int) ≤ 0 ∧
    (ppl_strip_loop loop_0_9 0 (-4)).space_dimension = loop_0_9.space_dimension + 1 :=
  ⟨by decide, by decide, by decide,
    (C27_strip_loop_nonpositive_stride loop_0_9 0 (-4) (by decide) (by decide) (by decide)).1⟩

/-- C28: `insert_constraint_into_matrix` reaches its failure branch
(`gcc_unreachable`) if and only if the kind of the constraint is none of
`EQUAL`, `LESS_THAN`, `LESS_OR_EQUAL`, `GREATER_THAN`, `GREATER_OR_EQUAL`; for
each of the five kinds it completes and produces a matrix. -/
theorem C28_insert_fails_only_on_other_kind (m : CloogMatrix) (row : Nat) (cstr : Constraint) :
    (insert_constraint_into_matrix m row cstr = none ↔
      (ppl_Constraint_type cstr ≠ Constraint_Type.EQUAL ∧
       ppl_Constraint_type cstr ≠ Constraint_Type.LESS_THAN ∧
       ppl_Constraint_type cstr ≠ Constraint_Type.LESS_OR_EQUAL ∧
       ppl_Constraint_type cstr ≠ Constraint_Type.GREATER_THAN ∧
       ppl_Constraint_type cstr ≠ Constraint_Type.GREATER_OR_EQUAL)) ∧
    ((ppl_Constraint_type cstr = Constraint_Type.EQUAL ∨
      ppl_Constraint_type cstr = Constraint_Type.LESS_THAN ∨
      ppl_Constraint_type cstr = Constraint_Type.LESS_OR_EQUAL ∨
      ppl_Constraint_type cstr = Constraint_Type.GREATER_THAN ∨
      ppl_Constraint_type cstr = Constraint_Type.GREATER_OR_EQUAL) →
      ∃ m', insert_constraint_into_matrix m row cstr = some m' ∧
        m'.NbRows = m.NbRows ∧ m'.NbColumns = m.NbColumns) := by
  have hp := insert_prefix_dims m row cstr
  rcases cstr with ⟨e, ty⟩
  cases ty
  case OTHER => simp [insert_constraint_into_matrix, ppl_Constraint_type]
  all_goals
    refine ⟨by simp [insert_constraint_into_matrix, ppl_Constraint_type], fun _ => ?_⟩
    simp only [insert_constraint_into_matrix, ppl_Constraint_type]
    refine ⟨_, rfl, ?_, ?_⟩
    · first
      | exact hp.1
      | exact (setCell_NbRows _ _ _ _).trans hp.1
      | exact (oppose_constraint_NbRows _ _).trans hp.1
    · first
      | exact hp.2
      | exact (setCell_NbColumns _ _ _ _).trans hp.2
      | exact (oppose_constraint_NbColumns _ _).trans hp.2

/-- Witness of C28: an `EQUAL` constraint is written, a constraint of another
kind reaches the failure branch. -/
theorem C28_insert_fails_only_on_other_kind_witness :
    insert_constraint_into_matrix (cloog_matrix_alloc 1 3) 0
      ⟨⟨[1], -5⟩, Constraint_Type.OTHER⟩ = none ∧
    ∃ m', insert_constraint_into_matrix (cloog_matrix_alloc 1 3) 0
        ⟨⟨[1], -5⟩, Constraint_Type.EQUAL⟩ = some m' ∧
      m'.NbRows = (cloog_matrix_alloc 1 3).NbRows ∧
      m'.NbColumns = (cloog_matrix_alloc 1 3).NbColumns :=
  ⟨(C28_insert_fails_only_on_other_kind (cloog_matrix_alloc 1 3) 0
      ⟨⟨[1], -5⟩, Constraint_Type.OTHER⟩).1.mpr (by decide),
   (C28_insert_fails_only_on_other_kind (cloog_matrix_alloc 1 3) 0
      ⟨⟨[1], -5⟩, Constraint_Type.EQUAL⟩).2 (by decide)⟩

end GraphitePPL

namespace NDS32

/-! ## Option handling of the NDS32 target -/

theorem exact_log2_pow (bits k : Nat) (hk : k < bits) : exact_log2 bits (2 ^ k) = (k : Int) := by
  unfold exact_log2
  rw [GraphitePPL.find?_eq_some_of_unique (fun j => decide (2 ^ j = 2 ^ k)) k (List.range bits)
    (List.mem_range.mpr hk) (by simp)
    (fun a _ ha => Nat.pow_right_injective (le_refl 2) (by simpa using ha))]

theorem exact_log2_of_nonneg (bits x : Nat) (h : 0 ≤ exact_log2 bits x) :
    ∃ k, k < bits ∧ x = 2 ^ k ∧ exact_log2 bits x = (k : Int) := by
  unfold exact_log2 at h ⊢
  cases hf : (List.range bits).find? (fun k => decide (2 ^ k = x)) with
  | none => rw [hf] at h; simp at h
  | some k =>
    have hp := List.find?_some hf
    have hm := List.mem_of_find?_eq_some hf
    exact ⟨k, List.mem_range.mp hm, (show 2 ^ k = x by simpa using hp).symm, rfl⟩

theorem exact_log2_of_not_pow (bits x : Nat) (h : ∀ k, k < bits → x ≠ 2 ^ k) :
    exact_log2 bits x = -1 := by
  by_contra hne
  have h0 : 0 ≤ exact_log2 bits x := by
    unfold exact_log2 at hne ⊢
    cases hf : (List.range bits).find? (fun k => decide (2 ^ k = x)) with
    | none => rw [hf] at hne; exact absurd rfl hne
    | some k => exact Int.ofNat_nonneg k
  obtain ⟨k, hk, hx, _⟩ := exact_log2_of_nonneg bits x h0
  exact h k hk hx

theorem two_pow_bits_ge (bits : Nat) (hbits : 32 ≤ bits) : (4294967296 : Int) ≤ 2 ^ bits := by
  have h : (2 : Int) ^ 32 ≤ 2 ^ bits := pow_le_pow_right₀ (by norm_num) hbits
  simpa using h

theorem to_unsigned_of_nonneg (bits : Nat) (value : Int) (hbits : 32 ≤ bits) (h0 : 0 ≤ value)
    (hhi : value ≤ 2147483647) : to_unsigned_HOST_WIDE_INT bits value = value.toNat := by
  have hB := two_pow_bits_ge bits hbits
  unfold to_unsigned_HOST_WIDE_INT
  rw [Int.emod_eq_of_lt h0 (by omega)]

theorem to_unsigned_of_neg (bits : Nat) (value : Int) (hbits : 32 ≤ bits)
    (hlo : -2147483648 ≤ value) (hneg : value < 0) :
    2147483648 ≤ to_unsigned_HOST_WIDE_INT bits value := by
  have hB := two_pow_bits_ge bits hbits
  unfold to_unsigned_HOST_WIDE_INT
  have h1 : value % 2 ^ bits = value + 2 ^ bits := by
    rw [← Int.add_mul_emod_self_left value (2 ^ bits) 1, mul_one]
    exact Int.emod_eq_of_lt (by omega) (by omega)
  rw [h1]
  omega

theorem exact_log2_small (bits k : Nat) (hbits : 32 ≤ bits) (hk : k ≤ 9) :
    exact_log2 bits (to_unsigned_HOST_WIDE_INT bits ((2 ^ k : Nat) : Int)) = (k : Int) := by
  have h512 : 2 ^ k ≤ 2 ^ 9 := Nat.pow_le_pow_right (by norm_num) hk
  rw [to_unsigned_of_nonneg bits _ hbits (Int.ofNat_nonneg _) (by omega), Int.toNat_natCast]
  exact exact_log2_pow bits k (by omega)

theorem cache_block_size_log (bits : Nat) (value : Int) (hbits : 32 ≤ bits)
    (hlo : -2147483648 ≤ value) (hhi : value ≤ 2147483647) :
    (2 ≤ exact_log2 bits (to_unsigned_HOST_WIDE_INT bits value) ∧
      exact_log2 bits (to_unsigned_HOST_WIDE_INT bits value) ≤ 9) ↔
    (value = 4 ∨ value = 8 ∨ value = 16 ∨ value = 32 ∨ value = 64 ∨ value = 128 ∨
      value = 256 ∨ value = 512) := by
  constructor
  · rintro ⟨h2, h9⟩
    obtain ⟨k, _, hx, hk⟩ :=
      exact_log2_of_nonneg bits (to_unsigned_HOST_WIDE_INT bits value) (by omega)
    rw [hk] at h2 h9
    have hk2 : 2 ≤ k := by exact_mod_cast h2
    have hk9 : k ≤ 9 := by exact_mod_cast h9
    by_cases hneg : value < 0
    · have hbig := to_unsigned_of_neg bits value hbits hlo hneg
      rw [hx] at hbig
      have h512 : 2 ^ k ≤ 2 ^ 9 := Nat.pow_le_pow_right (by norm_num) hk9
      omega
    · rw [to_unsigned_of_nonneg bits value hbits (by omega) hhi] at hx
      interval_cases k <;> omega
  · intro h
    have e2 := exact_log2_small bits 2 hbits (by omega)
    have e3 := exact_log2_small bits 3 hbits (by omega)
    have e4 := exact_log2_small bits 4 hbits (by omega)
    have e5 := exact_log2_small bits 5 hbits (by omega)
    have e6 := exact_log2_small bits 6 hbits (by omega)
    have e7 := exact_log2_small bits 7 hbits (by omega)
    have e8 := exact_log2_small bits 8 hbits (by omega)
    have e9 := exact_log2_small bits 9 hbits (by omega)
    norm_num at e2 e3 e4 e5 e6 e7 e8 e9
    rcases h with h | h | h | h | h | h | h | h <;> subst h
    · rw [e2]; omega
    · rw [e3]; omega
    · rw [e4]; omega
    · rw [e5]; omega
    · rw [e6]; omega
    · rw [e7]; omega
    · rw [e8]; omega
    · rw [e9]; omega

/-! ## Claims on the NDS32 option handling -/

/-- C29: for the option `-mcache-block-size=X` and every `int` value `X`,
`nds32_handle_option` returns true if and only if `X` is one of 4, 8, 16, 32,
64, 128, 256, 512, and returns false for every other `X`; here `exact_log2`
returns the base-2 logarithm of a power of two and -1 for any other value.
`bits` is the width of `HOST_WIDE_INT`, at least 32. -/
theorem C29_cache_block_size_values (bits : Nat) (value : Int) (hbits : 32 ≤ bits)
    (hlo : -2147483648 ≤ value) (hhi : value ≤ 2147483647) :
    ((nds32_handle_option bits ⟨opt_code.OPT_mcache_block_size_, value⟩).1 = true ↔
      (value = 4 ∨ value = 8 ∨ value = 16 ∨ value = 32 ∨ value = 64 ∨ value = 128 ∨
        value = 256 ∨ value = 512)) ∧
    ((nds32_handle_option bits ⟨opt_code.OPT_mcache_block_size_, value⟩).1 = false ↔
      ¬ (value = 4 ∨ value = 8 ∨ value = 16 ∨ value = 32 ∨ value = 64 ∨ value = 128 ∨
        value = 256 ∨ value = 512)) ∧
    (∀ k : Nat, k < bits → exact_log2 bits (2 ^ k) = (k : Int)) ∧
    (∀ x : Nat, (∀ k : Nat, k < bits → x ≠ 2 ^ k) → exact_log2 bits x = -1) := by
  have hlog := cache_block_size_log bits value hbits hlo hhi
  have hret : (nds32_handle_option bits ⟨opt_code.OPT_mcache_block_size_, value⟩).1 = true ↔
      (2 ≤ exact_log2 bits (to_unsigned_HOST_WIDE_INT bits value) ∧
        exact_log2 bits (to_unsigned_HOST_WIDE_INT bits value) ≤ 9) := by
    simp only [nds32_handle_option]
    split
    · rename_i h
      simp only [Bool.false_eq_true, false_iff]
      omega
    · rename_i h
      simp only [true_iff]
      omega
  refine ⟨hret.trans hlog, ?_, fun k hk => exact_log2_pow bits k hk,
    fun x hx => exact_log2_of_not_pow bits x hx⟩
  rw [← hlog, ← hret]
  simp

/-- Witness of C29: with a `HOST_WIDE_INT` of 64 bits, `-mcache-block-size=64`
is accepted and `-mcache-block-size=48` is not. -/
theorem C29_cache_block_size_values_witness :
    (nds32_handle_option 64 ⟨opt_code.OPT_mcache_block_size_, 64⟩).1 = true ∧
    (nds32_handle_option 64 ⟨opt_code.OPT_mcache_block_size_, 48⟩).1 = false ∧
    exact_log2 64 (2 ^ 6) = 6 :=
  ⟨(C29_cache_block_size_values 64 64 (by decide) (by decide) (by decide)).1.mpr (by decide),
   (C29_cache_block_size_values 64 48 (by decide) (by decide) (by decide)).2.1.mpr (by decide),
   (C29_cache_block_size_values 64 64 (by decide) (by decide) (by decide)).2.2.1 6 (by decide)⟩

/-- C30: for the option `-misr-vector-size=X` and every value `X`,
`nds32_handle_option` returns true if and only if `X` is 4 or 16; and for every
option code other than `-misr-vector-size` and `-mcache-block-size` it returns
true whatever the value. -/
theorem C30_isr_vector_size_and_other_options (bits : Nat) (value : Int) :
    ((nds32_handle_option bits ⟨opt_code.OPT_misr_vector_size_, value⟩).1 = true ↔
      (value = 4 ∨ value = 16)) ∧
    (∀ decoded : cl_decoded_option,
      decoded.opt_index ≠ opt_code.OPT_misr_vector_size_ →
      decoded.opt_index ≠ opt_code.OPT_mcache_block_size_ →
      (nds32_handle_option bits decoded).1 = true) := by
  constructor
  · simp only [nds32_handle_option]
    split
    · rename_i h
      simp only [Bool.false_eq_true, false_iff]
      omega
    · rename_i h
      simp only [true_iff]
      omega
  · rintro ⟨code, v⟩ h1 h2
    cases code with
    | OPT_misr_vector_size_ => exact absurd rfl h1
    | OPT_mcache_block_size_ => exact absurd rfl h2
    | OPT_other index => rfl

/-- Witness of C30: `-misr-vector-size=16` is accepted, and so is the option of
code 7 with the value 5. -/
theorem C30_isr_vector_size_and_other_options_witness :
    (nds32_handle_option 64 ⟨opt_code.OPT_misr_vector_size_, 16⟩).1 = true ∧
    (nds32_handle_option 64 ⟨opt_code.OPT_other 7, 5⟩).1 = true :=
  ⟨(C30_isr_vector_size_and_other_options 64 16).1.mpr (by decide),
   (C30_isr_vector_size_and_other_options 64 16).2 ⟨opt_code.OPT_other 7, 5⟩
     (by decide) (by decide)⟩

end NDS32

namespace GraphitePPL

/-! ## Lemmas on the dimension map -/

theorem foldl_append_singleton (l : List Nat) :
    ∀ w : List Nat, l.foldl (fun acc i => acc ++ [i]) w = w ++ l := by
  induction l with
  | nil => intro w; simp
  | cons a t ih => intro w; simp [ih]

theorem shift_map_writes_eq (x dim : Nat) (hx : x ≤ dim) :
    shift_map_writes x dim = List.range (dim + 1) := by
  unfold shift_map_writes forLoop
  simp only [foldl_append_singleton, List.nil_append, Nat.sub_zero]
  have h1 := List.range'_append_1 0 x (dim - x)
  rw [Nat.zero_add, Nat.sub_add_cancel hx] at h1
  rw [List.range_eq_range', List.range'_1_concat, Nat.zero_add, h1]

theorem shift_map_length (x dim : Nat) : (shift_map x dim).length = dim + 1 := by
  have hL1 := foldl_set_length 0 (fun k _ => k) 0 (x - 0) 0 (List.replicate (dim + 1) 0)
  have hL2 := foldl_set_length 0 (fun k _ => k + 1) 0 (dim - x) x
    ((List.range' 0 (x - 0)).foldl (fun acc k => acc.set (k + 0) ((fun k _ => k) k
      (acc.getD (k + 0) 0))) (List.replicate (dim + 1) 0))
  unfold shift_map forLoop
  rw [List.length_set]
  exact (hL2.trans hL1).trans (List.length_replicate _ _)

/-! ## Lemmas on rows written and read back -/

theorem CloogMatrix.row_withRow_of_ne (m : CloogMatrix) (row r : Nat) (l : List Int)
    (h : r ≠ row) : (m.withRow row l).row r = m.row r := by
  simp only [CloogMatrix.withRow, CloogMatrix.row, List.getD_eq_getElem?_getD]
  rw [List.getElem?_set_ne (fun e => h e.symm)]

theorem getD_map_range (f : Nat → Int) (n j : Nat) (hj : j < n) :
    ((List.range n).map f).getD j 0 = f j := by
  simp [List.getD_eq_getElem?_getD, List.getElem?_map, List.getElem?_range hj]

/-- The constraint read back from the row written for `c` in a matrix of
`nb_cols` columns. -/
theorem read_back (m : CloogMatrix) (row : Nat) (c : Constraint)
    (hrow : row < m.p.length) (hdim : c.expr.coefficients.length + 2 ≤ m.NbColumns) :
    cloog_matrix_to_ppl_constraint (m.withRow row (constraint_row m.NbColumns c)) row =
      { expr := { coefficients := (List.range (m.NbColumns - 2)).map
                    (fun j => rowEntry m.NbColumns c (j + 1)),
                  inhomogeneous := c.type.rowSign * c.expr.inhomogeneous - c.type.rowAdjust },
        type := Constraint_Type.GREATER_OR_EQUAL } := by
  rw [cloog_matrix_to_ppl_constraint_spec]
  have hnb : (m.withRow row (constraint_row m.NbColumns c)).NbColumns = m.NbColumns := rfl
  have hcell : ∀ k, k < m.NbColumns →
      (m.withRow row (constraint_row m.NbColumns c)).cell row k = rowEntry m.NbColumns c k := by
    intro k hk
    rw [CloogMatrix.cell_withRow m row _ k hrow, getD_constraint_row _ _ _ hk]
  rw [hnb, hcell (m.NbColumns - 1) (by omega), rowEntry_constant _ _ hdim]
  have hco : (List.range (m.NbColumns - 2)).map
      (fun j => (m.withRow row (constraint_row m.NbColumns c)).cell row (j + 1)) =
      (List.range (m.NbColumns - 2)).map (fun j => rowEntry m.NbColumns c (j + 1)) := by
    apply List.map_congr_left
    intro j hj
    exact hcell (j + 1) (by have := List.mem_range.mp hj; omega)
  rw [hco]

/-! ## Lemmas on the points of a polyhedron written and read back -/

theorem getD_map_mul (s : Int) (a : List Int) (j : Nat) :
    (a.map (fun c => s * c)).getD j 0 = s * a.getD j 0 := by
  simp only [List.getD_eq_getElem?_getD, List.getElem?_map]
  cases a[j]? <;> simp

theorem read_back_coefficients (nb_cols : Nat) (c : Constraint)
    (hdim : c.expr.coefficients.length + 2 ≤ nb_cols) :
    (List.range (nb_cols - 2)).map (fun j => rowEntry nb_cols c (j + 1)) =
      c.expr.coefficients.map (fun a => c.type.rowSign * a) ++
        List.replicate (nb_cols - 2 - c.expr.coefficients.length) 0 := by
  apply list_eq_of_getD
  · simp only [List.length_map, List.length_range, List.length_append, List.length_replicate]
    omega
  · intro j hj
    simp only [List.length_map, List.length_range] at hj
    rw [getD_map_range _ _ _ hj, getD_pad, getD_map_mul]
    by_cases hjl : j < c.expr.coefficients.length
    · rw [rowEntry_coefficient _ _ _ hjl]
    · rw [rowEntry_padding _ _ _ (by omega) (by omega),
        List.getD_eq_default _ _ (by omega), mul_zero]

theorem read_back_eval {R : Type} [LinearOrderedCommRing R] (m : CloogMatrix) (row : Nat)
    (c : Constraint) (x : List R) (hrow : row < m.p.length)
    (hdim : c.expr.coefficients.length + 2 ≤ m.NbColumns) :
    (cloog_matrix_to_ppl_constraint (m.withRow row (constraint_row m.NbColumns c)) row).expr.eval
        x = (c.type.rowSign : R) * c.expr.eval x - (c.type.rowAdjust : R) := by
  rw [read_back m row c hrow hdim]
  unfold Linear_Expression.eval
  simp only []
  rw [read_back_coefficients _ _ hdim, dot_pad, dot_map_mul]
  push_cast
  ring

theorem read_back_holds (m : CloogMatrix) (row : Nat) (c : Constraint) (x : List Int)
    (hrow : row < m.p.length) (hdim : c.expr.coefficients.length + 2 ≤ m.NbColumns)
    (hkind : c.type ≠ Constraint_Type.OTHER) (hineq : c.type ≠ Constraint_Type.EQUAL) :
    (cloog_matrix_to_ppl_constraint (m.withRow row (constraint_row m.NbColumns c)) row).holds x ↔
      c.holds x := by
  have hev := read_back_eval m row c x hrow hdim
  have hty : (cloog_matrix_to_ppl_constraint
      (m.withRow row (constraint_row m.NbColumns c)) row).type =
      Constraint_Type.GREATER_OR_EQUAL := by
    rw [read_back m row c hrow hdim]
  unfold Constraint.holds
  rw [hev, hty]
  generalize c.expr.eval x = v
  cases hc : c.type <;>
    simp only [Constraint_Type.rowSign, Constraint_Type.rowAdjust, Int.cast_id, if_true,
      reduceCtorEq, if_false] <;>
    first
    | exact absurd hc hkind
    | exact absurd hc hineq
    | (constructor <;> intro h <;> omega)

theorem round_trip_row (cs : List Constraint) (d i : Nat) (c : Constraint) (x : List Int)
    (hc : cs[i]? = some c) (hdim : c.expr.coefficients.length ≤ d)
    (hkind : c.type ≠ Constraint_Type.OTHER) (hineq : c.type ≠ Constraint_Type.EQUAL) :
    (cloog_matrix_to_ppl_constraint
      (CloogMatrix.mk cs.length (d + 2) (cs.map (constraint_row (d + 2)))) i).holds x ↔
      c.holds x := by
  have hi : i < cs.length := by
    by_contra h
    rw [List.getElem?_eq_none_iff.mpr (Nat.le_of_not_lt h)] at hc
    cases hc
  have hr : (CloogMatrix.mk cs.length (d + 2) (cs.map (constraint_row (d + 2)))).row i =
      constraint_row (d + 2) c := by
    simp [CloogMatrix.row, List.getD_eq_getElem?_getD, List.getElem?_map, hc]
  have hself := CloogMatrix.withRow_self
    (CloogMatrix.mk cs.length (d + 2) (cs.map (constraint_row (d + 2)))) i
  rw [hr] at hself
  have h := read_back_holds
    (CloogMatrix.mk cs.length (d + 2) (cs.map (constraint_row (d + 2)))) i c x
    (by simp only [List.length_map]; exact hi) (by simp only []; omega) hkind hineq
  simp only [] at h
  rw [hself] at h
  exact h

/-! ## Claims on the dimension map, strip-mining, round trips and setters -/

/-- C31: the array `map` that `shift_poly (ph, x, dim)` builds and hands to
`ppl_Polyhedron_map_space_dimensions` is, for `0 ≤ x ≤ dim`, a permutation of
`0 .. dim`: it has `dim + 1` entries, `map[i] = i` for `i < x`,
`map[i] = i + 1` for `x ≤ i < dim` and `map[dim] = x`; it sends `0 .. dim`
into `0 .. dim`, injectively and onto; `x` is the image of `dim` only; and the
assignments write the indices `0, 1, .., dim`, each exactly once. -/
theorem C31_shift_map_permutation (x dim : Nat) (hx : x ≤ dim) :
    (∀ ph : Polyhedron, shift_poly ph x dim =
      ppl_Polyhedron_map_space_dimensions
        (ppl_Polyhedron_add_constraints (ppl_new_NNC_Polyhedron_from_space_dimension (dim + 1) 0)
          (ppl_Polyhedron_get_constraints ph)) (shift_map x dim) (dim + 1)) ∧
    (shift_map x dim).length = dim + 1 ∧
    (∀ i, i < x → (shift_map x dim).getD i 0 = i) ∧
    (∀ i, x ≤ i → i < dim → (shift_map x dim).getD i 0 = i + 1) ∧
    (shift_map x dim).getD dim 0 = x ∧
    (∀ i, i ≤ dim → (shift_map x dim).getD i 0 ≤ dim) ∧
    (∀ i j, i ≤ dim → j ≤ dim →
      (shift_map x dim).getD i 0 = (shift_map x dim).getD j 0 → i = j) ∧
    (∀ k, k ≤ dim → ∃ i, i ≤ dim ∧ (shift_map x dim).getD i 0 = k) ∧
    (∀ i, i ≤ dim → ((shift_map x dim).getD i 0 = x ↔ i = dim)) ∧
    shift_map_writes x dim = List.range (dim + 1) ∧
    (shift_map_writes x dim).Nodup := by
  have hg : ∀ i, i ≤ dim →
      (shift_map x dim).getD i 0 = if i < x then i else if i < dim then i + 1 else x :=
    fun i hi => shift_map_getD x dim i hx hi
  refine ⟨fun _ => rfl, shift_map_length x dim, ?_, ?_, ?_, ?_, ?_, ?_, ?_,
    shift_map_writes_eq x dim hx, ?_⟩
  · intro i hi
    rw [hg i (by omega), if_pos hi]
  · intro i hxi hi
    rw [hg i (by omega), if_neg (by omega), if_pos hi]
  · rw [hg dim (Nat.le_refl _), if_neg (by omega), if_neg (by omega)]
  · intro i hi
    rw [hg i hi]
    split
    · omega
    · split <;> omega
  · intro i j hi hj h
    rw [hg i hi, hg j hj] at h
    split at h <;> split at h <;> (try split at h) <;> (try split at h) <;> omega
  · intro k hk
    by_cases h1 : k < x
    · exact ⟨k, hk, by rw [hg k hk, if_pos h1]⟩
    · by_cases h2 : k = x
      · exact ⟨dim, Nat.le_refl _, by
          rw [hg dim (Nat.le_refl _), if_neg (by omega), if_neg (by omega), h2]⟩
      · exact ⟨k - 1, by omega, by
          rw [hg (k - 1) (by omega), if_neg (by omega), if_pos (by omega)]; omega⟩
  · intro i hi
    rw [hg i hi]
    constructor
    · intro h
      split at h
      · omega
      · split at h <;> omega
    · intro h
      rw [if_neg (by omega), if_neg (by omega)]
  · rw [shift_map_writes_eq x dim hx]
    exact List.nodup_range _

/-- Witness of C31: the map of `shift_poly (ph, 1, 3)` is `[0, 2, 3, 1]`. -/
theorem C31_shift_map_permutation_witness :
    shift_map 1 3 = [0, 2, 3, 1] ∧ shift_map_writes 1 3 = [0, 1, 2, 3] ∧
    (∀ k, k ≤ 3 → ∃ i, i ≤ 3 ∧ (shift_map 1 3).getD i 0 = k) :=
  ⟨by decide, by decide, (C31_shift_map_permutation 1 3 (by decide)).2.2.2.2.2.2.2.1⟩

/-- C32 (code defect, the one of C26): for the 1-dimensional polyhedron
`4294967296 i - 4294967296 ≥ 0`, `loop = 0` and `stride = 4`, the coefficient
of the constraint on `loop` is nonzero, the point `(t, i) = (0, 1)` belongs to
the result of `ppl_strip_loop`, and the constraint does not hold at the point
`(0)` obtained by deleting coordinate `loop + 1`: the coefficient reads as 0
after `value_get_si`, so the bound is not re-derived on the tile index.  With
the coefficient 1 (`i - 1 ≥ 0`) the bound is re-derived and `(0, 1)` is not a
point of the result. -/
theorem C32_bound_not_rederived_for_wide_coefficient :
    ppl_Constraint_coefficient
        ⟨⟨[4294967296], -4294967296⟩, Constraint_Type.GREATER_OR_EQUAL⟩ 0 ≠ 0 ∧
    (ppl_strip_loop
        { space_dimension := 1,
          constraints := [⟨⟨[4294967296], -4294967296⟩, Constraint_Type.GREATER_OR_EQUAL⟩] }
        0 4).contains [(0 : Int), 1] ∧
    ¬ (Constraint.mk ⟨[4294967296], -4294967296⟩ Constraint_Type.GREATER_OR_EQUAL).holds
        (deleteAt [(0 : Int), 1] (0 + 1)) ∧
    ¬ (ppl_strip_loop
        { space_dimension := 1,
          constraints := [⟨⟨[1], -1⟩, Constraint_Type.GREATER_OR_EQUAL⟩] }
        0 4).contains [(0 : Int), 1] := by
  refine ⟨by decide, by decide, by decide, by decide⟩

/-- C33: for a polyhedron `P` of dimension `dim`, `loop < dim` and
`stride ≥ 1`, every integer point `x` of `ppl_strip_loop (P, loop, stride)` has
`x[loop] = floor (x[loop+1] / stride)`; hence two integer points of the result
that agree on every coordinate except index `loop` are equal. -/
theorem C33_tile_index_determined (P : Polyhedron) (loop : Nat) (stride : Int)
    (x y : List Int) (hwf : P.wf) (hloop : loop < P.space_dimension) (hstride : 1 ≤ stride)
    (hx : (ppl_strip_loop P loop stride).contains x)
    (hy : (ppl_strip_loop P loop stride).contains y)
    (hagree : ∀ i, i ≠ loop → x.getD i 0 = y.getD i 0) :
    x.getD loop 0 = x.getD (loop + 1) 0 / stride ∧
    y.getD loop 0 = y.getD (loop + 1) 0 / stride ∧
    x = y := by
  have key : ∀ z : List Int, (ppl_strip_loop P loop stride).contains z →
      z.length = P.space_dimension + 1 ∧ z.getD loop 0 = z.getD (loop + 1) 0 / stride := by
    intro z hz
    rw [ppl_strip_loop_contains P loop stride z hwf hloop] at hz
    obtain ⟨hlen, _, _, hlow, hup⟩ := hz
    simp only [Int.cast_id] at hlow hup
    refine ⟨hlen, ?_⟩
    have hpos : 0 < stride := by omega
    have h1 : z.getD loop 0 ≤ z.getD (loop + 1) 0 / stride :=
      (Int.le_ediv_iff_mul_le hpos).mpr (by linarith [mul_comm (z.getD loop 0) stride])
    have h2 : z.getD (loop + 1) 0 / stride < z.getD loop 0 + 1 :=
      (Int.ediv_lt_iff_lt_mul hpos).mpr (by
        have : (z.getD loop 0 + 1) * stride = stride * z.getD loop 0 + stride := by ring
        linarith)
    omega
  obtain ⟨hxl, hxt⟩ := key x hx
  obtain ⟨hyl, hyt⟩ := key y hy
  refine ⟨hxt, hyt, ?_⟩
  apply list_eq_of_getD
  · rw [hxl, hyl]
  · intro j _
    by_cases hj : j = loop
    · subst hj
      rw [hxt, hyt, hagree (j + 1) (by omega)]
    · exact hagree j hj

/-- Witness of C33: in the strip-mining of `0 ≤ i ≤ 9` by 4, the point
`(1, 5)` has tile index `1 = floor (5 / 4)`. -/
theorem C33_tile_index_determined_witness :
    (ppl_strip_loop loop_0_9 0 4).contains [(1 : Int), 5] ∧
    ([(1 : Int), 5]).getD 0 0 = ([(1 : Int), 5]).getD (0 + 1) 0 / 4 :=
  ⟨by decide, (C33_tile_index_determined loop_0_9 0 4 [1, 5] [1, 5] (by decide) (by decide)
    (by decide) (by decide) (by decide) (fun _ _ => rfl)).1⟩

/-- Counterexample to C34 as stated: the polyhedron of dimension 1 with no
constraint contains the integer point `(0)`; its matrix has no row, and the
polyhedron built from that matrix has dimension 0 and does not contain
`(0)`. -/
theorem C34_counterexample :
    (Polyhedron.mk 1 []).wf ∧
    (Polyhedron.mk 1 []).contains [(0 : Int)] ∧
    new_Cloog_Matrix_from_ppl_Polyhedron (Polyhedron.mk 1 []) = some (CloogMatrix.mk 0 3 []) ∧
    ppl_Polyhedron_space_dimension
      (new_NNC_Polyhedron_from_Cloog_Matrix (CloogMatrix.mk 0 3 [])) = 0 ∧
    ¬ (new_NNC_Polyhedron_from_Cloog_Matrix (CloogMatrix.mk 0 3 [])).contains [(0 : Int)] := by
  refine ⟨by decide, by decide, by decide, by decide, by decide⟩

/-- C34 (amended): for a polyhedron `P` with at least one constraint, whose
constraints are inequalities (`LESS_THAN`, `LESS_OR_EQUAL`,
`GREATER_OR_EQUAL` or `GREATER_THAN`), the polyhedron obtained by
`new_Cloog_Matrix_from_ppl_Polyhedron` followed by
`new_NNC_Polyhedron_from_Cloog_Matrix` contains exactly the same integer
points as `P`, and all of its constraints are of kind `EQUAL` or
`GREATER_OR_EQUAL`.  Nothing is stated for a polyhedron with an `EQUAL`
constraint, which is read back as an inequality (see C35). -/
theorem C34_polyhedron_round_trip_points (P : Polyhedron) (hwf : P.wf)
    (hkind : ∀ c ∈ P.constraints,
      ppl_Constraint_type c = Constraint_Type.LESS_THAN ∨
      ppl_Constraint_type c = Constraint_Type.LESS_OR_EQUAL ∨
      ppl_Constraint_type c = Constraint_Type.GREATER_OR_EQUAL ∨
      ppl_Constraint_type c = Constraint_Type.GREATER_THAN)
    (hne : P.constraints ≠ []) :
    ∃ m', new_Cloog_Matrix_from_ppl_Polyhedron P = some m' ∧
      (∀ x : List Int, (new_NNC_Polyhedron_from_Cloog_Matrix m').contains x ↔ P.contains x) ∧
      (∀ c ∈ (new_NNC_Polyhedron_from_Cloog_Matrix m').constraints,
        ppl_Constraint_type c = Constraint_Type.EQUAL ∨
        ppl_Constraint_type c = Constraint_Type.GREATER_OR_EQUAL) := by
  have hother : ∀ c ∈ P.constraints, c.type ≠ Constraint_Type.OTHER := by
    intro c hc
    have h := hkind c hc
    unfold ppl_Constraint_type at h
    rcases h with h | h | h | h <;> rw [h] <;> decide
  have hineq : ∀ c ∈ P.constraints, c.type ≠ Constraint_Type.EQUAL := by
    intro c hc
    have h := hkind c hc
    unfold ppl_Constraint_type at h
    rcases h with h | h | h | h <;> rw [h] <;> decide
  have hm : new_Cloog_Matrix_from_ppl_Polyhedron P =
      some (CloogMatrix.mk P.constraints.length (P.space_dimension + 2)
        (P.constraints.map (constraint_row (P.space_dimension + 2)))) :=
    new_Cloog_Matrix_from_ppl_Constraint_System_eq (ppl_Polyhedron_get_constraints P) hother hwf
  refine ⟨_, hm, ?_, ?_⟩
  · intro x
    rw [new_NNC_Polyhedron_from_Cloog_Matrix_eq]
    have hn : ¬ (P.constraints.length = 0) := fun h => hne (List.length_eq_zero.mp h)
    unfold Polyhedron.contains
    simp only [if_neg hn, Nat.add_sub_cancel, List.mem_map, List.mem_range'_1,
      forall_exists_index, and_imp]
    constructor
    · rintro ⟨hl, h⟩
      refine ⟨hl, fun c hc => ?_⟩
      obtain ⟨i, hi⟩ := List.mem_iff_getElem?.mp hc
      have hil : i < P.constraints.length := by
        by_contra hcon
        rw [List.getElem?_eq_none_iff.mpr (Nat.le_of_not_lt hcon)] at hi
        cases hi
      exact (round_trip_row P.constraints P.space_dimension i c x hi (hwf c hc)
        (hother c hc) (hineq c hc)).mp (h _ i (Nat.zero_le _) (by omega) rfl)
    · rintro ⟨hl, h⟩
      refine ⟨hl, ?_⟩
      rintro c' i _ hi rfl
      have hil : i < P.constraints.length := by omega
      have hc : P.constraints[i]? = some (P.constraints[i]) := List.getElem?_eq_getElem hil
      have hmem : P.constraints[i] ∈ P.constraints := List.getElem_mem hil
      exact (round_trip_row P.constraints P.space_dimension i _ x hc (hwf _ hmem)
        (hother _ hmem) (hineq _ hmem)).mpr (h _ hmem)
  · intro c hc
    rw [new_NNC_Polyhedron_from_Cloog_Matrix_eq] at hc
    obtain ⟨k, _, rfl⟩ := List.mem_map.mp hc
    unfold ppl_Constraint_type
    rw [cloog_constraint_type]
    exact Or.inr rfl

/-- Witness of C34 (amended): `x - 5 < 0`, `x + y - 5 > 0` and `y - 3 ≤ 0`
over 2 dimensions; the point `(4, 2)` belongs to the polyhedron read back and
the point `(4, 1)`, which is not in the polyhedron, does not. -/
theorem C34_polyhedron_round_trip_points_witness :
    ∃ m', new_Cloog_Matrix_from_ppl_Polyhedron
        (Polyhedron.mk 2 [⟨⟨[1], -5⟩, Constraint_Type.LESS_THAN⟩,
          ⟨⟨[1, 1], -5⟩, Constraint_Type.GREATER_THAN⟩,
          ⟨⟨[0, 1], -3⟩, Constraint_Type.LESS_OR_EQUAL⟩]) = some m' ∧
      (new_NNC_Polyhedron_from_Cloog_Matrix m').contains [(4 : Int), 2] ∧
      ¬ (new_NNC_Polyhedron_from_Cloog_Matrix m').contains [(4 : Int), 1] :=
  let ⟨m', h1, h2, _⟩ := C34_polyhedron_round_trip_points
    (Polyhedron.mk 2 [⟨⟨[1], -5⟩, Constraint_Type.LESS_THAN⟩,
      ⟨⟨[1, 1], -5⟩, Constraint_Type.GREATER_THAN⟩,
      ⟨⟨[0, 1], -3⟩, Constraint_Type.LESS_OR_EQUAL⟩]) (by decide) (by decide) (by decide)
  ⟨m', h1, (h2 [4, 2]).mpr (by decide), fun h => absurd ((h2 [4, 1]).mp h) (by decide)⟩

/-- C35 (code defect, the one of C2): the constraint `3 x - y + 4 = 0` is
written by `insert_constraint_into_matrix` as the row `[0, 3, -1, 4]`, and
`cloog_matrix_to_ppl_constraint` reads that row back as `3 x - y + 4 ≥ 0`:
dimension, coefficients and constant term are those of the constraint, the
kind is `GREATER_OR_EQUAL` instead of `EQUAL`.  The constraint
`3 x - y + 4 ≥ 0` is read back as itself. -/
theorem C35_equality_read_back_as_inequality :
    (insert_constraint_into_matrix (cloog_matrix_alloc 1 4) 0
        ⟨⟨[3, -1], 4⟩, Constraint_Type.EQUAL⟩).map (fun m => m.row 0) =
      some [0, 3, -1, 4] ∧
    (insert_constraint_into_matrix (cloog_matrix_alloc 1 4) 0
        ⟨⟨[3, -1], 4⟩, Constraint_Type.EQUAL⟩).map
      (fun m => cloog_matrix_to_ppl_constraint m 0) =
      some ⟨⟨[3, -1], 4⟩, Constraint_Type.GREATER_OR_EQUAL⟩ ∧
    (insert_constraint_into_matrix (cloog_matrix_alloc 1 4) 0
        ⟨⟨[3, -1], 4⟩, Constraint_Type.GREATER_OR_EQUAL⟩).map
      (fun m => cloog_matrix_to_ppl_constraint m 0) =
      some ⟨⟨[3, -1], 4⟩, Constraint_Type.GREATER_OR_EQUAL⟩ := by
  refine ⟨by decide, by decide, by decide⟩

/-- C36: for a matrix `m`, a valid row index `row` and a constraint (of one of
the five kinds) over `dim ≤ NbColumns - 2` dimensions,
`insert_constraint_into_matrix` leaves every row other than `row` (and the
shape of the matrix) unchanged, and the row it writes depends only on the
constraint and on `NbColumns`: the same constraint written into any row of any
matrix with as many columns gives the same row. -/
theorem C36_insert_overwrites_one_row (m : CloogMatrix) (row : Nat) (cstr : Constraint)
    (hrow : row < m.p.length) (hlen : (m.row row).length = m.NbColumns)
    (hdim : ppl_Constraint_space_dimension cstr + 2 ≤ m.NbColumns)
    (hkind : ppl_Constraint_type cstr ≠ Constraint_Type.OTHER) :
    ∃ m', insert_constraint_into_matrix m row cstr = some m' ∧
      m'.NbRows = m.NbRows ∧ m'.NbColumns = m.NbColumns ∧ m'.p.length = m.p.length ∧
      (∀ r, r ≠ row → m'.row r = m.row r) ∧
      (m'.row row).length = m.NbColumns ∧
      (∀ (m₂ : CloogMatrix) (row₂ : Nat), row₂ < m₂.p.length →
        (m₂.row row₂).length = m₂.NbColumns → m₂.NbColumns = m.NbColumns →
        ∃ m₂', insert_constraint_into_matrix m₂ row₂ cstr = some m₂' ∧
          m₂'.row row₂ = m'.row row) := by
  refine ⟨_, insert_eq m row cstr hrow hlen hdim hkind, rfl, rfl, ?_, ?_, ?_, ?_⟩
  · simp [CloogMatrix.withRow]
  · intro r hr
    exact CloogMatrix.row_withRow_of_ne m row r _ hr
  · rw [CloogMatrix.row_withRow m row _ hrow, constraint_row_length]
  · intro m₂ row₂ hrow₂ hlen₂ hsame
    refine ⟨_, insert_eq m₂ row₂ cstr hrow₂ hlen₂ (by rw [hsame]; exact hdim) hkind, ?_⟩
    rw [CloogMatrix.row_withRow m₂ row₂ _ hrow₂, CloogMatrix.row_withRow m row _ hrow, hsame]

/-- Witness of C36: `x - 5 < 0` written into row 1 of the matrix
`[[1, 2, 3], [4, 5, 6]]` leaves row 0 as it is and gives the row `[1, -1, 4]`. -/
theorem C36_insert_overwrites_one_row_witness :
    (insert_constraint_into_matrix (CloogMatrix.mk 2 3 [[1, 2, 3], [4, 5, 6]]) 1
        ⟨⟨[1], -5⟩, Constraint_Type.LESS_THAN⟩).map (fun m => m.p) =
      some [[1, 2, 3], [1, -1, 4]] ∧
    ∃ m', insert_constraint_into_matrix (CloogMatrix.mk 2 3 [[1, 2, 3], [4, 5, 6]]) 1
        ⟨⟨[1], -5⟩, Constraint_Type.LESS_THAN⟩ = some m' ∧
      ∀ r, r ≠ 1 → m'.row r = (CloogMatrix.mk 2 3 [[1, 2, 3], [4, 5, 6]]).row r :=
  let ⟨m', h1, _, _, _, h2, _⟩ := C36_insert_overwrites_one_row
    (CloogMatrix.mk 2 3 [[1, 2, 3], [4, 5, 6]]) 1 ⟨⟨[1], -5⟩, Constraint_Type.LESS_THAN⟩
    (by decide) (by decide) (by decide) (by decide)
  ⟨by decide, m', h1, h2⟩

/-- C37: for a matrix with `NbRows ≥ 1` and `NbColumns ≥ 2`, the polyhedron
built by `new_NNC_Polyhedron_from_Cloog_Matrix` has space dimension
`NbColumns - 2`, also when trailing coefficient columns are all zero, so
`new_Cloog_Matrix_from_ppl_Polyhedron` turns it into a matrix with the same
number of columns (and of rows). -/
theorem C37_matrix_to_polyhedron_dimension (m : CloogMatrix) (hrows : 1 ≤ m.NbRows)
    (hcols : 2 ≤ m.NbColumns) :
    ppl_Polyhedron_space_dimension (new_NNC_Polyhedron_from_Cloog_Matrix m) =
      m.NbColumns - 2 ∧
    ∃ m', new_Cloog_Matrix_from_ppl_Polyhedron (new_NNC_Polyhedron_from_Cloog_Matrix m) =
        some m' ∧
      m'.NbColumns = m.NbColumns ∧ m'.NbRows = m.NbRows := by
  have hne : ¬ (m.NbRows = 0) := by omega
  rw [new_NNC_Polyhedron_from_Cloog_Matrix_eq, if_neg hne]
  refine ⟨rfl, ?_⟩
  unfold new_Cloog_Matrix_from_ppl_Polyhedron
  simp only [ppl_Polyhedron_get_constraints]
  rw [new_Cloog_Matrix_from_ppl_Constraint_System_eq]
  · refine ⟨_, rfl, ?_, ?_⟩
    · simp only; omega
    · simp
  · intro c hc
    obtain ⟨k, _, rfl⟩ := List.mem_map.mp hc
    exact cloog_constraint_kind m k
  · intro c hc
    obtain ⟨k, hk, rfl⟩ := List.mem_map.mp hc
    rw [cloog_constraint_dimension]

/-- Witness of C37: a matrix of one row and 5 columns whose last two
coefficient columns are zero gives a polyhedron of dimension 3 and, back, a
matrix of 5 columns. -/
theorem C37_matrix_to_polyhedron_dimension_witness :
    ppl_Polyhedron_space_dimension
        (new_NNC_Polyhedron_from_Cloog_Matrix (CloogMatrix.mk 1 5 [[1, 2, 0, 0, -3]])) = 3 ∧
    (new_Cloog_Matrix_from_ppl_Polyhedron
        (new_NNC_Polyhedron_from_Cloog_Matrix (CloogMatrix.mk 1 5 [[1, 2, 0, 0, -3]]))).map
      (fun m => m.NbColumns) = some 5 :=
  ⟨(C37_matrix_to_polyhedron_dimension (CloogMatrix.mk 1 5 [[1, 2, 0, 0, -3]])
      (by decide) (by decide)).1, by decide⟩

/-- C38: `set_coef (e, i, x)` sets, it does not add: for `i` below the
dimension of `e` the coefficient of dimension `i` becomes `x` whatever it was
before, every other coefficient and the inhomogeneous term are unchanged, and
so is the dimension of the expression. -/
theorem C38_set_coef_sets (e : Linear_Expression) (i : Nat) (x : Int)
    (hi : i < ppl_Linear_Expression_space_dimension e) :
    ppl_Linear_Expression_coefficient (set_coef e i x) i = x ∧
    (∀ j, j ≠ i → ppl_Linear_Expression_coefficient (set_coef e i x) j =
      ppl_Linear_Expression_coefficient e j) ∧
    ppl_Linear_Expression_inhomogeneous_term (set_coef e i x) =
      ppl_Linear_Expression_inhomogeneous_term e ∧
    ppl_Linear_Expression_space_dimension (set_coef e i x) =
      ppl_Linear_Expression_space_dimension e := by
  have hi' : i < e.coefficients.length := hi
  rw [set_coef_of_lt e i x hi']
  simp only [ppl_Linear_Expression_coefficient, ppl_Linear_Expression_inhomogeneous_term,
    ppl_Linear_Expression_space_dimension, List.length_set, List.getD_eq_getElem?_getD]
  refine ⟨?_, ?_, trivial, trivial⟩
  · rw [List.getElem?_set_self hi']; rfl
  · intro j hj
    rw [List.getElem?_set_ne (fun h => hj h.symm)]

/-- Witness of C38: on `3 x + 7 y - 2`, `set_coef (e, 1, 5)` gives
`3 x + 5 y - 2`. -/
theorem C38_set_coef_sets_witness :
    set_coef ⟨[3, 7], -2⟩ 1 5 = ⟨[3, 5], -2⟩ ∧
    ppl_Linear_Expression_coefficient (set_coef ⟨[3, 7], -2⟩ 1 5) 1 = 5 :=
  ⟨by decide, (C38_set_coef_sets ⟨[3, 7], -2⟩ 1 5 (by decide)).1⟩

/-- C39: `set_inhomogeneous (e, x)` sets, it does not add: the inhomogeneous
term becomes `x` whatever it was before, and every coefficient of `e` (and the
dimension of `e`) is unchanged. -/
theorem C39_set_inhomogeneous_sets (e : Linear_Expression) (x : Int) :
    ppl_Linear_Expression_inhomogeneous_term (set_inhomogeneous e x) = x ∧
    (∀ j, ppl_Linear_Expression_coefficient (set_inhomogeneous e x) j =
      ppl_Linear_Expression_coefficient e j) ∧
    ppl_Linear_Expression_space_dimension (set_inhomogeneous e x) =
      ppl_Linear_Expression_space_dimension e := by
  rw [set_inhomogeneous_eq e x]
  exact ⟨rfl, fun _ => rfl, rfl⟩

/-- Witness of C39: on `3 x + 7 y - 2`, `set_inhomogeneous (e, 5)` gives
`3 x + 7 y + 5`. -/
theorem C39_set_inhomogeneous_sets_witness :
    set_inhomogeneous ⟨[3, 7], -2⟩ 5 = ⟨[3, 7], 5⟩ ∧
    ppl_Linear_Expression_inhomogeneous_term (set_inhomogeneous ⟨[3, 7], -2⟩ 5) = 5 :=
  ⟨by decide, (C39_set_inhomogeneous_sets ⟨[3, 7], -2⟩ 5).1⟩

end GraphitePPL
